import Mathlib

/-!
Verification development for the Massa execution slot sequencer,
the protocol block/operation message codec and the address module.

The sequencer definitions are shallow embeddings of
`src/massa-execution-worker/src/slot_sequencer.rs`; the codec definitions
embed `src/massa-protocol-worker/src/handlers/block_handler/messages.rs`
and `src/massa-protocol-worker/src/handlers/operation_handler/messages.rs`;
the address definitions embed `src/massa-models/src/address.rs`.

Rust `panic!`/`expect` failures are modelled by returning `none`;
`u64`/`u8` quantities are modelled as `Nat` (checked arithmetic panics on
overflow in the source and its absence is harmless for the stated claims).
Wall-clock access (`get_time_cursor`) is modelled by passing the slot that
the time cursor denotes as an explicit argument.
-/

namespace Massa

/-- Modelled from the spec: `Slot` is defined in `massa-models/src/slot.rs`
which is not under `src/`.  Per §3 of the spec a slot is a pair
`(period, thread)` totally ordered first by period then by thread. -/
structure Slot where
  period : Nat
  thread : Nat
deriving DecidableEq, Repr

namespace Slot

/-- Lexicographic strict order on slots (period first, then thread). -/
instance : LT Slot :=
  ⟨fun a b => a.period < b.period ∨ (a.period = b.period ∧ a.thread < b.thread)⟩

/-- Lexicographic order on slots (period first, then thread). -/
instance : LE Slot :=
  ⟨fun a b => a.period < b.period ∨ (a.period = b.period ∧ a.thread ≤ b.thread)⟩

instance decidableLT : DecidableRel (fun a b : Slot => a < b) := fun a b =>
  inferInstanceAs (Decidable (a.period < b.period ∨ (a.period = b.period ∧ a.thread < b.thread)))

instance decidableLE : DecidableRel (fun a b : Slot => a ≤ b) := fun a b =>
  inferInstanceAs (Decidable (a.period < b.period ∨ (a.period = b.period ∧ a.thread ≤ b.thread)))

instance : LinearOrder Slot where
  le_refl a := Or.inr ⟨rfl, le_refl _⟩
  le_trans a b c hab hbc := by
    have h1 : a.period < b.period ∨ (a.period = b.period ∧ a.thread ≤ b.thread) := hab
    have h2 : b.period < c.period ∨ (b.period = c.period ∧ b.thread ≤ c.thread) := hbc
    show a.period < c.period ∨ (a.period = c.period ∧ a.thread ≤ c.thread)
    omega
  le_antisymm a b hab hba := by
    have h1 : a.period < b.period ∨ (a.period = b.period ∧ a.thread ≤ b.thread) := hab
    have h2 : b.period < a.period ∨ (b.period = a.period ∧ b.thread ≤ a.thread) := hba
    cases a
    cases b
    simp only [Slot.mk.injEq]
    simp only at h1 h2
    omega
  le_total a b := by
    show (a.period < b.period ∨ (a.period = b.period ∧ a.thread ≤ b.thread)) ∨
      (b.period < a.period ∨ (b.period = a.period ∧ b.thread ≤ a.thread))
    omega
  lt_iff_le_not_le a b := by
    show (a.period < b.period ∨ (a.period = b.period ∧ a.thread < b.thread)) ↔
      (a.period < b.period ∨ (a.period = b.period ∧ a.thread ≤ b.thread)) ∧
      ¬ (b.period < a.period ∨ (b.period = a.period ∧ b.thread ≤ a.thread))
    omega
  decidableLE := decidableLE
  decidableLT := decidableLT

/-- Modelled from the spec (§3): `next((p,t)) = (p, t+1)` if `t+1 < thread_count`
else `(p+1, 0)`.  The source `Slot::get_next_slot` is in `massa-models/src/slot.rs`,
not under `src/`; on `u64` overflow it errors (its callers panic), which cannot
happen over `Nat`. -/
def get_next_slot (s : Slot) (thread_count : Nat) : Slot :=
  if s.thread + 1 < thread_count then ⟨s.period, s.thread + 1⟩ else ⟨s.period + 1, 0⟩

/-- Modelled from the spec (§2, §4.2): `prev` of a slot, `none` on underflow at
the very first slot.  The source `Slot::get_prev_slot` is in
`massa-models/src/slot.rs`, not under `src/`. -/
def get_prev_slot (s : Slot) (thread_count : Nat) : Option Slot :=
  if s.thread = 0 then
    if s.period = 0 then none else some ⟨s.period - 1, thread_count - 1⟩
  else
    some ⟨s.period, s.thread - 1⟩

/-- Global index of a slot: `period * thread_count + thread`. -/
def index (s : Slot) (thread_count : Nat) : Nat :=
  s.period * thread_count + s.thread

/-- Modelled from the spec (§4.2, §9): number of slots elapsed from `t` up to
`s`, `none` on underflow (`s` before `t`).  The source `Slot::slots_since` is in
`massa-models/src/slot.rs`, not under `src/`. -/
def slots_since (s t : Slot) (thread_count : Nat) : Option Nat :=
  if t.index thread_count ≤ s.index thread_count then
    some (s.index thread_count - t.index thread_count)
  else
    none

/-- A slot is valid for a thread count when its thread is in range. -/
def Valid (s : Slot) (thread_count : Nat) : Prop :=
  s.thread < thread_count

instance (s : Slot) (tc : Nat) : Decidable (Valid s tc) :=
  inferInstanceAs (Decidable (s.thread < tc))

end Slot

/-- Helper: minimum of a list of slots, `none` on the empty list.  Models
`iter().min()` on a `Vec<Slot>`. -/
def slotListMin : List Slot → Option Slot
  | [] => none
  | s :: rest =>
    match slotListMin rest with
    | none => some s
    | some m => some (min s m)

/-- Helper: maximum of a list of slots, `none` on the empty list.  Models
`iter().max()` on a `Vec<Slot>`. -/
def slotListMax : List Slot → Option Slot
  | [] => none
  | s :: rest =>
    match slotListMax rest with
    | none => some s
    | some m => some (max s m)

/-- Block identifier.  `BlockId` (massa-models) is an opaque 32-byte hash for
the purposes of the sequencer; modelled as `Nat`. -/
abbrev BlockId := Nat

/-- Opaque execution block metadata (`ExecutionBlockMetadata`,
massa-execution-exports).  The sequencer only moves it around; modelled as
`Nat`. -/
abbrev ExecutionBlockMetadata := Nat

/-- Remove the entry with key `k` from an association list, returning the
removed value (if present) and the remaining list.  Models `HashMap::remove`
(map keys are unique, so removing the first match). -/
def assocRemove {κ α : Type} [DecidableEq κ] (k : κ) :
    List (κ × α) → Option α × List (κ × α)
  | [] => (none, [])
  | (k2, v) :: rest =>
    if k2 = k then (some v, rest)
    else
      let r := assocRemove k rest
      (r.1, (k2, v) :: r.2)

/-- Configuration fields of `ExecutionConfig` that the sequencer logic uses.
The time-related fields (`t0`, `genesis_timestamp`, `cursor_delay`) only feed
`get_time_cursor`, which is modelled as an explicit slot argument. -/
structure ExecutionConfig where
  thread_count : Nat
  last_start_period : Nat
deriving DecidableEq, Repr

/-- Information about a slot in the execution sequence
(`SlotInfo`, slot_sequencer.rs). -/
structure SlotInfo where
  slot : Slot
  consensus_final : Bool
  execution_final : Bool
  content : Option (BlockId × ExecutionBlockMetadata)
deriving DecidableEq, Repr

namespace SlotInfo

/-- Get the block ID (if any) at that slot (`SlotInfo::get_block_id`). -/
def get_block_id (s : SlotInfo) : Option BlockId :=
  s.content.map Prod.fst

end SlotInfo

/-- Structure allowing execution slot sequence management
(`SlotSequencer`, slot_sequencer.rs).  The deque is modelled as a list with
the oldest slot at the head. -/
structure SlotSequencer where
  config : ExecutionConfig
  sequence : List SlotInfo
  latest_consensus_final_slots : List Slot
  latest_execution_final_slot : Slot
  latest_executed_final_slot : Slot
  latest_executed_candidate_slot : Slot
deriving DecidableEq, Repr

namespace SlotSequencer

/-- Create a new slot sequencer (`SlotSequencer::new`). -/
def new (config : ExecutionConfig) (final_cursor : Slot) : SlotSequencer :=
  { config := config
    sequence := []
    latest_consensus_final_slots :=
      (List.range config.thread_count).map fun t => ⟨config.last_start_period, t⟩
    latest_execution_final_slot := final_cursor
    latest_executed_final_slot := final_cursor
    latest_executed_candidate_slot := final_cursor }

/-- Update of `latest_consensus_final_slots` performed at the start of
`init` and `update`: for each newly CSS-final block at slot `s`, raise the
watermark of thread `s.thread` if `s.period` is larger.  Returns `none` when
`s.thread` is out of bounds (Rust index panic). -/
def update_latest_consensus_final_slots (lcfs : List Slot)
    (new_consensus_final_blocks : List (Slot × BlockId)) : Option (List Slot) :=
  new_consensus_final_blocks.foldlM
    (fun acc p =>
      match acc.get? p.1.thread with
      | none => none
      | some cur =>
        if cur.period < p.1.period then some (acc.set p.1.thread p.1) else some acc)
    lcfs

/-- One slot of the new slot sequence (`SlotSequencer::sequence_build_step`).
Returns the produced `SlotInfo`, the `overwrites_history` flag and the
remaining metadata map; `none` models the `expect` panic on missing block
metadata. -/
def sequence_build_step (slot : Slot) (prev_item : Option SlotInfo)
    (new_consensus_final : Bool) (new_consensus_final_block : Option BlockId)
    (blockclique_updated : Bool) (new_blockclique_block : Option BlockId)
    (new_blocks_metadata : List (BlockId × ExecutionBlockMetadata))
    (in_execution_finality : Bool) :
    Option ((SlotInfo × Bool) × List (BlockId × ExecutionBlockMetadata)) :=
  match prev_item with
  | some prev_slot_info =>
    -- The slot was already present in the old sequence.
    if prev_slot_info.consensus_final then
      -- The slot was CSS-final: recycle, refreshing the SCE-final flag.
      some (({ prev_slot_info with execution_final := in_execution_finality }, false),
        new_blocks_metadata)
    else if new_consensus_final then
      -- The slot was not CSS-final and needs to become CSS-final.
      if prev_slot_info.get_block_id = new_consensus_final_block then
        some (({ prev_slot_info with
                  consensus_final := true
                  execution_final := in_execution_finality }, false),
          new_blocks_metadata)
      else
        match new_consensus_final_block with
        | none =>
          some (({ prev_slot_info with
                    consensus_final := true
                    execution_final := in_execution_finality
                    content := none }, true), new_blocks_metadata)
        | some b_id =>
          match assocRemove b_id new_blocks_metadata with
          | (none, _) => none
          | (some md, md_rest) =>
            some (({ prev_slot_info with
                      consensus_final := true
                      execution_final := in_execution_finality
                      content := some (b_id, md) }, true), md_rest)
    else if !blockclique_updated then
      -- No new blockclique: replicate the existing speculative slot state.
      some ((prev_slot_info, false), new_blocks_metadata)
    else if new_blockclique_block = prev_slot_info.get_block_id then
      some ((prev_slot_info, false), new_blocks_metadata)
    else
      -- New blockclique with mismatching contents at this slot.
      match new_blockclique_block with
      | none =>
        some (({ prev_slot_info with content := none }, true), new_blocks_metadata)
      | some b_id =>
        match assocRemove b_id new_blocks_metadata with
        | (none, _) => none
        | (some md, md_rest) =>
          some (({ prev_slot_info with content := some (b_id, md) }, true), md_rest)
  | none =>
    -- This slot was not present in the old slot sequence.
    if new_consensus_final then
      match new_consensus_final_block with
      | none =>
        some (({ slot := slot
                 consensus_final := true
                 execution_final := in_execution_finality
                 content := none }, false), new_blocks_metadata)
      | some b_id =>
        match assocRemove b_id new_blocks_metadata with
        | (none, _) => none
        | (some md, md_rest) =>
          some (({ slot := slot
                   consensus_final := true
                   execution_final := in_execution_finality
                   content := some (b_id, md) }, true), md_rest)
    else
      match new_blockclique_block with
      | none =>
        some (({ slot := slot
                 consensus_final := false
                 execution_final := false
                 content := none }, false), new_blocks_metadata)
      | some b_id =>
        match assocRemove b_id new_blocks_metadata with
        | (none, _) => none
        | (some md, md_rest) =>
          some (({ slot := slot
                   consensus_final := false
                   execution_final := false
                   content := some (b_id, md) }, true), md_rest)

end SlotSequencer

/-- Result of one iteration of the `update` walk: the produced
`(SlotInfo, overwrites_history)` pair, the remainders of the old sequence and
the input maps, and the updated running flag and cursors. -/
structure WalkStepResult where
  step : SlotInfo × Bool
  old_rest : List SlotInfo
  nfb_rest : List (Slot × BlockId)
  bq_rest : Option (List (Slot × BlockId))
  md_rest : List (BlockId × ExecutionBlockMetadata)
  in_execution_finality : Bool
  latest_execution_final_slot : Slot
  latest_executed_candidate_slot : Slot
deriving Repr

/-- Result of the slot-walk loop inside `SlotSequencer::update`:
the produced `(SlotInfo, overwrites_history)` pairs in walk order, the
unconsumed remainders of the old sequence and of the input maps, and the
final values of the two cursors the loop mutates. -/
structure WalkResult where
  steps : List (SlotInfo × Bool)
  old_rest : List SlotInfo
  nfb_rest : List (Slot × BlockId)
  bq_rest : Option (List (Slot × BlockId))
  md_rest : List (BlockId × ExecutionBlockMetadata)
  latest_execution_final_slot : Slot
  latest_executed_candidate_slot : Slot
deriving Repr

namespace SlotSequencer

/-- The CSS-final determination for one slot of the `update` walk
(slot_sequencer.rs lines 296-311): the slot is CSS-final if it is at or
before the watermark of its own thread (`watermark` is
`latest_consensus_final_slots[slot.thread]`), or if a full round of slots
elapsed since it up to any thread watermark, where a failing `slots_since`
contributes `unwrap_or_default()`, i.e. 0. -/
def new_consensus_final_flag (cfg : ExecutionConfig) (lcfs : List Slot)
    (slot watermark : Slot) : Bool :=
  decide (slot ≤ watermark) ||
    lcfs.any fun consensus_final_slot =>
      decide (cfg.thread_count ≤
        ((consensus_final_slot.slots_since slot cfg.thread_count).getD 0))

/-- Consume the blockclique block at a slot, if a new blockclique was given
(`new_blockclique.as_mut().and_then(|bq| bq.remove(&slot))`). -/
def bq_remove (slot : Slot) (bq : Option (List (Slot × BlockId))) :
    Option BlockId × Option (List (Slot × BlockId)) :=
  match bq with
  | none => (none, none)
  | some m => ((assocRemove slot m).1, some (assocRemove slot m).2)

/-- Pop the current slot from the old sequence
(`self.sequence.pop_front()`); `none` models the slot-mismatch panic. -/
def pop_front (slot : Slot) (old_seq : List SlotInfo) :
    Option (Option SlotInfo × List SlotInfo) :=
  match old_seq with
  | [] => some (none, [])
  | i :: rest => if i.slot = slot then some (some i, rest) else none

/-- One iteration of the `update` walk: determines CSS-finality, consumes the
input maps at this slot, pops the old sequence front (a slot mismatch panics)
and runs `sequence_build_step`, then updates the running flags and cursors.
Everything `SlotSequencer::update` does inside one turn of its
`while slot <= max_slot` loop. -/
def update_walk_body (cfg : ExecutionConfig) (lcfs : List Slot) (slot : Slot)
    (old_seq : List SlotInfo) (nfb : List (Slot × BlockId))
    (bq : Option (List (Slot × BlockId)))
    (md : List (BlockId × ExecutionBlockMetadata)) (in_execution_finality : Bool)
    (lexf lecs : Slot) : Option WalkStepResult :=
  -- The slot is CSS-final if it is at or before the watermark of its thread.
  match lcfs.get? slot.thread with
  | none => none
  | some watermark =>
    -- It is also CSS-final if a full round elapsed since it in any thread.
    let new_consensus_final : Bool :=
      new_consensus_final_flag cfg lcfs slot watermark
    -- Consume a newly CSS-final block at this slot, if any.
    let nfbr := assocRemove slot nfb
    let blockclique_updated := bq.isSome
    -- Consume the blockclique block at this slot, if any.
    let bqr := bq_remove slot bq
    match pop_front slot old_seq with
    | none => none
    | some (prev_item, old_rest) =>
      match sequence_build_step slot prev_item new_consensus_final nfbr.1
          blockclique_updated bqr.1 md in_execution_finality with
      | none => none
      | some ((seq_item, seq_item_overwrites_history), md_rest) =>
        let in_fin := in_execution_finality && seq_item.execution_final
        let lexf2 := if in_fin then slot else lexf
        let lecs2 : Option Slot :=
          if seq_item_overwrites_history && decide (lecs ≥ slot) then
            slot.get_prev_slot cfg.thread_count
          else
            some lecs
        match lecs2 with
        | none => none
        | some lecs3 =>
          some { step := (seq_item, seq_item_overwrites_history)
                 old_rest := old_rest
                 nfb_rest := nfbr.2
                 bq_rest := bqr.2
                 md_rest := md_rest
                 in_execution_finality := in_fin
                 latest_execution_final_slot := lexf2
                 latest_executed_candidate_slot := lecs3 }

/-- The slot-walk loop of `SlotSequencer::update` (`while slot <= max_slot`),
one iteration (`update_walk_body`) per slot.  `fuel` only forces termination:
an iteration is taken exactly when `slot ≤ max_slot`, and `update` passes fuel
that provably exceeds the iteration count, so the fuel-exhaustion `none` is
unreachable there.  All other `none` results model panics of the source. -/
def update_walk (cfg : ExecutionConfig) (lcfs : List Slot) (max_slot : Slot)
    (fuel : Nat) (slot : Slot) (old_seq : List SlotInfo)
    (nfb : List (Slot × BlockId)) (bq : Option (List (Slot × BlockId)))
    (md : List (BlockId × ExecutionBlockMetadata)) (in_execution_finality : Bool)
    (lexf lecs : Slot) : Option WalkResult :=
  if ¬ slot ≤ max_slot then
    some ⟨[], old_seq, nfb, bq, md, lexf, lecs⟩
  else
    match fuel with
    | 0 => none
    | fuel + 1 =>
      match update_walk_body cfg lcfs slot old_seq nfb bq md
          in_execution_finality lexf lecs with
      | none => none
      | some r =>
        match update_walk cfg lcfs max_slot fuel
            (slot.get_next_slot cfg.thread_count) r.old_rest r.nfb_rest
            r.bq_rest r.md_rest r.in_execution_finality
            r.latest_execution_final_slot r.latest_executed_candidate_slot with
        | none => none
        | some res =>
          some { res with steps := r.step :: res.steps }

/-- Clean the slot sequence (`SlotSequencer::cleanup_sequence`): pop front
entries strictly before the earliest still-useful slot.  `none` models the
panic on an empty `latest_consensus_final_slots`. -/
def cleanup_sequence (self : SlotSequencer) : Option SlotSequencer :=
  match slotListMin self.latest_consensus_final_slots with
  | none => none
  | some min_lcfs =>
    let min_useful_slot :=
      min (min min_lcfs self.latest_execution_final_slot)
        (min self.latest_executed_final_slot self.latest_executed_candidate_slot)
    some { self with
      sequence := self.sequence.dropWhile fun s => decide (s.slot < min_useful_slot) }

/-- The slot-walk loop of `SlotSequencer::init` (`while slot <= max_slot`),
building the initial sequence.  Fuel as in `update_walk`. -/
def init_walk (cfg : ExecutionConfig) (lcfs : List Slot) (lexf max_slot : Slot)
    (fuel : Nat) (slot : Slot) (nfb bqm : List (Slot × BlockId))
    (md : List (BlockId × ExecutionBlockMetadata)) :
    Option (List SlotInfo × List (Slot × BlockId) × List (Slot × BlockId) ×
      List (BlockId × ExecutionBlockMetadata)) :=
  if ¬ slot ≤ max_slot then
    some ([], nfb, bqm, md)
  else
    match fuel with
    | 0 => none
    | fuel + 1 =>
      match lcfs.get? slot.thread with
      | none => none
      | some watermark =>
        let consensus_final : Bool := decide (slot ≤ watermark)
        let execution_final : Bool := decide (slot ≤ lexf)
        -- Content: prefer a removal from the CSS-final blocks, else blockclique.
        let r1 := assocRemove slot nfb
        let pick : Option BlockId × List (Slot × BlockId) × List (Slot × BlockId) :=
          match r1.1 with
          | some b => (some b, r1.2, bqm)
          | none =>
            let r2 := assocRemove slot bqm
            (r2.1, nfb, r2.2)
        let contentr : Option (Option (BlockId × ExecutionBlockMetadata) ×
            List (BlockId × ExecutionBlockMetadata)) :=
          match pick.1 with
          | none => some (none, md)
          | some b_id =>
            match assocRemove b_id md with
            | (none, _) => none
            | (some m, md_rest) => some (some (b_id, m), md_rest)
        match contentr with
        | none => none
        | some (content, md_rest) =>
          match init_walk cfg lcfs lexf max_slot fuel
              (slot.get_next_slot cfg.thread_count) pick.2.1 pick.2.2 md_rest with
          | none => none
          | some (seq, nfb_rest, bqm_rest, md_fin) =>
            some ({ slot := slot
                    consensus_final := consensus_final
                    execution_final := execution_final
                    content := content } :: seq, nfb_rest, bqm_rest, md_fin)

/-- Sufficient fuel for a walk bounded by `max_slot`: after
`(max_slot.period + 2) * thread_count` steps of `get_next_slot` from any slot,
the walked slot exceeds `max_slot`. -/
def walkFuel (cfg : ExecutionConfig) (max_slot : Slot) : Nat :=
  (max_slot.period + 2) * cfg.thread_count

/-- Initialisation of the sequencer on the first effective `update`
(`SlotSequencer::init`).  `time_cursor` is the slot returned by
`get_time_cursor` at the time of the call. -/
def init (self : SlotSequencer) (time_cursor : Slot)
    (initial_consensus_final_blocks initial_blockclique : List (Slot × BlockId))
    (blocks_metadata : List (BlockId × ExecutionBlockMetadata)) :
    Option SlotSequencer :=
  match update_latest_consensus_final_slots self.latest_consensus_final_slots
      initial_consensus_final_blocks with
  | none => none
  | some lcfs =>
    -- The starting slot of the sequence: the earliest CSS-final slot.
    match slotListMin (initial_consensus_final_blocks.map Prod.fst) with
    | none => none
    | some start_slot =>
      match slotListMax lcfs with
      | none => none
      | some max_lcfs =>
        let max_slot :=
          max (max max_lcfs
            ((slotListMax (initial_blockclique.map Prod.fst)).getD
              ⟨self.config.last_start_period, 0⟩)) time_cursor
        match init_walk self.config lcfs self.latest_execution_final_slot max_slot
            (walkFuel self.config max_slot) start_slot
            initial_consensus_final_blocks initial_blockclique blocks_metadata with
        | none => none
        | some (seq, nfb_rest, bqm_rest, _) =>
          -- Residual entries in either input map are a panic.
          if nfb_rest ≠ [] then none
          else if bqm_rest ≠ [] then none
          else
            cleanup_sequence { self with
              sequence := seq
              latest_consensus_final_slots := lcfs }

/-- Notify the sequencer of incoming changes (`SlotSequencer::update`).
`time_cursor` is the slot returned by `get_time_cursor` at the time of the
call (used only on the `init` path).  `none` models the panics of the source. -/
def update (self : SlotSequencer) (time_cursor : Slot)
    (new_consensus_final_blocks : List (Slot × BlockId))
    (new_blockclique : Option (List (Slot × BlockId)))
    (new_blocks_metadata : List (BlockId × ExecutionBlockMetadata)) :
    Option SlotSequencer :=
  match self.sequence with
  | [] =>
    if new_consensus_final_blocks = [] then some self
    else
      self.init time_cursor new_consensus_final_blocks
        (new_blockclique.getD []) new_blocks_metadata
  | front :: seq_rest =>
    match update_latest_consensus_final_slots self.latest_consensus_final_slots
        new_consensus_final_blocks with
    | none => none
    | some lcfs =>
      match slotListMax lcfs with
      | none => none
      | some max_lcfs =>
        let back := ((front :: seq_rest).getLast (List.cons_ne_nil front seq_rest)).slot
        let max_slot :=
          max (max max_lcfs
            ((new_blockclique.bind fun bq => slotListMax (bq.map Prod.fst)).getD
              ⟨self.config.last_start_period, 0⟩)) back
        -- The source precomputes the new sequence length and panics on
        -- `slots_since` failure before entering the loop.
        match max_slot.slots_since front.slot self.config.thread_count with
        | none => none
        | some _ =>
          match update_walk self.config lcfs max_slot
              (walkFuel self.config max_slot) front.slot (front :: seq_rest)
              new_consensus_final_blocks new_blockclique new_blocks_metadata
              true self.latest_execution_final_slot
              self.latest_executed_candidate_slot with
          | none => none
          | some res =>
            -- Leftovers in the old sequence or in the input maps are panics.
            if res.old_rest ≠ [] then none
            else if res.nfb_rest ≠ [] then none
            else if (res.bq_rest.getD []) ≠ [] then none
            else
              cleanup_sequence { self with
                sequence := res.steps.map Prod.fst
                latest_consensus_final_slots := lcfs
                latest_execution_final_slot := res.latest_execution_final_slot
                latest_executed_candidate_slot := res.latest_executed_candidate_slot }

/-- Get the index of a slot in the sequence (`SlotSequencer::get_slot_index`).
The source panics on an empty sequence and on a failing `slots_since`; both
are conflated with `none` here (every call site guards the sequence and the
conflation is shared by `is_task_available` and `run_task_with`). -/
def get_slot_index (self : SlotSequencer) (slot : Slot) : Option Nat :=
  match self.sequence with
  | [] => none
  | first :: _ =>
    if slot < first.slot then none
    else
      match slot.slots_since first.slot self.config.thread_count with
      | none => none
      | some idx => if self.sequence.length ≤ idx then none else some idx

/-- Gets the `SlotInfo` at a slot, if any (`SlotSequencer::get_slot`). -/
def get_slot (self : SlotSequencer) (slot : Slot) : Option SlotInfo :=
  (self.get_slot_index slot).bind fun idx => self.sequence.get? idx

/-- Returns true if there is a queued slot that needs to be executed now
(`SlotSequencer::is_task_available`).  `time_cursor` is the slot returned by
`get_time_cursor` at the time of the call. -/
def is_task_available (self : SlotSequencer) (time_cursor : Slot) : Bool :=
  if self.sequence = [] then false
  else
    let next_execution_final_slot :=
      self.latest_executed_final_slot.get_next_slot self.config.thread_count
    let finalization_task_available :=
      ((self.get_slot next_execution_final_slot).map
        fun s_info => s_info.execution_final).getD false
    if finalization_task_available then true
    else
      let next_candidate_slot :=
        self.latest_executed_candidate_slot.get_next_slot self.config.thread_count
      decide (next_candidate_slot ≤ time_cursor)

/-- A slot dispatched for execution: the `is_final` flag, the slot, and its
content, exactly the arguments `run_task_with` passes to its callback. -/
abbrev Dispatch := Bool × Slot × Option (BlockId × ExecutionBlockMetadata)

/-- Execute the next ready slot, if any (`SlotSequencer::run_task_with`).
Returns the dispatched slot data (what the callback receives; `none` when no
task was ready) together with the updated sequencer; the outer `Option`
models the panic inside `cleanup_sequence`. -/
def run_task_with (self : SlotSequencer) (time_cursor : Slot) :
    Option (Option Dispatch × SlotSequencer) :=
  if self.sequence = [] then some (none, self)
  else
    -- High priority: the next SCE-final slot, if available.
    let final_slot :=
      self.latest_executed_final_slot.get_next_slot self.config.thread_count
    let final_ready : Option SlotInfo :=
      match self.get_slot final_slot with
      | some s_info => if s_info.execution_final then some s_info else none
      | none => none
    match final_ready with
    | some s_info =>
      let latest_executed_final_slot := final_slot
      let latest_executed_candidate_slot :=
        max self.latest_executed_candidate_slot latest_executed_final_slot
      match cleanup_sequence { self with
          latest_executed_final_slot := latest_executed_final_slot
          latest_executed_candidate_slot := latest_executed_candidate_slot } with
      | none => none
      | some cleaned => some (some (true, final_slot, s_info.content), cleaned)
    | none =>
      -- Low priority: the next candidate slot, if its time has come.
      let candidate_slot :=
        self.latest_executed_candidate_slot.get_next_slot self.config.thread_count
      if candidate_slot ≤ time_cursor then
        let content := (self.get_slot candidate_slot).bind fun nfo => nfo.content
        some (some (false, candidate_slot, content),
          { self with latest_executed_candidate_slot := candidate_slot })
      else
        some (none, self)

end SlotSequencer

/-! Wire codec for block and operation messages
(`src/massa-protocol-worker/src/handlers/block_handler/messages.rs` and
`src/massa-protocol-worker/src/handlers/operation_handler/messages.rs`).
Buffers are lists of bytes. -/

/-- A wire byte. -/
abbrev Byte := Fin 256

/-- Worker for `varintEncode`, structurally recursive on a fuel that bounds
the value (`n / 128 < n`, so fuel `n` always suffices; the fuel-exhausted
branch is then only reached with `n < 128`). -/
def varintEncodeGo (fuel : Nat) (n : Nat) : List Byte :=
  match fuel with
  | 0 => [⟨n % 128, by omega⟩]
  | fuel + 1 =>
    if h : n < 128 then [⟨n, by omega⟩]
    else ⟨n % 128 + 128, by omega⟩ :: varintEncodeGo fuel (n / 128)

/-- Modelled from the spec (§4.9, §6): the unsigned variable-length integer
codec (`U64VarIntSerializer` of massa-serialization, not under `src/`):
little-endian base-128 groups, high bit of a byte set when more bytes follow. -/
def varintEncode (n : Nat) : List Byte :=
  varintEncodeGo n n

/-- Modelled from the spec (§4.9, §6): unsigned varint decoding
(`U64VarIntDeserializer` of massa-serialization, not under `src/`). -/
def varintDecode : List Byte → Option (Nat × List Byte)
  | [] => none
  | b :: rest =>
    if b.val < 128 then some (b.val, rest)
    else
      match varintDecode rest with
      | none => none
      | some (v, r) => some (b.val % 128 + 128 * v, r)

/-- Modelled from the spec (§3): block and operation identifiers are 32-byte
content-addressed hashes; their codec (massa-models, not under `src/`) is
modelled as the raw hash bytes. -/
def ID_SIZE : Nat := 32

/-- Wire identifier: the raw bytes of a 32-byte id (length `ID_SIZE` for
well-formed values). -/
abbrev WireId := List Byte

/-- Serialize an identifier: its raw bytes. -/
def idSerialize (i : WireId) : List Byte := i

/-- Deserialize an identifier: read exactly `ID_SIZE` bytes. -/
def idDeserialize (buffer : List Byte) : Option (WireId × List Byte) :=
  if ID_SIZE ≤ buffer.length then some (buffer.take ID_SIZE, buffer.drop ID_SIZE)
  else none

/-- Read `n` identifiers in sequence. -/
def readIds : Nat → List Byte → Option (List WireId × List Byte)
  | 0, buffer => some ([], buffer)
  | n + 1, buffer =>
    match idDeserialize buffer with
    | none => none
    | some (i, r) =>
      match readIds n r with
      | none => none
      | some (is, r2) => some (i :: is, r2)

/-- Serialize a list of operation ids: varint length then the raw ids
(`OperationIdsSerializer`, massa-models, not under `src/`; modelled from the
spec: "All tags and lengths are variable-length unsigned integers"). -/
def operationIdsSerialize (ids : List WireId) : List Byte :=
  varintEncode ids.length ++ ids.flatten

/-- Modelled from the spec (§4.9): deserialise a list of operation ids,
rejecting lists exceeding `max_length` (`OperationIdsDeserializer` bound by
`max_operations_per_block`, massa-models, not under `src/`). -/
def operationIdsDeserialize (max_length : Nat) (buffer : List Byte) :
    Option (List WireId × List Byte) :=
  match varintDecode buffer with
  | none => none
  | some (n, r) => if max_length < n then none else readIds n r

/-- Modelled from the spec (§4.9): a signed block header (`SecuredHeader`,
massa-models, not under `src/`).  Its inner structure and inner limits are
opaque to the message layer; it is modelled as an opaque payload with a
round-tripping codec. -/
structure SecuredHeader where
  payload : Nat
deriving DecidableEq, Repr

/-- Serialize a signed header (opaque payload model). -/
def securedHeaderSerialize (h : SecuredHeader) : List Byte :=
  varintEncode h.payload

/-- Deserialize a signed header (opaque payload model). -/
def securedHeaderDeserialize (buffer : List Byte) :
    Option (SecuredHeader × List Byte) :=
  match varintDecode buffer with
  | none => none
  | some (v, r) => some (⟨v⟩, r)

/-- Modelled from the spec (§4.9): a signed operation (`SecureShareOperation`,
massa-models, not under `src/`), opaque to the message layer. -/
structure SecureShareOperation where
  payload : Nat
deriving DecidableEq, Repr

/-- Serialize a signed operation (opaque payload model). -/
def operationSerialize (op : SecureShareOperation) : List Byte :=
  varintEncode op.payload

/-- Deserialize a signed operation (opaque payload model). -/
def operationDeserialize (buffer : List Byte) :
    Option (SecureShareOperation × List Byte) :=
  match varintDecode buffer with
  | none => none
  | some (v, r) => some (⟨v⟩, r)

/-- Read `n` signed operations in sequence. -/
def readOperations : Nat → List Byte → Option (List SecureShareOperation × List Byte)
  | 0, buffer => some ([], buffer)
  | n + 1, buffer =>
    match operationDeserialize buffer with
    | none => none
    | some (op, r) =>
      match readOperations n r with
      | none => none
      | some (ops, r2) => some (op :: ops, r2)

/-- Serialize a list of signed operations: varint length then the operations
(`OperationsSerializer`, massa-models, not under `src/`). -/
def operationsSerialize (ops : List SecureShareOperation) : List Byte :=
  varintEncode ops.length ++ (ops.map operationSerialize).flatten

/-- Modelled from the spec (§4.9): deserialise a list of signed operations,
rejecting lists exceeding `max_length` (`OperationsDeserializer`,
massa-models, not under `src/`). -/
def operationsDeserialize (max_length : Nat) (buffer : List Byte) :
    Option (List SecureShareOperation × List Byte) :=
  match varintDecode buffer with
  | none => none
  | some (n, r) => if max_length < n then none else readOperations n r

/-- Request block data (`AskForBlockInfo`, block_handler/messages.rs). -/
inductive AskForBlockInfo where
  | Header
  | OperationIds
  | Operations (ids : List WireId)
deriving DecidableEq, Repr

/-- Reply to a block data request (`BlockInfoReply`, block_handler/messages.rs). -/
inductive BlockInfoReply where
  | Header (header : SecuredHeader)
  | OperationIds (ids : List WireId)
  | Operations (ops : List SecureShareOperation)
  | NotFound
deriving DecidableEq, Repr

/-- Block messages (`BlockMessage`, block_handler/messages.rs). -/
inductive BlockMessage where
  | Header (header : SecuredHeader)
  | DataRequest (block_id : WireId) (block_info : AskForBlockInfo)
  | DataResponse (block_id : WireId) (block_info : BlockInfoReply)
deriving DecidableEq, Repr

/-- Serializer for block messages (`BlockMessageSerializer::serialize`):
varint message-type tag (Header = 0, DataRequest = 1, DataResponse = 2),
then the payload; data requests and responses carry the block id and a
varint info-tag (Header = 0, OperationIds = 1, Operations = 2, NotFound = 3). -/
def blockMessageSerialize (value : BlockMessage) : List Byte :=
  match value with
  | .Header header => varintEncode 0 ++ securedHeaderSerialize header
  | .DataRequest block_id block_info =>
    varintEncode 1 ++ idSerialize block_id ++
      (match block_info with
       | .Header => varintEncode 0
       | .OperationIds => varintEncode 1
       | .Operations operations_ids =>
         varintEncode 2 ++ varintEncode operations_ids.length ++
           (operations_ids.map idSerialize).flatten)
  | .DataResponse block_id block_info =>
    varintEncode 2 ++ idSerialize block_id ++
      (match block_info with
       | .Header header => varintEncode 0 ++ securedHeaderSerialize header
       | .OperationIds operations_ids =>
         varintEncode 1 ++ varintEncode operations_ids.length ++
           (operations_ids.map idSerialize).flatten
       | .Operations operations =>
         varintEncode 2 ++ varintEncode operations.length ++
           (operations.map operationSerialize).flatten
       | .NotFound => varintEncode 3)

/-- Deserialization limits for block messages
(`BlockMessageDeserializerArgs`).  Only `max_operations_per_block` is
observable at the message layer in this model; the other limits bound the
interior of the opaque header/operation payloads. -/
structure BlockMessageDeserializerArgs where
  max_operations_per_block : Nat
deriving Repr

/-- Deserializer for block messages (`BlockMessageDeserializer::deserialize`).
Note that in the `DataRequest` branch the info-tag `NotFound` (3) is rejected,
while in the `DataResponse` branch it is accepted. -/
def blockMessageDeserialize (args : BlockMessageDeserializerArgs)
    (buffer : List Byte) : Option (BlockMessage × List Byte) :=
  match varintDecode buffer with
  | none => none
  | some (raw_id, buffer1) =>
    match raw_id with
    | 0 =>
      match securedHeaderDeserialize buffer1 with
      | none => none
      | some (header, rest) => some (.Header header, rest)
    | 1 =>
      match idDeserialize buffer1 with
      | none => none
      | some (block_id, buffer2) =>
        match varintDecode buffer2 with
        | none => none
        | some (info_raw, buffer3) =>
          match info_raw with
          | 0 => some (.DataRequest block_id .Header, buffer3)
          | 1 => some (.DataRequest block_id .OperationIds, buffer3)
          | 2 =>
            match operationIdsDeserialize args.max_operations_per_block buffer3 with
            | none => none
            | some (operation_ids, rest) =>
              some (.DataRequest block_id (.Operations operation_ids), rest)
          | _ => none
    | 2 =>
      match idDeserialize buffer1 with
      | none => none
      | some (block_id, buffer2) =>
        match varintDecode buffer2 with
        | none => none
        | some (info_raw, buffer3) =>
          match info_raw with
          | 0 =>
            match securedHeaderDeserialize buffer3 with
            | none => none
            | some (header, rest) =>
              some (.DataResponse block_id (.Header header), rest)
          | 1 =>
            match operationIdsDeserialize args.max_operations_per_block buffer3 with
            | none => none
            | some (operation_ids, rest) =>
              some (.DataResponse block_id (.OperationIds operation_ids), rest)
          | 2 =>
            match operationsDeserialize args.max_operations_per_block buffer3 with
            | none => none
            | some (operations, rest) =>
              some (.DataResponse block_id (.Operations operations), rest)
          | 3 => some (.DataResponse block_id .NotFound, buffer3)
          | _ => none
    | _ => none

/-- Modelled from the spec (§3): operation-id prefixes have a fixed
configurable length; the repository constant is 17 bytes. -/
def OPERATION_PREFIX_SIZE : Nat := 17

/-- Wire operation-id prefix: raw bytes (length `OPERATION_PREFIX_SIZE` for
well-formed values). -/
abbrev WirePrefixId := List Byte

/-- Read `n` operation-id prefixes in sequence. -/
def readPrefixIds : Nat → List Byte → Option (List WirePrefixId × List Byte)
  | 0, buffer => some ([], buffer)
  | n + 1, buffer =>
    if OPERATION_PREFIX_SIZE ≤ buffer.length then
      match readPrefixIds n (buffer.drop OPERATION_PREFIX_SIZE) with
      | none => none
      | some (is, r) => some (buffer.take OPERATION_PREFIX_SIZE :: is, r)
    else none

/-- Serialize a collection of operation-id prefixes: varint length then the
raw prefixes (`OperationPrefixIdsSerializer`, massa-models, not under `src/`;
the source collection is a set, modelled as the list of its elements in
serialization order). -/
def operationPrefixIdsSerialize (ids : List WirePrefixId) : List Byte :=
  varintEncode ids.length ++ ids.flatten

/-- Modelled from the spec (§4.9): deserialise operation-id prefixes,
rejecting collections exceeding `max_length`
(`OperationPrefixIdsDeserializer` bound by `max_operations_prefix_ids`). -/
def operationPrefixIdsDeserialize (max_length : Nat) (buffer : List Byte) :
    Option (List WirePrefixId × List Byte) :=
  match varintDecode buffer with
  | none => none
  | some (n, r) => if max_length < n then none else readPrefixIds n r

/-- Operation messages (`OperationMessage`, operation_handler/messages.rs). -/
inductive OperationMessage where
  | OperationsAnnouncement (ids : List WirePrefixId)
  | AskForOperations (ids : List WirePrefixId)
  | Operations (ops : List SecureShareOperation)
deriving DecidableEq, Repr

/-- Serializer for operation messages
(`OperationMessageSerializer::serialize`): varint message-type tag
(OperationsAnnouncement = 0, AskForOperations = 1, Operations = 2) then the
payload. -/
def operationMessageSerialize (value : OperationMessage) : List Byte :=
  match value with
  | .OperationsAnnouncement operations =>
    varintEncode 0 ++ operationPrefixIdsSerialize operations
  | .AskForOperations operations =>
    varintEncode 1 ++ operationPrefixIdsSerialize operations
  | .Operations operations =>
    varintEncode 2 ++ operationsSerialize operations

/-- Deserialization limits for operation messages
(`OperationMessageDeserializerArgs`); the fields bounding the interior of
operations are part of the opaque operation payload model. -/
structure OperationMessageDeserializerArgs where
  max_operations_prefix_ids : Nat
  max_operations : Nat
deriving Repr

/-- Deserializer for operation messages
(`OperationMessageDeserializer::deserialize`). -/
def operationMessageDeserialize (args : OperationMessageDeserializerArgs)
    (buffer : List Byte) : Option (OperationMessage × List Byte) :=
  match varintDecode buffer with
  | none => none
  | some (raw_id, buffer1) =>
    match raw_id with
    | 0 =>
      match operationPrefixIdsDeserialize args.max_operations_prefix_ids buffer1 with
      | none => none
      | some (ids, rest) => some (.OperationsAnnouncement ids, rest)
    | 1 =>
      match operationPrefixIdsDeserialize args.max_operations_prefix_ids buffer1 with
      | none => none
      | some (ids, rest) => some (.AskForOperations ids, rest)
    | 2 =>
      match operationsDeserialize args.max_operations buffer1 with
      | none => none
      | some (ops, rest) => some (.Operations ops, rest)
    | _ => none

/-- Within-limits predicate for a block-data request payload: operation-id
lists are bounded by `max_operations_per_block` and ids are 32 bytes. -/
def AskForBlockInfo.WF (max_operations_per_block : Nat) : AskForBlockInfo → Prop
  | .Header => True
  | .OperationIds => True
  | .Operations ids =>
    ids.length ≤ max_operations_per_block ∧ ∀ i ∈ ids, i.length = ID_SIZE

/-- Within-limits predicate for a block-data reply payload. -/
def BlockInfoReply.WF (max_operations_per_block : Nat) : BlockInfoReply → Prop
  | .Header _ => True
  | .OperationIds ids =>
    ids.length ≤ max_operations_per_block ∧ ∀ i ∈ ids, i.length = ID_SIZE
  | .Operations ops => ops.length ≤ max_operations_per_block
  | .NotFound => True

/-- Within-limits predicate for a block message under the configured
deserialization limits. -/
def BlockMessage.WF (args : BlockMessageDeserializerArgs) : BlockMessage → Prop
  | .Header _ => True
  | .DataRequest block_id block_info =>
    block_id.length = ID_SIZE ∧ block_info.WF args.max_operations_per_block
  | .DataResponse block_id block_info =>
    block_id.length = ID_SIZE ∧ block_info.WF args.max_operations_per_block

/-- Within-limits predicate for an operation message under the configured
deserialization limits. -/
def OperationMessage.WF (args : OperationMessageDeserializerArgs) :
    OperationMessage → Prop
  | .OperationsAnnouncement ids =>
    ids.length ≤ args.max_operations_prefix_ids ∧
      ∀ i ∈ ids, i.length = OPERATION_PREFIX_SIZE
  | .AskForOperations ids =>
    ids.length ≤ args.max_operations_prefix_ids ∧
      ∀ i ∈ ids, i.length = OPERATION_PREFIX_SIZE
  | .Operations ops => ops.length ≤ args.max_operations

/-! Address module (`src/massa-models/src/address.rs`). -/

/-- A 32-byte hash (massa-hash `Hash`, not under `src/`): modelled as a
length-32 vector of bytes. -/
abbrev AddressHash := Mathlib.Vector Byte 32

/-- Versioned user address, version 0 (`UserAddressV0`). -/
structure UserAddressV0 where
  hash : AddressHash
deriving DecidableEq

/-- User address over its versions (`UserAddress`). -/
inductive UserAddress where
  | UserAddressV0 (addr : UserAddressV0)
deriving DecidableEq

/-- Versioned smart-contract address, version 0 (`SCAddressV0`). -/
structure SCAddressV0 where
  hash : AddressHash
deriving DecidableEq

/-- Smart-contract address over its versions (`SCAddress`). -/
inductive SCAddress where
  | SCAddressV0 (addr : SCAddressV0)
deriving DecidableEq

/-- Top level address representation (`Address`). -/
inductive Address where
  | User (addr : UserAddress)
  | SC (addr : SCAddress)
deriving DecidableEq

/-- Bit scan for `u8_trailing_zeros`, structurally recursive on the number of
bits left to examine. -/
def u8_trailing_zeros_go (n : Nat) : Nat → Nat
  | 0 => 0
  | bits + 1 => if n % 2 = 1 then 0 else 1 + u8_trailing_zeros_go (n / 2) bits

/-- Number of trailing zero bits of a `u8` value (`u8::trailing_zeros`);
8 for zero. -/
def u8_trailing_zeros (n : Nat) : Nat :=
  u8_trailing_zeros_go n 8

/-- Checked right shift on a `u8` value (`u8::checked_shr`): `none` when the
shift amount is at least the bit width 8. -/
def u8_checked_shr (v : Nat) (n : Nat) : Option Nat :=
  if n < 8 then some (v >>> n) else none

namespace UserAddressV0

/-- Gets the associated thread (`UserAddressV0::get_thread`):
`(self.0.to_bytes()[0]).checked_shr(8 - thread_count.trailing_zeros()).unwrap_or(0)`. -/
def get_thread (self : UserAddressV0) (thread_count : Nat) : Nat :=
  (u8_checked_shr (self.hash.get 0).val (8 - u8_trailing_zeros thread_count)).getD 0

end UserAddressV0

namespace UserAddress

/-- Gets the associated thread (`UserAddress::get_thread`). -/
def get_thread (self : UserAddress) (thread_count : Nat) : Nat :=
  match self with
  | .UserAddressV0 addr => addr.get_thread thread_count

end UserAddress

namespace Address

/-- Gets the associated thread (`Address::get_thread`).  Returns 0 for SC
addresses. -/
def get_thread (self : Address) (thread_count : Nat) : Nat :=
  match self with
  | .User addr => addr.get_thread thread_count
  | .SC _ => 0

end Address

/-- The list of `n` consecutive slots starting at `s`. -/
def slotsFrom (tc : Nat) (s : Slot) : Nat → List Slot
  | 0 => []
  | n + 1 => s :: slotsFrom tc (s.get_next_slot tc) n


/-! Definitions supporting the reachable-state invariants (claim C3). -/

/-- The slots of a slot-info list are consecutive under `get_next_slot`
(no gaps): its slot projection is exactly the run of consecutive slots
starting at its head's slot. -/
def Contig (tc : Nat) : List SlotInfo → Prop
  | [] => True
  | f :: rest =>
    (f :: rest).map (fun i => i.slot) = slotsFrom tc f.slot (rest.length + 1)

instance instContigDecidable (tc : Nat) (l : List SlotInfo) :
    Decidable (Contig tc l) :=
  match l with
  | [] => isTrue trivial
  | f :: rest =>
    inferInstanceAs (Decidable ((f :: rest).map (fun i => i.slot) =
      slotsFrom tc f.slot (rest.length + 1)))

/-- Sequencer states reachable from `SlotSequencer.new` by `update` and
`run_task_with` calls.  Amended preconditions of claim C3: the initial
`final_cursor` is a valid slot, and an `update` performed while the sequence
is empty (the bootstrapping one included) only reports CSS-final blocks at
slots at or after `latest_executed_final_slot`. -/
inductive Reachable (cfg : ExecutionConfig) : SlotSequencer → Prop where
  | base (final_cursor : Slot)
      (hv : final_cursor.Valid cfg.thread_count) :
      Reachable cfg (SlotSequencer.new cfg final_cursor)
  | update_step {st st2 : SlotSequencer} (time_cursor : Slot)
      (nfb : List (Slot × BlockId)) (bq : Option (List (Slot × BlockId)))
      (md : List (BlockId × ExecutionBlockMetadata))
      (hr : Reachable cfg st)
      (hempty : st.sequence = [] →
        ∀ p ∈ nfb, st.latest_executed_final_slot ≤ p.1)
      (hupd : st.update time_cursor nfb bq md = some st2) :
      Reachable cfg st2
  | run_step {st : SlotSequencer} (time_cursor : Slot)
      (d : Option SlotSequencer.Dispatch) (st2 : SlotSequencer)
      (hr : Reachable cfg st)
      (hrun : st.run_task_with time_cursor = some (d, st2)) :
      Reachable cfg st2

/-- The invariant bundle of a reachable sequencer state: the cursor
inequalities and the sequence properties that hold in every reachable state
and are preserved by `update` and `run_task_with`. -/
structure C3Inv (cfg : ExecutionConfig) (st : SlotSequencer) : Prop where
  config_eq : st.config = cfg
  lcfs_len : st.latest_consensus_final_slots.length = cfg.thread_count
  lcfs_thread : ∀ (t : Nat) (h : t < st.latest_consensus_final_slots.length),
    (st.latest_consensus_final_slots.get ⟨t, h⟩).thread = t
  lefs_valid : st.latest_executed_final_slot.Valid cfg.thread_count
  lecs_valid : st.latest_executed_candidate_slot.Valid cfg.thread_count
  lexf_valid : st.latest_execution_final_slot.Valid cfg.thread_count
  lefs_le_lexf : st.latest_executed_final_slot ≤ st.latest_execution_final_slot
  lefs_le_lecs :
    st.latest_executed_final_slot ≤ st.latest_executed_candidate_slot
  seq_exec_cf : ∀ i ∈ st.sequence, i.execution_final = true →
    i.consensus_final = true
  seq_before_lefs : ∀ i ∈ st.sequence,
    i.slot ≤ st.latest_executed_final_slot → i.execution_final = true
  seq_exec_le : ∀ i ∈ st.sequence, i.execution_final = true →
    i.slot ≤ st.latest_execution_final_slot
  seq_contig : Contig cfg.thread_count st.sequence
  seq_valid : ∀ i ∈ st.sequence, i.slot.Valid cfg.thread_count
  seq_last : ∀ b, st.sequence.getLast? = some b →
    st.latest_execution_final_slot ≤ b.slot ∧
    ∀ s ∈ st.latest_consensus_final_slots, s ≤ b.slot
  pre_init : st.sequence = [] →
    st.latest_execution_final_slot = st.latest_executed_final_slot ∧
    st.latest_executed_candidate_slot = st.latest_executed_final_slot

/-! Supporting lemmas: slot arithmetic and slot-list extrema. -/

namespace Slot

theorem lt_def {a b : Slot} :
    a < b ↔ a.period < b.period ∨ (a.period = b.period ∧ a.thread < b.thread) :=
  Iff.rfl

theorem le_def {a b : Slot} :
    a ≤ b ↔ a.period < b.period ∨ (a.period = b.period ∧ a.thread ≤ b.thread) :=
  Iff.rfl

theorem valid_next {s : Slot} {tc : Nat} (h : 0 < tc) :
    (s.get_next_slot tc).Valid tc := by
  unfold get_next_slot Valid
  split <;> simp_all

theorem index_next {s : Slot} {tc : Nat} (hv : s.Valid tc) :
    (s.get_next_slot tc).index tc = s.index tc + 1 := by
  unfold get_next_slot index
  unfold Valid at hv
  split
  · simp only
    omega
  · simp only
    have ht : s.thread = tc - 1 := by omega
    have h0 : 0 < tc := by omega
    have : (s.period + 1) * tc = s.period * tc + tc := by ring
    omega

theorem le_iff_index_le {a b : Slot} {tc : Nat} (ha : a.Valid tc) (hb : b.Valid tc) :
    a ≤ b ↔ a.index tc ≤ b.index tc := by
  unfold Valid at ha hb
  rw [le_def]
  unfold index
  constructor
  · rintro (h | ⟨h1, h2⟩)
    · have h1 : a.period + 1 ≤ b.period := h
      have h2 : (a.period + 1) * tc ≤ b.period * tc := Nat.mul_le_mul_right tc h1
      have h3 : (a.period + 1) * tc = a.period * tc + tc := by ring
      omega
    · rw [h1]
      omega
  · intro h
    rcases lt_trichotomy a.period b.period with g | g | g
    · exact Or.inl g
    · refine Or.inr ⟨g, ?_⟩
      rw [g] at h
      omega
    · exfalso
      have h1 : b.period + 1 ≤ a.period := g
      have h2 : (b.period + 1) * tc ≤ a.period * tc := Nat.mul_le_mul_right tc h1
      have h3 : (b.period + 1) * tc = b.period * tc + tc := by ring
      omega

theorem lt_iff_index_lt {a b : Slot} {tc : Nat} (ha : a.Valid tc) (hb : b.Valid tc) :
    a < b ↔ a.index tc < b.index tc := by
  rw [← not_le, ← Nat.not_le]
  exact not_congr (le_iff_index_le hb ha)

theorem index_inj {a b : Slot} {tc : Nat} (ha : a.Valid tc) (hb : b.Valid tc)
    (h : a.index tc = b.index tc) : a = b := by
  have h1 := (le_iff_index_le ha hb).2 h.le
  have h2 := (le_iff_index_le hb ha).2 h.ge
  exact le_antisymm h1 h2

theorem lt_next {s : Slot} {tc : Nat} (hv : s.Valid tc) :
    s < s.get_next_slot tc := by
  rw [lt_iff_index_lt hv (valid_next (by unfold Valid at hv; omega)), index_next hv]
  omega

theorem next_le_iff {s x : Slot} {tc : Nat} (hs : s.Valid tc) (hx : x.Valid tc) :
    s.get_next_slot tc ≤ x ↔ s < x := by
  have h0 : 0 < tc := by unfold Valid at hs; omega
  rw [le_iff_index_le (valid_next h0) hx, lt_iff_index_lt hs hx, index_next hs]
  omega

theorem lt_next_iff {s x : Slot} {tc : Nat} (hs : s.Valid tc) (hx : x.Valid tc) :
    x < s.get_next_slot tc ↔ x ≤ s := by
  have h0 : 0 < tc := by unfold Valid at hs; omega
  rw [lt_iff_index_lt hx (valid_next h0), le_iff_index_le hx hs, index_next hs]
  omega

theorem slots_since_eq_some {a b : Slot} {tc : Nat}
    (h : b.index tc ≤ a.index tc) :
    a.slots_since b tc = some (a.index tc - b.index tc) := by
  unfold slots_since
  simp [h]

theorem slots_since_eq_none {a b : Slot} {tc : Nat}
    (h : a.index tc < b.index tc) :
    a.slots_since b tc = none := by
  unfold slots_since
  simp only [ite_eq_right_iff]
  intro hc
  omega

theorem prev_isSome {s : Slot} {tc : Nat} (hv : s.Valid tc) (h : ⟨0, 0⟩ < s) :
    ∃ p, s.get_prev_slot tc = some p ∧ p.Valid tc ∧
      p.index tc + 1 = s.index tc := by
  have h0 : 0 < tc := by unfold Valid at hv; omega
  unfold get_prev_slot
  rcases Nat.eq_zero_or_pos s.thread with ht | ht
  · have hp : 0 < s.period := by
      rcases lt_def.1 h with g | ⟨g1, g2⟩
      · omega
      · omega
    refine ⟨⟨s.period - 1, tc - 1⟩, ?_, ?_, ?_⟩
    · simp [ht]
      omega
    · unfold Valid
      simp
      omega
    · unfold index
      simp [ht]
      have hpe : s.period - 1 + 1 = s.period := by omega
      calc (s.period - 1) * tc + (tc - 1) + 1 = (s.period - 1) * tc + tc := by omega
        _ = (s.period - 1 + 1) * tc := by ring
        _ = s.period * tc := by rw [hpe]
  · refine ⟨⟨s.period, s.thread - 1⟩, ?_, ?_, ?_⟩
    · simp
      omega
    · unfold Valid at *
      simp
      omega
    · unfold index
      simp
      omega

end Slot

theorem slotListMax_isSome {l : List Slot} (h : l ≠ []) :
    ∃ m, slotListMax l = some m := by
  cases l with
  | nil => exact absurd rfl h
  | cons s rest =>
    unfold slotListMax
    cases slotListMax rest with
    | none => exact ⟨s, rfl⟩
    | some m => exact ⟨max s m, rfl⟩

theorem slotListMax_ge {l : List Slot} {m s : Slot}
    (hm : slotListMax l = some m) (hs : s ∈ l) : s ≤ m := by
  induction l generalizing m with
  | nil => cases hs
  | cons a rest ih =>
    unfold slotListMax at hm
    rcases List.mem_cons.1 hs with rfl | hs2
    · cases hrest : slotListMax rest with
      | none =>
        rw [hrest] at hm
        simp only [Option.some.injEq] at hm
        exact hm ▸ le_refl _
      | some mr =>
        rw [hrest] at hm
        simp only [Option.some.injEq] at hm
        exact hm ▸ le_max_left _ _
    · cases hrest : slotListMax rest with
      | none =>
        cases rest with
        | nil => cases hs2
        | cons b r2 =>
          exfalso
          rcases slotListMax_isSome (l := b :: r2) (by simp) with ⟨x, hx⟩
          rw [hx] at hrest
          cases hrest
      | some mr =>
        rw [hrest] at hm
        simp only [Option.some.injEq] at hm
        exact le_trans (ih hrest hs2) (hm ▸ le_max_right _ _)

theorem slotListMax_mem {l : List Slot} {m : Slot}
    (hm : slotListMax l = some m) : m ∈ l := by
  induction l generalizing m with
  | nil => cases hm
  | cons a rest ih =>
    unfold slotListMax at hm
    cases hrest : slotListMax rest with
    | none =>
      rw [hrest] at hm
      simp only [Option.some.injEq] at hm
      simp [← hm]
    | some mr =>
      rw [hrest] at hm
      simp only [Option.some.injEq] at hm
      rcases max_choice a mr with hc | hc <;> rw [hc] at hm
      · simp [← hm]
      · exact List.mem_cons_of_mem _ (hm ▸ ih hrest)

theorem slotListMin_isSome {l : List Slot} (h : l ≠ []) :
    ∃ m, slotListMin l = some m := by
  cases l with
  | nil => exact absurd rfl h
  | cons s rest =>
    unfold slotListMin
    cases slotListMin rest with
    | none => exact ⟨s, rfl⟩
    | some m => exact ⟨min s m, rfl⟩

theorem slotListMin_le {l : List Slot} {m s : Slot}
    (hm : slotListMin l = some m) (hs : s ∈ l) : m ≤ s := by
  induction l generalizing m with
  | nil => cases hs
  | cons a rest ih =>
    unfold slotListMin at hm
    rcases List.mem_cons.1 hs with rfl | hs2
    · cases hrest : slotListMin rest with
      | none =>
        rw [hrest] at hm
        simp only [Option.some.injEq] at hm
        exact hm ▸ le_refl _
      | some mr =>
        rw [hrest] at hm
        simp only [Option.some.injEq] at hm
        exact hm ▸ min_le_left _ _
    · cases hrest : slotListMin rest with
      | none =>
        cases rest with
        | nil => cases hs2
        | cons b r2 =>
          exfalso
          rcases slotListMin_isSome (l := b :: r2) (by simp) with ⟨x, hx⟩
          rw [hx] at hrest
          cases hrest
      | some mr =>
        rw [hrest] at hm
        simp only [Option.some.injEq] at hm
        exact le_trans (hm ▸ min_le_right _ _) (ih hrest hs2)


/-! Codec lemmas. -/

theorem varintEncodeGo_decode (fuel : Nat) :
    ∀ (n : Nat), n ≤ fuel → ∀ rest : List Byte,
      varintDecode (varintEncodeGo fuel n ++ rest) = some (n, rest) := by
  induction fuel with
  | zero =>
    intro n hn rest
    have : n = 0 := by omega
    subst this
    simp [varintEncodeGo, varintDecode]
  | succ fuel ih =>
    intro n hn rest
    unfold varintEncodeGo
    split
    · next h => simp [varintDecode, h]
    · next h =>
      push_neg at h
      have hdiv : n / 128 ≤ fuel := by
        have := Nat.div_lt_self (by omega : 0 < n) (by omega : 1 < 128)
        omega
      simp only [List.cons_append]
      unfold varintDecode
      have hb : ¬ ((⟨n % 128 + 128, by omega⟩ : Byte).val < 128) := by
        simp
      rw [if_neg hb]
      rw [ih (n / 128) hdiv rest]
      simp only [Option.some.injEq, Prod.mk.injEq, and_true, eq_self_iff_true]
      show (n % 128 + 128) % 128 + 128 * (n / 128) = n
      omega

theorem varintDecode_encode (n : Nat) (rest : List Byte) :
    varintDecode (varintEncode n ++ rest) = some (n, rest) :=
  varintEncodeGo_decode n n le_rfl rest

theorem idDeserialize_append {i : WireId} (h : i.length = ID_SIZE)
    (rest : List Byte) :
    idDeserialize (i ++ rest) = some (i, rest) := by
  unfold idDeserialize
  have hlen : ID_SIZE ≤ (i ++ rest).length := by
    simp [← h]
  rw [if_pos hlen, List.take_left' h, List.drop_left' h]

theorem readIds_flatten {ids : List WireId}
    (h : ∀ i ∈ ids, i.length = ID_SIZE) (rest : List Byte) :
    readIds ids.length (ids.flatten ++ rest) = some (ids, rest) := by
  induction ids with
  | nil => simp [readIds]
  | cons i is ih =>
    have h1 := idDeserialize_append (h i (by simp)) (is.flatten ++ rest)
    have h2 := ih fun j hj => h j (by simp [hj])
    simp only [List.length_cons, List.flatten_cons, List.append_assoc, readIds, h1, h2]

theorem operationIdsDeserialize_serialize {max_length : Nat} {ids : List WireId}
    (hlen : ids.length ≤ max_length) (hids : ∀ i ∈ ids, i.length = ID_SIZE)
    (rest : List Byte) :
    operationIdsDeserialize max_length (operationIdsSerialize ids ++ rest) =
      some (ids, rest) := by
  unfold operationIdsSerialize operationIdsDeserialize
  rw [List.append_assoc, varintDecode_encode]
  simp only [if_neg (show ¬ max_length < ids.length by omega)]
  exact readIds_flatten hids rest

theorem securedHeaderDeserialize_serialize (h : SecuredHeader)
    (rest : List Byte) :
    securedHeaderDeserialize (securedHeaderSerialize h ++ rest) =
      some (h, rest) := by
  unfold securedHeaderSerialize securedHeaderDeserialize
  rw [varintDecode_encode]

theorem operationDeserialize_serialize (op : SecureShareOperation)
    (rest : List Byte) :
    operationDeserialize (operationSerialize op ++ rest) = some (op, rest) := by
  unfold operationSerialize operationDeserialize
  rw [varintDecode_encode]

theorem readOperations_flatten (ops : List SecureShareOperation)
    (rest : List Byte) :
    readOperations ops.length ((ops.map operationSerialize).flatten ++ rest) =
      some (ops, rest) := by
  induction ops with
  | nil => simp [readOperations]
  | cons op os ih =>
    have h1 := operationDeserialize_serialize op
      ((os.map operationSerialize).flatten ++ rest)
    simp only [List.length_cons, List.map_cons, List.flatten_cons,
      List.append_assoc, readOperations, h1, ih]

theorem operationsDeserialize_serialize {max_length : Nat}
    {ops : List SecureShareOperation} (hlen : ops.length ≤ max_length)
    (rest : List Byte) :
    operationsDeserialize max_length (operationsSerialize ops ++ rest) =
      some (ops, rest) := by
  unfold operationsSerialize operationsDeserialize
  rw [List.append_assoc, varintDecode_encode]
  simp only [if_neg (show ¬ max_length < ops.length by omega)]
  exact readOperations_flatten ops rest

theorem readPrefixIds_flatten {ids : List WirePrefixId}
    (h : ∀ i ∈ ids, i.length = OPERATION_PREFIX_SIZE) (rest : List Byte) :
    readPrefixIds ids.length (ids.flatten ++ rest) = some (ids, rest) := by
  induction ids with
  | nil => simp [readPrefixIds]
  | cons i is ih =>
    have hi := h i (by simp)
    have hlen : OPERATION_PREFIX_SIZE ≤ (i ++ (is.flatten ++ rest)).length := by
      simp [← hi]
    have h2 := ih fun j hj => h j (by simp [hj])
    simp only [List.length_cons, List.flatten_cons, List.append_assoc,
      readPrefixIds, if_pos hlen, List.take_left' hi, List.drop_left' hi, h2]

theorem operationPrefixIdsDeserialize_serialize {max_length : Nat}
    {ids : List WirePrefixId} (hlen : ids.length ≤ max_length)
    (hids : ∀ i ∈ ids, i.length = OPERATION_PREFIX_SIZE) (rest : List Byte) :
    operationPrefixIdsDeserialize max_length
      (operationPrefixIdsSerialize ids ++ rest) = some (ids, rest) := by
  unfold operationPrefixIdsSerialize operationPrefixIdsDeserialize
  rw [List.append_assoc, varintDecode_encode]
  simp only [if_neg (show ¬ max_length < ids.length by omega)]
  exact readPrefixIds_flatten hids rest

theorem blockMessageDeserialize_serialize (args : BlockMessageDeserializerArgs)
    (msg : BlockMessage) (hwf : msg.WF args) (rest : List Byte) :
    blockMessageDeserialize args (blockMessageSerialize msg ++ rest) =
      some (msg, rest) := by
  cases msg with
  | Header header =>
    unfold blockMessageSerialize blockMessageDeserialize
    rw [List.append_assoc, varintDecode_encode]
    simp only []
    rw [securedHeaderDeserialize_serialize header rest]
  | DataRequest block_id block_info =>
    rcases hwf with ⟨hid, hinfo⟩
    cases block_info with
    | Header =>
      unfold blockMessageSerialize blockMessageDeserialize idSerialize
      rw [List.append_assoc, List.append_assoc, varintDecode_encode]
      simp only []
      rw [idDeserialize_append hid]
      simp only []
      rw [varintDecode_encode]
    | OperationIds =>
      unfold blockMessageSerialize blockMessageDeserialize idSerialize
      rw [List.append_assoc, List.append_assoc, varintDecode_encode]
      simp only []
      rw [idDeserialize_append hid]
      simp only []
      rw [varintDecode_encode]
    | Operations ids =>
      rcases hinfo with ⟨hlen, hids⟩
      have hop : operationIdsDeserialize args.max_operations_per_block
          (varintEncode ids.length ++ (ids.flatten ++ rest)) = some (ids, rest) := by
        have := operationIdsDeserialize_serialize hlen hids rest
        unfold operationIdsSerialize at this
        rw [List.append_assoc] at this
        exact this
      unfold blockMessageSerialize blockMessageDeserialize idSerialize
      simp only []
      rw [show (ids.map fun i => i).flatten = ids.flatten by simp]
      rw [List.append_assoc, List.append_assoc, List.append_assoc,
        varintDecode_encode]
      simp only []
      rw [idDeserialize_append hid]
      simp only []
      rw [List.append_assoc, varintDecode_encode]
      simp only []
      rw [hop]
  | DataResponse block_id block_info =>
    rcases hwf with ⟨hid, hinfo⟩
    cases block_info with
    | Header header =>
      unfold blockMessageSerialize blockMessageDeserialize idSerialize
      rw [List.append_assoc, List.append_assoc, List.append_assoc,
        varintDecode_encode]
      simp only []
      rw [idDeserialize_append hid]
      simp only []
      rw [varintDecode_encode]
      simp only []
      rw [securedHeaderDeserialize_serialize header rest]
    | OperationIds ids =>
      rcases hinfo with ⟨hlen, hids⟩
      have hop : operationIdsDeserialize args.max_operations_per_block
          (varintEncode ids.length ++ (ids.flatten ++ rest)) = some (ids, rest) := by
        have := operationIdsDeserialize_serialize hlen hids rest
        unfold operationIdsSerialize at this
        rw [List.append_assoc] at this
        exact this
      unfold blockMessageSerialize blockMessageDeserialize idSerialize
      simp only []
      rw [show (ids.map fun i => i).flatten = ids.flatten by simp]
      rw [List.append_assoc, List.append_assoc, List.append_assoc,
        varintDecode_encode]
      simp only []
      rw [idDeserialize_append hid]
      simp only []
      rw [List.append_assoc, varintDecode_encode]
      simp only []
      rw [hop]
    | Operations ops =>
      have hop : operationsDeserialize args.max_operations_per_block
          (varintEncode ops.length ++ ((ops.map operationSerialize).flatten ++ rest)) =
            some (ops, rest) := by
        have := operationsDeserialize_serialize hinfo rest
        unfold operationsSerialize at this
        rw [List.append_assoc] at this
        exact this
      unfold blockMessageSerialize blockMessageDeserialize idSerialize
      rw [List.append_assoc, List.append_assoc, List.append_assoc,
        varintDecode_encode]
      simp only []
      rw [idDeserialize_append hid]
      simp only []
      rw [List.append_assoc, varintDecode_encode]
      simp only []
      rw [hop]
    | NotFound =>
      unfold blockMessageSerialize blockMessageDeserialize idSerialize
      rw [List.append_assoc, List.append_assoc, varintDecode_encode]
      simp only []
      rw [idDeserialize_append hid]
      simp only []
      rw [varintDecode_encode]

theorem operationMessageDeserialize_serialize
    (args : OperationMessageDeserializerArgs) (msg : OperationMessage)
    (hwf : msg.WF args) (rest : List Byte) :
    operationMessageDeserialize args (operationMessageSerialize msg ++ rest) =
      some (msg, rest) := by
  cases msg with
  | OperationsAnnouncement ids =>
    rcases hwf with ⟨hlen, hids⟩
    have hop := operationPrefixIdsDeserialize_serialize hlen hids rest
    unfold operationMessageSerialize operationMessageDeserialize
    rw [List.append_assoc, varintDecode_encode]
    simp only []
    rw [hop]
  | AskForOperations ids =>
    rcases hwf with ⟨hlen, hids⟩
    have hop := operationPrefixIdsDeserialize_serialize hlen hids rest
    unfold operationMessageSerialize operationMessageDeserialize
    rw [List.append_assoc, varintDecode_encode]
    simp only []
    rw [hop]
  | Operations ops =>
    have hop := operationsDeserialize_serialize hwf rest
    unfold operationMessageSerialize operationMessageDeserialize
    rw [List.append_assoc, varintDecode_encode]
    simp only []
    rw [hop]

theorem operationIdsDeserialize_too_many {max_length n : Nat}
    (h : max_length < n) (tail : List Byte) :
    operationIdsDeserialize max_length (varintEncode n ++ tail) = none := by
  unfold operationIdsDeserialize
  rw [varintDecode_encode]
  simp only [if_pos h]

/-- C7: deserialising the bytes produced by the serialiser yields the original
message (D after S is the identity) for every block message and every
operation message within the configured limits; in particular a `DataRequest`
carrying two operation ids fails to deserialise with
`max_operations_per_block = 1` and round-trips equal with
`max_operations_per_block = 2`. -/
theorem claim_C7_codec_roundtrip :
    (∀ (args : BlockMessageDeserializerArgs) (msg : BlockMessage)
        (rest : List Byte), msg.WF args →
      blockMessageDeserialize args (blockMessageSerialize msg ++ rest) =
        some (msg, rest)) ∧
    (∀ (args : OperationMessageDeserializerArgs) (msg : OperationMessage)
        (rest : List Byte), msg.WF args →
      operationMessageDeserialize args (operationMessageSerialize msg ++ rest) =
        some (msg, rest)) ∧
    (∀ block_id o1 o2 : WireId, block_id.length = ID_SIZE →
        o1.length = ID_SIZE → o2.length = ID_SIZE →
      blockMessageDeserialize ⟨1⟩
        (blockMessageSerialize (.DataRequest block_id (.Operations [o1, o2]))) =
          none ∧
      blockMessageDeserialize ⟨2⟩
        (blockMessageSerialize (.DataRequest block_id (.Operations [o1, o2]))) =
          some (.DataRequest block_id (.Operations [o1, o2]), [])) := by
  refine ⟨fun args msg rest hwf =>
      blockMessageDeserialize_serialize args msg hwf rest,
    fun args msg rest hwf =>
      operationMessageDeserialize_serialize args msg hwf rest,
    fun block_id o1 o2 hid h1 h2 => ⟨?_, ?_⟩⟩
  · have hfail := operationIdsDeserialize_too_many
      (show (1:Nat) < [o1, o2].length by simp) ([o1, o2].flatten ++ [])
    unfold blockMessageSerialize blockMessageDeserialize idSerialize
    simp only []
    rw [show ([o1, o2].map fun i => i).flatten = [o1, o2].flatten by simp]
    rw [List.append_assoc, List.append_assoc, ← List.append_nil
      ((varintEncode 2 ++ (varintEncode [o1, o2].length ++ [o1, o2].flatten))),
      List.append_assoc, List.append_assoc, varintDecode_encode]
    simp only []
    rw [idDeserialize_append hid]
    simp only []
    rw [varintDecode_encode]
    simp only []
    rw [show varintEncode [o1, o2].length ++ ([o1, o2].flatten ++ []) =
      varintEncode [o1, o2].length ++ [o1, o2].flatten ++ [] by simp]
    rw [List.append_assoc, hfail]
  · have := blockMessageDeserialize_serialize ⟨2⟩
      (.DataRequest block_id (.Operations [o1, o2]))
      (by
        refine ⟨hid, by simp, ?_⟩
        intro i hi
        simp only [List.mem_cons, List.not_mem_nil, or_false] at hi
        rcases hi with rfl | rfl
        · exact h1
        · exact h2)
      []
    rw [List.append_nil] at this
    exact this

theorem claim_C7_codec_roundtrip_witness :
    (OperationMessage.WF ⟨3, 3⟩
        (OperationMessage.Operations [⟨5⟩, ⟨600⟩]) ∧
      operationMessageDeserialize ⟨3, 3⟩
        (operationMessageSerialize (OperationMessage.Operations [⟨5⟩, ⟨600⟩]) ++ []) =
        some (OperationMessage.Operations [⟨5⟩, ⟨600⟩], [])) ∧
    (blockMessageDeserialize ⟨1⟩
        (blockMessageSerialize (.DataRequest (List.replicate 32 (0:Byte))
          (.Operations [List.replicate 32 (1:Byte), List.replicate 32 (2:Byte)]))) =
          none) :=
  ⟨⟨by simp [OperationMessage.WF],
    claim_C7_codec_roundtrip.2.1 ⟨3, 3⟩ (OperationMessage.Operations [⟨5⟩, ⟨600⟩]) []
      (by simp [OperationMessage.WF])⟩,
    (claim_C7_codec_roundtrip.2.2 (List.replicate 32 (0:Byte))
      (List.replicate 32 (1:Byte)) (List.replicate 32 (2:Byte))
      (by simp [ID_SIZE]) (by simp [ID_SIZE]) (by simp [ID_SIZE])).1⟩

/-- C8: for every input buffer shaped as a `DataRequest` (tag 1) with
info-tag 3 (`NotFound`), deserialisation returns an error, while the same
info-tag inside a `DataResponse` (tag 2) succeeds and yields the `NotFound`
variant: `NotFound` is accepted only inside `DataResponse`. -/
theorem claim_C8_notfound_only_in_data_response
    (args : BlockMessageDeserializerArgs) (block_id : WireId)
    (rest : List Byte) (hid : block_id.length = ID_SIZE) :
    blockMessageDeserialize args
      (varintEncode 1 ++ block_id ++ varintEncode 3 ++ rest) = none ∧
    blockMessageDeserialize args
      (varintEncode 2 ++ block_id ++ varintEncode 3 ++ rest) =
        some (.DataResponse block_id .NotFound, rest) := by
  constructor
  · unfold blockMessageDeserialize
    rw [List.append_assoc, List.append_assoc, varintDecode_encode]
    simp only []
    rw [idDeserialize_append hid]
    simp only []
    rw [varintDecode_encode]
  · unfold blockMessageDeserialize
    rw [List.append_assoc, List.append_assoc, varintDecode_encode]
    simp only []
    rw [idDeserialize_append hid]
    simp only []
    rw [varintDecode_encode]

theorem claim_C8_notfound_only_in_data_response_witness :
    blockMessageDeserialize ⟨7⟩
      (varintEncode 1 ++ List.replicate 32 (9:Byte) ++ varintEncode 3 ++ []) =
        none ∧
    blockMessageDeserialize ⟨7⟩
      (varintEncode 2 ++ List.replicate 32 (9:Byte) ++ varintEncode 3 ++ []) =
        some (.DataResponse (List.replicate 32 (9:Byte)) .NotFound, []) :=
  claim_C8_notfound_only_in_data_response ⟨7⟩ (List.replicate 32 (9:Byte)) []
    (by simp [ID_SIZE])

/-! Claims about the sequence build step and the CSS-final criterion. -/

/-- C2: a sequence build step whose previous `SlotInfo` was already
consensus-final recycles it — same content, same consensus flag, the
execution-final flag refreshed from the running prefix flag — and reports
`overwrites_history = false` (so re-supplying a final slot's content with the
same block id rewrites nothing); and whenever a step reports
`overwrites_history = true`, the previous `SlotInfo` (if one existed) was not
consensus-final. -/
theorem sequence_build_step_consensus_final (slot : Slot) (prev : SlotInfo)
    (new_consensus_final : Bool) (new_consensus_final_block : Option BlockId)
    (blockclique_updated : Bool) (new_blockclique_block : Option BlockId)
    (md : List (BlockId × ExecutionBlockMetadata)) (in_fin : Bool)
    (hc : prev.consensus_final = true) :
    SlotSequencer.sequence_build_step slot (some prev) new_consensus_final
        new_consensus_final_block blockclique_updated new_blockclique_block
        md in_fin =
      some (({ prev with execution_final := in_fin }, false), md) := by
  unfold SlotSequencer.sequence_build_step
  simp [hc]

theorem claim_C2_final_slots_never_rewritten :
    (∀ (slot : Slot) (prev : SlotInfo) (new_consensus_final : Bool)
        (new_consensus_final_block : Option BlockId) (blockclique_updated : Bool)
        (new_blockclique_block : Option BlockId)
        (md : List (BlockId × ExecutionBlockMetadata)) (in_fin : Bool),
      prev.consensus_final = true →
      SlotSequencer.sequence_build_step slot (some prev) new_consensus_final
          new_consensus_final_block blockclique_updated new_blockclique_block
          md in_fin =
        some (({ prev with execution_final := in_fin }, false), md)) ∧
    (∀ (slot : Slot) (prev_item : Option SlotInfo) (new_consensus_final : Bool)
        (new_consensus_final_block : Option BlockId) (blockclique_updated : Bool)
        (new_blockclique_block : Option BlockId)
        (md : List (BlockId × ExecutionBlockMetadata)) (in_fin : Bool)
        (res : SlotInfo × Bool) (md_rest : List (BlockId × ExecutionBlockMetadata)),
      SlotSequencer.sequence_build_step slot prev_item new_consensus_final
          new_consensus_final_block blockclique_updated new_blockclique_block
          md in_fin = some (res, md_rest) →
      res.2 = true →
      ∀ p, prev_item = some p → p.consensus_final = false) := by
  constructor
  · exact sequence_build_step_consensus_final
  · intro slot prev_item ncf nfbb bqu bqb md in_fin res md_rest hstep hov p hp
    subst hp
    by_cases hc : p.consensus_final
    · exfalso
      rw [sequence_build_step_consensus_final slot p ncf nfbb bqu bqb md in_fin hc]
        at hstep
      have h := Option.some.inj hstep
      have h2 : false = res.2 := congrArg (fun x => x.1.2) h
      exact absurd (h2.trans hov) (by simp)
    · simp [hc]

theorem claim_C2_final_slots_never_rewritten_witness :
    ((⟨⟨3, 1⟩, true, false, some (7, 0)⟩ : SlotInfo).consensus_final = true) ∧
    SlotSequencer.sequence_build_step ⟨3, 1⟩
        (some ⟨⟨3, 1⟩, true, false, some (7, 0)⟩) true (some 9) false none [] true =
      some ((⟨⟨3, 1⟩, true, true, some (7, 0)⟩, false), []) :=
  ⟨rfl,
    claim_C2_final_slots_never_rewritten.1 ⟨3, 1⟩
      ⟨⟨3, 1⟩, true, false, some (7, 0)⟩ true (some 9) false none [] true rfl⟩

/-- C4: in the incremental update walk, the CSS-final flag of a slot is true
iff the slot is at or before `latest_consensus_final_slots[slot.thread]`, or
some thread's latest CSS-final slot lies at least `thread_count` slots after
it (`slots_since` succeeding with a value of at least `thread_count`); a
`slots_since` underflow (`unwrap_or_default`, giving 0) contributes false. -/
theorem claim_C4_new_consensus_final_criterion
    (cfg : ExecutionConfig) (lcfs : List Slot) (slot watermark : Slot)
    (h0 : 0 < cfg.thread_count)
    (hw : lcfs.get? slot.thread = some watermark) :
    SlotSequencer.new_consensus_final_flag cfg lcfs slot watermark = true ↔
      (slot ≤ watermark ∨
        ∃ s2 ∈ lcfs, ∃ k, s2.slots_since slot cfg.thread_count = some k ∧
          cfg.thread_count ≤ k) := by
  unfold SlotSequencer.new_consensus_final_flag
  simp only [Bool.or_eq_true, decide_eq_true_eq, List.any_eq_true]
  constructor
  · rintro (h | ⟨cf, hcf, hk⟩)
    · exact Or.inl h
    · refine Or.inr ⟨cf, hcf, ?_⟩
      cases hss : cf.slots_since slot cfg.thread_count with
      | none =>
        rw [hss] at hk
        simp at hk
        omega
      | some k =>
        rw [hss] at hk
        simp at hk
        exact ⟨k, rfl, hk⟩
  · rintro (h | ⟨cf, hcf, k, hss, hk⟩)
    · exact Or.inl h
    · refine Or.inr ⟨cf, hcf, ?_⟩
      rw [hss]
      simpa using hk

theorem claim_C4_new_consensus_final_criterion_witness :
    ((0:Nat) < 2 ∧ [(⟨0, 0⟩ : Slot), ⟨3, 1⟩].get? (0 : Nat) = some ⟨0, 0⟩) ∧
    (SlotSequencer.new_consensus_final_flag ⟨2, 0⟩ [⟨0, 0⟩, ⟨3, 1⟩] ⟨1, 0⟩ ⟨0, 0⟩ = true ↔
      (⟨1, 0⟩ ≤ (⟨0, 0⟩ : Slot) ∨
        ∃ s2 ∈ [(⟨0, 0⟩ : Slot), ⟨3, 1⟩], ∃ k, s2.slots_since ⟨1, 0⟩ 2 = some k ∧
          2 ≤ k)) :=
  ⟨⟨by omega, rfl⟩,
    claim_C4_new_consensus_final_criterion ⟨2, 0⟩ [⟨0, 0⟩, ⟨3, 1⟩] ⟨1, 0⟩ ⟨0, 0⟩
      (by decide) rfl⟩

/-! Evaluation lemmas for the sequence build step, one per source case. -/

section BuildStepEval

variable {slot : Slot} {p : SlotInfo} {ncf : Bool} {nfbb : Option BlockId}
variable {bqu : Bool} {bqb : Option BlockId}
variable {md : List (BlockId × ExecutionBlockMetadata)} {in_fin : Bool}

theorem build_step_becoming_final_match (h1 : p.consensus_final = false)
    (h2 : ncf = true) (h3 : p.get_block_id = nfbb) :
    SlotSequencer.sequence_build_step slot (some p) ncf nfbb bqu bqb md in_fin =
      some (({ p with consensus_final := true, execution_final := in_fin },
        false), md) := by
  unfold SlotSequencer.sequence_build_step
  simp [h1, h2, h3]

theorem build_step_becoming_final_mismatch_none (h1 : p.consensus_final = false)
    (h2 : ncf = true) (h3 : p.get_block_id ≠ nfbb) (h4 : nfbb = none) :
    SlotSequencer.sequence_build_step slot (some p) ncf nfbb bqu bqb md in_fin =
      some (({ p with
        consensus_final := true
        execution_final := in_fin
        content := none }, true), md) := by
  unfold SlotSequencer.sequence_build_step
  subst h4
  simp [h1, h2, h3]

theorem build_step_becoming_final_mismatch_some {b_id : BlockId}
    {m : ExecutionBlockMetadata} {md_rest : List (BlockId × ExecutionBlockMetadata)}
    (h1 : p.consensus_final = false) (h2 : ncf = true)
    (h3 : p.get_block_id ≠ nfbb) (h4 : nfbb = some b_id)
    (h5 : assocRemove b_id md = (some m, md_rest)) :
    SlotSequencer.sequence_build_step slot (some p) ncf nfbb bqu bqb md in_fin =
      some (({ p with
        consensus_final := true
        execution_final := in_fin
        content := some (b_id, m) }, true), md_rest) := by
  unfold SlotSequencer.sequence_build_step
  subst h4
  simp [h1, h2, h3, h5]

theorem build_step_becoming_final_mismatch_missing {b_id : BlockId}
    (h1 : p.consensus_final = false) (h2 : ncf = true)
    (h3 : p.get_block_id ≠ nfbb) (h4 : nfbb = some b_id)
    (h5 : (assocRemove b_id md).1 = none) :
    SlotSequencer.sequence_build_step slot (some p) ncf nfbb bqu bqb md in_fin =
      none := by
  unfold SlotSequencer.sequence_build_step
  subst h4
  rcases hrem : assocRemove b_id md with ⟨o, rest⟩
  rw [hrem] at h5
  simp only at h5
  subst h5
  simp [h1, h2, h3, hrem]

theorem build_step_no_blockclique (h1 : p.consensus_final = false)
    (h2 : ncf = false) (h3 : bqu = false) :
    SlotSequencer.sequence_build_step slot (some p) ncf nfbb bqu bqb md in_fin =
      some ((p, false), md) := by
  unfold SlotSequencer.sequence_build_step
  simp [h1, h2, h3]

theorem build_step_blockclique_match (h1 : p.consensus_final = false)
    (h2 : ncf = false) (h3 : bqu = true) (h4 : bqb = p.get_block_id) :
    SlotSequencer.sequence_build_step slot (some p) ncf nfbb bqu bqb md in_fin =
      some ((p, false), md) := by
  unfold SlotSequencer.sequence_build_step
  simp [h1, h2, h3, h4]

theorem build_step_blockclique_mismatch_none (h1 : p.consensus_final = false)
    (h2 : ncf = false) (h3 : bqu = true) (h4 : bqb ≠ p.get_block_id)
    (h5 : bqb = none) :
    SlotSequencer.sequence_build_step slot (some p) ncf nfbb bqu bqb md in_fin =
      some (({ p with content := none }, true), md) := by
  unfold SlotSequencer.sequence_build_step
  subst h5
  simp [h1, h2, h3, h4]

theorem build_step_blockclique_mismatch_some {b_id : BlockId}
    {m : ExecutionBlockMetadata} {md_rest : List (BlockId × ExecutionBlockMetadata)}
    (h1 : p.consensus_final = false) (h2 : ncf = false) (h3 : bqu = true)
    (h4 : bqb ≠ p.get_block_id) (h5 : bqb = some b_id)
    (h6 : assocRemove b_id md = (some m, md_rest)) :
    SlotSequencer.sequence_build_step slot (some p) ncf nfbb bqu bqb md in_fin =
      some (({ p with content := some (b_id, m) }, true), md_rest) := by
  unfold SlotSequencer.sequence_build_step
  subst h5
  simp [h1, h2, h3, h4, h6]

theorem build_step_blockclique_mismatch_missing {b_id : BlockId}
    (h1 : p.consensus_final = false) (h2 : ncf = false) (h3 : bqu = true)
    (h4 : bqb ≠ p.get_block_id) (h5 : bqb = some b_id)
    (h6 : (assocRemove b_id md).1 = none) :
    SlotSequencer.sequence_build_step slot (some p) ncf nfbb bqu bqb md in_fin =
      none := by
  unfold SlotSequencer.sequence_build_step
  subst h5
  rcases hrem : assocRemove b_id md with ⟨o, rest⟩
  rw [hrem] at h6
  simp only at h6
  subst h6
  simp [h1, h2, h3, h4, hrem]

theorem build_step_new_final_none (h2 : ncf = true) (h4 : nfbb = none) :
    SlotSequencer.sequence_build_step slot none ncf nfbb bqu bqb md in_fin =
      some (({
        slot := slot
        consensus_final := true
        execution_final := in_fin
        content := none }, false), md) := by
  unfold SlotSequencer.sequence_build_step
  subst h4
  simp [h2]

theorem build_step_new_final_some {b_id : BlockId} {m : ExecutionBlockMetadata}
    {md_rest : List (BlockId × ExecutionBlockMetadata)}
    (h2 : ncf = true) (h4 : nfbb = some b_id)
    (h5 : assocRemove b_id md = (some m, md_rest)) :
    SlotSequencer.sequence_build_step slot none ncf nfbb bqu bqb md in_fin =
      some (({
        slot := slot
        consensus_final := true
        execution_final := in_fin
        content := some (b_id, m) }, true),
        md_rest) := by
  unfold SlotSequencer.sequence_build_step
  subst h4
  simp [h2, h5]

theorem build_step_new_final_missing {b_id : BlockId}
    (h2 : ncf = true) (h4 : nfbb = some b_id)
    (h5 : (assocRemove b_id md).1 = none) :
    SlotSequencer.sequence_build_step slot none ncf nfbb bqu bqb md in_fin =
      none := by
  unfold SlotSequencer.sequence_build_step
  subst h4
  rcases hrem : assocRemove b_id md with ⟨o, rest⟩
  rw [hrem] at h5
  simp only at h5
  subst h5
  simp [h2, hrem]

theorem build_step_new_candidate_none (h2 : ncf = false) (h4 : bqb = none) :
    SlotSequencer.sequence_build_step slot none ncf nfbb bqu bqb md in_fin =
      some (({
        slot := slot
        consensus_final := false
        execution_final := false
        content := none }, false), md) := by
  unfold SlotSequencer.sequence_build_step
  subst h4
  simp [h2]

theorem build_step_new_candidate_some {b_id : BlockId} {m : ExecutionBlockMetadata}
    {md_rest : List (BlockId × ExecutionBlockMetadata)}
    (h2 : ncf = false) (h4 : bqb = some b_id)
    (h5 : assocRemove b_id md = (some m, md_rest)) :
    SlotSequencer.sequence_build_step slot none ncf nfbb bqu bqb md in_fin =
      some (({
        slot := slot
        consensus_final := false
        execution_final := false
        content := some (b_id, m) }, true),
        md_rest) := by
  unfold SlotSequencer.sequence_build_step
  subst h4
  simp [h2, h5]

theorem build_step_new_candidate_missing {b_id : BlockId}
    (h2 : ncf = false) (h4 : bqb = some b_id)
    (h5 : (assocRemove b_id md).1 = none) :
    SlotSequencer.sequence_build_step slot none ncf nfbb bqu bqb md in_fin =
      none := by
  unfold SlotSequencer.sequence_build_step
  subst h4
  rcases hrem : assocRemove b_id md with ⟨o, rest⟩
  rw [hrem] at h5
  simp only at h5
  subst h5
  simp [h2, hrem]

end BuildStepEval

/-! Lemmas about the update walk. -/

theorem sequence_build_step_slot {slot : Slot} {prev_item : Option SlotInfo}
    {ncf : Bool} {nfbb : Option BlockId} {bqu : Bool} {bqb : Option BlockId}
    {md : List (BlockId × ExecutionBlockMetadata)} {in_fin : Bool}
    {info : SlotInfo} {ov : Bool} {md2 : List (BlockId × ExecutionBlockMetadata)}
    (h : SlotSequencer.sequence_build_step slot prev_item ncf nfbb bqu bqb md
      in_fin = some ((info, ov), md2))
    (hprev : ∀ p, prev_item = some p → p.slot = slot) :
    info.slot = slot := by
  cases prev_item with
  | some p =>
    have hp := hprev p rfl
    cases hc : p.consensus_final with
    | true =>
      rw [sequence_build_step_consensus_final slot p ncf nfbb bqu bqb md in_fin hc]
        at h
      cases h
      exact hp
    | false =>
      cases hn : ncf with
      | true =>
        by_cases h3 : p.get_block_id = nfbb
        · rw [build_step_becoming_final_match hc hn h3] at h
          cases h
          exact hp
        · cases h4 : nfbb with
          | none =>
            rw [build_step_becoming_final_mismatch_none hc hn (h4 ▸ h3) h4] at h
            cases h
            exact hp
          | some b_id =>
            rcases hrem : assocRemove b_id md with ⟨o, rest⟩
            cases o with
            | none =>
              rw [build_step_becoming_final_mismatch_missing hc hn (h4 ▸ h3) h4
                (by rw [hrem])] at h
              cases h
            | some m =>
              rw [build_step_becoming_final_mismatch_some hc hn (h4 ▸ h3) h4 hrem]
                at h
              cases h
              exact hp
      | false =>
        cases hb : bqu with
        | false =>
          rw [build_step_no_blockclique hc hn hb] at h
          cases h
          exact hp
        | true =>
          by_cases h4 : bqb = p.get_block_id
          · rw [build_step_blockclique_match hc hn hb h4] at h
            cases h
            exact hp
          · cases h5 : bqb with
            | none =>
              rw [build_step_blockclique_mismatch_none hc hn hb (h5 ▸ h4) h5] at h
              cases h
              exact hp
            | some b_id =>
              rcases hrem : assocRemove b_id md with ⟨o, rest⟩
              cases o with
              | none =>
                rw [build_step_blockclique_mismatch_missing hc hn hb (h5 ▸ h4) h5
                  (by rw [hrem])] at h
                cases h
              | some m =>
                rw [build_step_blockclique_mismatch_some hc hn hb (h5 ▸ h4) h5 hrem]
                  at h
                cases h
                exact hp
  | none =>
    cases hn : ncf with
    | true =>
      cases h4 : nfbb with
      | none =>
        rw [build_step_new_final_none hn h4] at h
        cases h
        rfl
      | some b_id =>
        rcases hrem : assocRemove b_id md with ⟨o, rest⟩
        cases o with
        | none =>
          rw [build_step_new_final_missing hn h4 (by rw [hrem])] at h
          cases h
        | some m =>
          rw [build_step_new_final_some hn h4 hrem] at h
          cases h
          rfl
    | false =>
      cases h4 : bqb with
      | none =>
        rw [build_step_new_candidate_none hn h4] at h
        cases h
        rfl
      | some b_id =>
        rcases hrem : assocRemove b_id md with ⟨o, rest⟩
        cases o with
        | none =>
          rw [build_step_new_candidate_missing hn h4 (by rw [hrem])] at h
          cases h
        | some m =>
          rw [build_step_new_candidate_some hn h4 hrem] at h
          cases h
          rfl

theorem pop_front_spec {slot : Slot} {old_seq : List SlotInfo}
    {prev_item : Option SlotInfo} {old_rest : List SlotInfo}
    (h : SlotSequencer.pop_front slot old_seq = some (prev_item, old_rest)) :
    (old_seq = [] ∧ prev_item = none ∧ old_rest = []) ∨
      (∃ i, old_seq = i :: old_rest ∧ i.slot = slot ∧ prev_item = some i) := by
  cases old_seq with
  | nil =>
    unfold SlotSequencer.pop_front at h
    simp only [Option.some.injEq, Prod.mk.injEq] at h
    exact Or.inl ⟨rfl, h.1.symm, h.2.symm⟩
  | cons i rest =>
    unfold SlotSequencer.pop_front at h
    simp only [] at h
    by_cases hi : i.slot = slot
    · rw [if_pos hi] at h
      simp only [Option.some.injEq, Prod.mk.injEq] at h
      exact Or.inr ⟨i, by rw [h.2], hi, h.1.symm⟩
    · rw [if_neg hi] at h
      cases h

theorem update_walk_body_spec {cfg : ExecutionConfig} {lcfs : List Slot}
    {slot : Slot} {old_seq : List SlotInfo} {nfb : List (Slot × BlockId)}
    {bq : Option (List (Slot × BlockId))}
    {md : List (BlockId × ExecutionBlockMetadata)} {in_fin : Bool}
    {lexf lecs : Slot} {r : WalkStepResult}
    (hbody : SlotSequencer.update_walk_body cfg lcfs slot old_seq nfb bq md
      in_fin lexf lecs = some r) :
    ∃ watermark prev_item,
      lcfs.get? slot.thread = some watermark ∧
      SlotSequencer.pop_front slot old_seq = some (prev_item, r.old_rest) ∧
      SlotSequencer.sequence_build_step slot prev_item
          (SlotSequencer.new_consensus_final_flag cfg lcfs slot watermark)
          (assocRemove slot nfb).1 bq.isSome
          (SlotSequencer.bq_remove slot bq).1 md in_fin =
        some (r.step, r.md_rest) ∧
      r.nfb_rest = (assocRemove slot nfb).2 ∧
      r.bq_rest = (SlotSequencer.bq_remove slot bq).2 ∧
      r.in_execution_finality = (in_fin && r.step.1.execution_final) ∧
      r.latest_execution_final_slot =
        (if r.in_execution_finality = true then slot else lexf) ∧
      (if r.step.2 = true ∧ slot ≤ lecs then
        slot.get_prev_slot cfg.thread_count =
          some r.latest_executed_candidate_slot
       else r.latest_executed_candidate_slot = lecs) := by
  unfold SlotSequencer.update_walk_body at hbody
  cases hw : lcfs.get? slot.thread with
  | none =>
    rw [hw] at hbody
    cases hbody
  | some watermark =>
    rw [hw] at hbody
    simp only [] at hbody
    refine ⟨watermark, ?_⟩
    cases hpop : SlotSequencer.pop_front slot old_seq with
    | none =>
      rw [hpop] at hbody
      cases hbody
    | some pr =>
      rcases pr with ⟨prev_item, old_rest⟩
      rw [hpop] at hbody
      simp only [] at hbody
      cases hstep : SlotSequencer.sequence_build_step slot prev_item
          (SlotSequencer.new_consensus_final_flag cfg lcfs slot watermark)
          (assocRemove slot nfb).1 bq.isSome
          (SlotSequencer.bq_remove slot bq).1 md in_fin with
      | none =>
        rw [hstep] at hbody
        cases hbody
      | some sr =>
        rcases sr with ⟨⟨seq_item, ov⟩, md_rest⟩
        rw [hstep] at hbody
        simp only [] at hbody
        by_cases hroll : (ov && decide (slot ≤ lecs)) = true
        · rw [if_pos hroll] at hbody
          cases hprevs : slot.get_prev_slot cfg.thread_count with
          | none =>
            rw [hprevs] at hbody
            cases hbody
          | some pslot =>
            rw [hprevs] at hbody
            simp only [Option.some.injEq] at hbody
            subst hbody
            simp only [Bool.and_eq_true, decide_eq_true_eq] at hroll
            refine ⟨prev_item, rfl, rfl, hstep, rfl, rfl, rfl, rfl, ?_⟩
            rw [if_pos ⟨hroll.1, hroll.2⟩]
        · rw [if_neg hroll] at hbody
          simp only [Option.some.injEq] at hbody
          subst hbody
          simp only [Bool.and_eq_true, decide_eq_true_eq, not_and] at hroll
          refine ⟨prev_item, rfl, rfl, hstep, rfl, rfl, rfl, rfl, ?_⟩
          rw [if_neg (by
            rintro ⟨h1, h2⟩
            exact hroll h1 h2)]

theorem Slot.get_prev_lt {s p : Slot} {tc : Nat} (h0 : 0 < tc)
    (h : s.get_prev_slot tc = some p) : p < s := by
  unfold Slot.get_prev_slot at h
  by_cases ht : s.thread = 0
  · rw [if_pos ht] at h
    by_cases hp : s.period = 0
    · rw [if_pos hp] at h
      cases h
    · rw [if_neg hp] at h
      cases h
      rw [Slot.lt_def]
      left
      simp
      omega
  · rw [if_neg ht] at h
    cases h
    rw [Slot.lt_def]
    right
    simp
    omega

theorem update_walk_base {cfg : ExecutionConfig} {lcfs : List Slot}
    {max_slot : Slot} {fuel : Nat} {slot : Slot} {old_seq : List SlotInfo}
    {nfb : List (Slot × BlockId)} {bq : Option (List (Slot × BlockId))}
    {md : List (BlockId × ExecutionBlockMetadata)} {in_fin : Bool}
    {lexf lecs : Slot} (h : ¬ slot ≤ max_slot) :
    SlotSequencer.update_walk cfg lcfs max_slot fuel slot old_seq nfb bq md
      in_fin lexf lecs = some ⟨[], old_seq, nfb, bq, md, lexf, lecs⟩ := by
  unfold SlotSequencer.update_walk
  rw [if_pos h]

theorem update_walk_cons_inv {cfg : ExecutionConfig} {lcfs : List Slot}
    {max_slot : Slot} {fuel : Nat} {slot : Slot} {old_seq : List SlotInfo}
    {nfb : List (Slot × BlockId)} {bq : Option (List (Slot × BlockId))}
    {md : List (BlockId × ExecutionBlockMetadata)} {in_fin : Bool}
    {lexf lecs : Slot} {res : WalkResult} (hle : slot ≤ max_slot)
    (h : SlotSequencer.update_walk cfg lcfs max_slot fuel slot old_seq nfb bq md
      in_fin lexf lecs = some res) :
    ∃ fuel2 r res2, fuel = fuel2 + 1 ∧
      SlotSequencer.update_walk_body cfg lcfs slot old_seq nfb bq md in_fin
        lexf lecs = some r ∧
      SlotSequencer.update_walk cfg lcfs max_slot fuel2
        (slot.get_next_slot cfg.thread_count) r.old_rest r.nfb_rest r.bq_rest
        r.md_rest r.in_execution_finality r.latest_execution_final_slot
        r.latest_executed_candidate_slot = some res2 ∧
      res = { res2 with steps := r.step :: res2.steps } := by
  unfold SlotSequencer.update_walk at h
  rw [if_neg (not_not_intro hle)] at h
  cases fuel with
  | zero => cases h
  | succ fuel2 =>
    cases hbody : SlotSequencer.update_walk_body cfg lcfs slot old_seq nfb bq md
        in_fin lexf lecs with
    | none =>
      rw [hbody] at h
      cases h
    | some r =>
      rw [hbody] at h
      simp only [] at h
      cases hrec : SlotSequencer.update_walk cfg lcfs max_slot fuel2
          (slot.get_next_slot cfg.thread_count) r.old_rest r.nfb_rest r.bq_rest
          r.md_rest r.in_execution_finality r.latest_execution_final_slot
          r.latest_executed_candidate_slot with
      | none =>
        rw [hrec] at h
        cases h
      | some res2 =>
        rw [hrec] at h
        simp only [Option.some.injEq] at h
        exact ⟨fuel2, r, res2, rfl, rfl, hrec, h.symm⟩

theorem update_walk_body_step_slot {cfg : ExecutionConfig} {lcfs : List Slot}
    {slot : Slot} {old_seq : List SlotInfo} {nfb : List (Slot × BlockId)}
    {bq : Option (List (Slot × BlockId))}
    {md : List (BlockId × ExecutionBlockMetadata)} {in_fin : Bool}
    {lexf lecs : Slot} {r : WalkStepResult}
    (hbody : SlotSequencer.update_walk_body cfg lcfs slot old_seq nfb bq md
      in_fin lexf lecs = some r) :
    r.step.1.slot = slot := by
  obtain ⟨w, prev_item, hw, hpop, hstep, _⟩ := update_walk_body_spec hbody
  have hprev : ∀ p, prev_item = some p → p.slot = slot := by
    intro p hp
    rcases pop_front_spec hpop with ⟨_, h2, _⟩ | ⟨i, _, hi, hpi⟩
    · rw [h2] at hp
      cases hp
    · rw [hpi] at hp
      cases hp
      exact hi
  exact sequence_build_step_slot hstep hprev

theorem slotsFrom_mem {tc : Nat} (h0 : 0 < tc) :
    ∀ (n : Nat) (s : Slot), s.Valid tc → ∀ x ∈ slotsFrom tc s n,
      s ≤ x ∧ x.Valid tc := by
  intro n
  induction n with
  | zero =>
    intro s hs x hx
    cases hx
  | succ n ih =>
    intro s hs x hx
    rcases List.mem_cons.1 hx with rfl | hx2
    · exact ⟨le_refl _, hs⟩
    · have h2 := ih (s.get_next_slot tc) (Slot.valid_next h0) x hx2
      exact ⟨le_trans (le_of_lt (Slot.lt_next hs)) h2.1, h2.2⟩

theorem update_walk_steps_slots {cfg : ExecutionConfig} {lcfs : List Slot}
    {max_slot : Slot} :
    ∀ (fuel : Nat) (slot : Slot) (old_seq : List SlotInfo)
      (nfb : List (Slot × BlockId)) (bq : Option (List (Slot × BlockId)))
      (md : List (BlockId × ExecutionBlockMetadata)) (in_fin : Bool)
      (lexf lecs : Slot) (res : WalkResult),
      SlotSequencer.update_walk cfg lcfs max_slot fuel slot old_seq nfb bq md
        in_fin lexf lecs = some res →
      res.steps.map (fun p => p.1.slot) =
        slotsFrom cfg.thread_count slot res.steps.length := by
  intro fuel
  induction fuel with
  | zero =>
    intro slot old_seq nfb bq md in_fin lexf lecs res h
    by_cases hle : slot ≤ max_slot
    · unfold SlotSequencer.update_walk at h
      rw [if_neg (not_not_intro hle)] at h
      cases h
    · rw [update_walk_base hle] at h
      cases h
      rfl
  | succ fuel ih =>
    intro slot old_seq nfb bq md in_fin lexf lecs res h
    by_cases hle : slot ≤ max_slot
    · obtain ⟨fuel2, r, res2, hf, hbody, hrec, hres⟩ := update_walk_cons_inv hle h
      have hf2 : fuel2 = fuel := by omega
      subst hf2
      have h2 := ih _ _ _ _ _ _ _ _ _ hrec
      have hslot := update_walk_body_step_slot hbody
      subst hres
      simp only [List.map_cons, List.length_cons, slotsFrom, hslot, h2]
    · rw [update_walk_base hle] at h
      cases h
      rfl

theorem update_walk_steps_mem {cfg : ExecutionConfig} {lcfs : List Slot}
    {max_slot : Slot} {fuel : Nat} {slot : Slot} {old_seq : List SlotInfo}
    {nfb : List (Slot × BlockId)} {bq : Option (List (Slot × BlockId))}
    {md : List (BlockId × ExecutionBlockMetadata)} {in_fin : Bool}
    {lexf lecs : Slot} {res : WalkResult} (h0 : 0 < cfg.thread_count)
    (hv : slot.Valid cfg.thread_count)
    (h : SlotSequencer.update_walk cfg lcfs max_slot fuel slot old_seq nfb bq md
      in_fin lexf lecs = some res) :
    ∀ p ∈ res.steps, slot ≤ p.1.slot ∧ p.1.slot.Valid cfg.thread_count := by
  intro p hp
  have hs := update_walk_steps_slots fuel slot old_seq nfb bq md in_fin lexf
    lecs res h
  have hmem : p.1.slot ∈ res.steps.map (fun p => p.1.slot) :=
    List.mem_map_of_mem _ hp
  rw [hs] at hmem
  exact slotsFrom_mem h0 _ slot hv _ hmem

theorem update_walk_rollback {cfg : ExecutionConfig} {lcfs : List Slot}
    {max_slot : Slot} (h0 : 0 < cfg.thread_count) :
    ∀ (fuel : Nat) (slot : Slot) (old_seq : List SlotInfo)
      (nfb : List (Slot × BlockId)) (bq : Option (List (Slot × BlockId)))
      (md : List (BlockId × ExecutionBlockMetadata)) (in_fin : Bool)
      (lexf lecs : Slot) (res : WalkResult),
      slot.Valid cfg.thread_count →
      SlotSequencer.update_walk cfg lcfs max_slot fuel slot old_seq nfb bq md
        in_fin lexf lecs = some res →
      ((res.latest_executed_candidate_slot = lecs ∧
        ∀ p ∈ res.steps, ¬(p.2 = true ∧ p.1.slot ≤ lecs)) ∨
       (∃ pre p0 post, res.steps = pre ++ p0 :: post ∧
         (∀ q ∈ pre, ¬(q.2 = true ∧ q.1.slot ≤ lecs)) ∧
         p0.2 = true ∧ p0.1.slot ≤ lecs ∧
         (∀ q ∈ post, p0.1.slot < q.1.slot) ∧
         p0.1.slot.get_prev_slot cfg.thread_count =
           some res.latest_executed_candidate_slot)) := by
  intro fuel
  induction fuel with
  | zero =>
    intro slot old_seq nfb bq md in_fin lexf lecs res hv h
    by_cases hle : slot ≤ max_slot
    · unfold SlotSequencer.update_walk at h
      rw [if_neg (not_not_intro hle)] at h
      cases h
    · rw [update_walk_base hle] at h
      cases h
      exact Or.inl ⟨rfl, by simp⟩
  | succ fuel ih =>
    intro slot old_seq nfb bq md in_fin lexf lecs res hv h
    by_cases hle : slot ≤ max_slot
    · obtain ⟨fuel2, r, res2, hf, hbody, hrec, hres⟩ := update_walk_cons_inv hle h
      have hf2 : fuel2 = fuel := by omega
      subst hf2
      obtain ⟨w, prev_item, hw, hpop, hstep, hnfb, hbq, hfin, hlexf, hlecs⟩ :=
        update_walk_body_spec hbody
      have hslot := update_walk_body_step_slot hbody
      have hvnext : (slot.get_next_slot cfg.thread_count).Valid cfg.thread_count :=
        Slot.valid_next h0
      by_cases htrig : r.step.2 = true ∧ slot ≤ lecs
      · rw [if_pos htrig] at hlecs
        have hplt : r.latest_executed_candidate_slot < slot :=
          Slot.get_prev_lt h0 hlecs
        have hIH := ih (slot.get_next_slot cfg.thread_count) r.old_rest
          r.nfb_rest r.bq_rest r.md_rest r.in_execution_finality
          r.latest_execution_final_slot r.latest_executed_candidate_slot res2
          hvnext hrec
        have hnotrig : res2.latest_executed_candidate_slot =
            r.latest_executed_candidate_slot := by
          rcases hIH with ⟨heq, _⟩ | ⟨pre, p0, post, hsteps, _, hq2, hqle, _, _⟩
          · exact heq
          · exfalso
            have hmem := update_walk_steps_mem h0 hvnext hrec p0
              (by rw [hsteps]; simp)
            have h1 : p0.1.slot ≤ r.latest_executed_candidate_slot := hqle
            have h2 : slot.get_next_slot cfg.thread_count ≤ p0.1.slot := hmem.1
            have h3 : slot < slot.get_next_slot cfg.thread_count :=
              Slot.lt_next hv
            exact absurd (lt_of_le_of_lt (le_trans h2 h1) (lt_trans hplt h3))
              (lt_irrefl _)
        refine Or.inr ⟨[], r.step, res2.steps, by rw [hres]; simp, by simp,
          htrig.1, ?_, ?_, ?_⟩
        · rw [hslot]
          exact htrig.2
        · intro q hq
          have hmem := update_walk_steps_mem h0 hvnext hrec q hq
          rw [hslot]
          exact lt_of_lt_of_le (Slot.lt_next hv) hmem.1
        · rw [hslot]
          have : res.latest_executed_candidate_slot =
              res2.latest_executed_candidate_slot := by rw [hres]
          rw [this, hnotrig]
          exact hlecs
      · rw [if_neg htrig] at hlecs
        rw [hlecs] at hrec
        have hIH := ih (slot.get_next_slot cfg.thread_count) r.old_rest
          r.nfb_rest r.bq_rest r.md_rest r.in_execution_finality
          r.latest_execution_final_slot lecs res2 hvnext hrec
        have hstep_ok : ¬(r.step.2 = true ∧ r.step.1.slot ≤ lecs) := by
          rw [hslot]
          exact htrig
        rcases hIH with ⟨heq, hno⟩ | ⟨pre, p0, post, hsteps, hpre, hq2, hqle,
            hpost, hprev⟩
        · refine Or.inl ⟨?_, ?_⟩
          · rw [hres]
            exact heq
          · intro p hp
            rw [hres] at hp
            simp only [List.mem_cons] at hp
            rcases hp with rfl | hp2
            · exact hstep_ok
            · exact hno p hp2
        · refine Or.inr ⟨r.step :: pre, p0, post, ?_, ?_, hq2, hqle, hpost, ?_⟩
          · rw [hres]
            simp only [List.cons_append]
            rw [hsteps]
          · intro q hq
            simp only [List.mem_cons] at hq
            rcases hq with rfl | hq2
            · exact hstep_ok
            · exact hpre q hq2
          · rw [hres]
            exact hprev
    · rw [update_walk_base hle] at h
      cases h
      exact Or.inl ⟨rfl, by simp⟩

theorem update_inv {st : SlotSequencer} {time_cursor : Slot}
    {nfb : List (Slot × BlockId)} {bq : Option (List (Slot × BlockId))}
    {md : List (BlockId × ExecutionBlockMetadata)} {st2 : SlotSequencer}
    {front : SlotInfo} {seq_rest : List SlotInfo}
    (hseq : st.sequence = front :: seq_rest)
    (hupd : st.update time_cursor nfb bq md = some st2) :
    ∃ lcfs2 max_lcfs max_slot n res,
      SlotSequencer.update_latest_consensus_final_slots
        st.latest_consensus_final_slots nfb = some lcfs2 ∧
      slotListMax lcfs2 = some max_lcfs ∧
      max_slot = max (max max_lcfs
        ((bq.bind fun b => slotListMax (b.map Prod.fst)).getD
          ⟨st.config.last_start_period, 0⟩))
        ((front :: seq_rest).getLast (List.cons_ne_nil front seq_rest)).slot ∧
      max_slot.slots_since front.slot st.config.thread_count = some n ∧
      SlotSequencer.update_walk st.config lcfs2 max_slot
        (SlotSequencer.walkFuel st.config max_slot) front.slot
        (front :: seq_rest) nfb bq md true st.latest_execution_final_slot
        st.latest_executed_candidate_slot = some res ∧
      res.old_rest = [] ∧ res.nfb_rest = [] ∧ res.bq_rest.getD [] = [] ∧
      SlotSequencer.cleanup_sequence { st with
        sequence := res.steps.map Prod.fst
        latest_consensus_final_slots := lcfs2
        latest_execution_final_slot := res.latest_execution_final_slot
        latest_executed_candidate_slot := res.latest_executed_candidate_slot } =
          some st2 := by
  unfold SlotSequencer.update at hupd
  rw [hseq] at hupd
  simp only [] at hupd
  cases hlcfs : SlotSequencer.update_latest_consensus_final_slots
      st.latest_consensus_final_slots nfb with
  | none =>
    rw [hlcfs] at hupd
    cases hupd
  | some lcfs2 =>
    rw [hlcfs] at hupd
    simp only [] at hupd
    cases hmax : slotListMax lcfs2 with
    | none =>
      rw [hmax] at hupd
      cases hupd
    | some max_lcfs =>
      rw [hmax] at hupd
      simp only [] at hupd
      cases hsince : (max (max max_lcfs
          ((bq.bind fun b => slotListMax (b.map Prod.fst)).getD
            ⟨st.config.last_start_period, 0⟩))
          ((front :: seq_rest).getLast
            (List.cons_ne_nil front seq_rest)).slot).slots_since front.slot
          st.config.thread_count with
      | none =>
        rw [hsince] at hupd
        cases hupd
      | some n =>
        rw [hsince] at hupd
        simp only [] at hupd
        cases hwalk : SlotSequencer.update_walk st.config lcfs2
            (max (max max_lcfs
              ((bq.bind fun b => slotListMax (b.map Prod.fst)).getD
                ⟨st.config.last_start_period, 0⟩))
              ((front :: seq_rest).getLast
                (List.cons_ne_nil front seq_rest)).slot)
            (SlotSequencer.walkFuel st.config
              (max (max max_lcfs
                ((bq.bind fun b => slotListMax (b.map Prod.fst)).getD
                  ⟨st.config.last_start_period, 0⟩))
                ((front :: seq_rest).getLast
                  (List.cons_ne_nil front seq_rest)).slot))
            front.slot (front :: seq_rest) nfb bq md true
            st.latest_execution_final_slot
            st.latest_executed_candidate_slot with
        | none =>
          rw [hwalk] at hupd
          cases hupd
        | some res =>
          rw [hwalk] at hupd
          simp only [] at hupd
          by_cases hold : res.old_rest ≠ []
          · rw [if_pos hold] at hupd
            cases hupd
          · rw [if_neg hold] at hupd
            by_cases hnfbr : res.nfb_rest ≠ []
            · rw [if_pos hnfbr] at hupd
              cases hupd
            · rw [if_neg hnfbr] at hupd
              by_cases hbqr : (res.bq_rest.getD []) ≠ []
              · rw [if_pos hbqr] at hupd
                cases hupd
              · rw [if_neg hbqr] at hupd
                push_neg at hold hnfbr hbqr
                exact ⟨lcfs2, max_lcfs, _, n, res, rfl, hmax, rfl, hsince,
                  hwalk, hold, hnfbr, hbqr, hupd⟩

theorem cleanup_sequence_spec {st st2 : SlotSequencer}
    (h : SlotSequencer.cleanup_sequence st = some st2) :
    ∃ m, slotListMin st.latest_consensus_final_slots = some m ∧
      st2 = { st with sequence := st.sequence.dropWhile fun s => decide (s.slot <
        min (min m st.latest_execution_final_slot)
          (min st.latest_executed_final_slot
            st.latest_executed_candidate_slot)) } := by
  unfold SlotSequencer.cleanup_sequence at h
  cases hm : slotListMin st.latest_consensus_final_slots with
  | none =>
    rw [hm] at h
    cases h
  | some m =>
    rw [hm] at h
    simp only [Option.some.injEq] at h
    exact ⟨m, rfl, h.symm⟩

/-! Claim C1: candidate-cursor rollback during update. -/

/-- C1: during an `update` on a non-empty sequencer, consider the walk trace
(one `(SlotInfo, overwrites_history)` pair per processed slot, with the
candidate cursor starting at `latest_executed_candidate_slot`).  If some step
reports `overwrites_history = true` while the candidate cursor is at or past
its slot, then the final candidate cursor is exactly `prev` of the earliest
such slot — the trigger `p0` is preceded only by non-triggering steps, every
later step lies at a strictly larger slot (so the cursor is not moved any
further back afterwards), and `p0.slot.get_prev_slot` equals the cursor the
update leaves behind.  If no step triggers, the cursor is unchanged. -/
theorem claim_C1_candidate_cursor_rollback
    (st : SlotSequencer) (time_cursor : Slot) (nfb : List (Slot × BlockId))
    (bq : Option (List (Slot × BlockId)))
    (md : List (BlockId × ExecutionBlockMetadata)) (st2 : SlotSequencer)
    (front : SlotInfo) (seq_rest : List SlotInfo)
    (h0 : 0 < st.config.thread_count)
    (hv : front.slot.Valid st.config.thread_count)
    (hseq : st.sequence = front :: seq_rest)
    (hupd : st.update time_cursor nfb bq md = some st2) :
    ∃ lcfs2 max_slot res,
      SlotSequencer.update_walk st.config lcfs2 max_slot
        (SlotSequencer.walkFuel st.config max_slot) front.slot
        (front :: seq_rest) nfb bq md true st.latest_execution_final_slot
        st.latest_executed_candidate_slot = some res ∧
      st2.latest_executed_candidate_slot =
        res.latest_executed_candidate_slot ∧
      ((st2.latest_executed_candidate_slot =
          st.latest_executed_candidate_slot ∧
        ∀ p ∈ res.steps,
          ¬(p.2 = true ∧ p.1.slot ≤ st.latest_executed_candidate_slot)) ∨
       (∃ pre p0 post, res.steps = pre ++ p0 :: post ∧
         (∀ q ∈ pre,
           ¬(q.2 = true ∧ q.1.slot ≤ st.latest_executed_candidate_slot)) ∧
         p0.2 = true ∧
         p0.1.slot ≤ st.latest_executed_candidate_slot ∧
         (∀ q ∈ post, p0.1.slot < q.1.slot) ∧
         p0.1.slot.get_prev_slot st.config.thread_count =
           some st2.latest_executed_candidate_slot)) := by
  obtain ⟨lcfs2, max_lcfs, max_slot, n, res, hlcfs, hmax, hms, hsince, hwalk,
    hold, hnfbr, hbqr, hclean⟩ := update_inv hseq hupd
  obtain ⟨m, hm, hst2⟩ := cleanup_sequence_spec hclean
  have hlecs2 : st2.latest_executed_candidate_slot =
      res.latest_executed_candidate_slot := by
    rw [hst2]
  have hroll := update_walk_rollback h0 (SlotSequencer.walkFuel st.config
    max_slot) front.slot (front :: seq_rest) nfb bq md true
    st.latest_execution_final_slot st.latest_executed_candidate_slot res hv
    hwalk
  refine ⟨lcfs2, max_slot, res, hwalk, hlecs2, ?_⟩
  rcases hroll with ⟨heq, hno⟩ | ⟨pre, p0, post, hsteps, hpre, h1, h2, h3, h4⟩
  · exact Or.inl ⟨by rw [hlecs2, heq], hno⟩
  · exact Or.inr ⟨pre, p0, post, hsteps, hpre, h1, h2, h3, by rw [hlecs2]; exact h4⟩

theorem claim_C1_candidate_cursor_rollback_witness :
    ((0:Nat) < 2 ∧
      SlotSequencer.update
        ⟨⟨2, 0⟩, [⟨⟨1, 1⟩, false, false, some (13, 0)⟩], [⟨0, 0⟩, ⟨0, 1⟩],
          ⟨0, 1⟩, ⟨0, 1⟩, ⟨1, 1⟩⟩ ⟨0, 0⟩ [] (some [(⟨1, 1⟩, 14)]) [(14, 0)] =
        some ⟨⟨2, 0⟩, [⟨⟨1, 1⟩, false, false, some (14, 0)⟩], [⟨0, 0⟩, ⟨0, 1⟩],
          ⟨0, 1⟩, ⟨0, 1⟩, ⟨1, 0⟩⟩) ∧
    (∃ lcfs2 max_slot res,
      SlotSequencer.update_walk (⟨2, 0⟩ : ExecutionConfig) lcfs2 max_slot
        (SlotSequencer.walkFuel ⟨2, 0⟩ max_slot) (⟨1, 1⟩ : Slot)
        ([⟨⟨1, 1⟩, false, false, some (13, 0)⟩]) [] (some [(⟨1, 1⟩, 14)])
        [(14, 0)] true ⟨0, 1⟩ ⟨1, 1⟩ = some res ∧
      (⟨1, 0⟩ : Slot) = res.latest_executed_candidate_slot ∧
      (((⟨1, 0⟩ : Slot) = ⟨1, 1⟩ ∧
        ∀ p ∈ res.steps, ¬(p.2 = true ∧ p.1.slot ≤ (⟨1, 1⟩ : Slot))) ∨
       (∃ pre p0 post, res.steps = pre ++ p0 :: post ∧
         (∀ q ∈ pre, ¬(q.2 = true ∧ q.1.slot ≤ (⟨1, 1⟩ : Slot))) ∧
         p0.2 = true ∧
         p0.1.slot ≤ (⟨1, 1⟩ : Slot) ∧
         (∀ q ∈ post, p0.1.slot < q.1.slot) ∧
         p0.1.slot.get_prev_slot 2 = some ⟨1, 0⟩))) :=
  ⟨⟨by decide, by decide⟩,
    claim_C1_candidate_cursor_rollback
      ⟨⟨2, 0⟩, [⟨⟨1, 1⟩, false, false, some (13, 0)⟩], [⟨0, 0⟩, ⟨0, 1⟩],
        ⟨0, 1⟩, ⟨0, 1⟩, ⟨1, 1⟩⟩ ⟨0, 0⟩ [] (some [(⟨1, 1⟩, 14)]) [(14, 0)]
      ⟨⟨2, 0⟩, [⟨⟨1, 1⟩, false, false, some (14, 0)⟩], [⟨0, 0⟩, ⟨0, 1⟩],
        ⟨0, 1⟩, ⟨0, 1⟩, ⟨1, 0⟩⟩
      ⟨⟨1, 1⟩, false, false, some (13, 0)⟩ [] (by decide) (by decide) rfl
      (by decide)⟩

/-! Claim C6: availability query agrees with dispatch. -/

/-- C6: for every sequencer state and every time-cursor value observed
identically by both calls, `is_task_available` returns `true` exactly when
`run_task_with` dispatches a slot (returns `Some`) rather than doing nothing.
The hypothesis that the per-thread watermark vector is non-empty rules out
the `cleanup_sequence` panic after a final dispatch (the vector always has
`thread_count ≥ 1` entries in any state built by `new`). -/
theorem claim_C6_is_task_available_iff_run_dispatches
    (st : SlotSequencer) (time_cursor : Slot)
    (hlcfs : st.latest_consensus_final_slots ≠ []) :
    ∃ dispatched st2,
      st.run_task_with time_cursor = some (dispatched, st2) ∧
      st.is_task_available time_cursor = dispatched.isSome := by
  obtain ⟨m, hm⟩ := slotListMin_isSome hlcfs
  unfold SlotSequencer.run_task_with SlotSequencer.is_task_available
  by_cases hseq : st.sequence = []
  · exact ⟨none, st, by simp [hseq], by simp [hseq]⟩
  · cases hslot : st.get_slot
        (st.latest_executed_final_slot.get_next_slot st.config.thread_count) with
    | none =>
      by_cases hc :
          (st.latest_executed_candidate_slot.get_next_slot st.config.thread_count) ≤
            time_cursor
      · refine ⟨some (false,
          st.latest_executed_candidate_slot.get_next_slot st.config.thread_count,
          (st.get_slot
            (st.latest_executed_candidate_slot.get_next_slot st.config.thread_count)).bind
              fun nfo => nfo.content),
          { st with latest_executed_candidate_slot :=
              st.latest_executed_candidate_slot.get_next_slot st.config.thread_count },
          ?_, ?_⟩
        · simp [hseq, hslot, hc]
        · simp [hseq, hslot, hc]
      · exact ⟨none, st, by simp [hseq, hslot, hc], by simp [hseq, hslot, hc]⟩
    | some s_info =>
      by_cases hex : s_info.execution_final
      · refine ⟨some (true,
          st.latest_executed_final_slot.get_next_slot st.config.thread_count,
          s_info.content),
          { st with
            latest_executed_final_slot :=
              st.latest_executed_final_slot.get_next_slot st.config.thread_count
            latest_executed_candidate_slot :=
              max st.latest_executed_candidate_slot
                (st.latest_executed_final_slot.get_next_slot st.config.thread_count)
            sequence := st.sequence.dropWhile fun s => decide (s.slot <
              min (min m st.latest_execution_final_slot)
                (min (st.latest_executed_final_slot.get_next_slot st.config.thread_count)
                  (max st.latest_executed_candidate_slot
                    (st.latest_executed_final_slot.get_next_slot st.config.thread_count)))) },
          ?_, ?_⟩
        · simp only [hseq, if_neg, hslot, hex, if_true]
          unfold SlotSequencer.cleanup_sequence
          simp [hseq, hm]
        · simp [hseq, hslot, hex]
      · by_cases hc :
            (st.latest_executed_candidate_slot.get_next_slot st.config.thread_count) ≤
              time_cursor
        · refine ⟨some (false,
            st.latest_executed_candidate_slot.get_next_slot st.config.thread_count,
            (st.get_slot
              (st.latest_executed_candidate_slot.get_next_slot st.config.thread_count)).bind
                fun nfo => nfo.content),
            { st with latest_executed_candidate_slot :=
                st.latest_executed_candidate_slot.get_next_slot st.config.thread_count },
            ?_, ?_⟩
          · simp [hseq, hslot, hex, hc]
          · simp [hseq, hslot, hex, hc]
        · exact ⟨none, st, by simp [hseq, hslot, hex, hc],
            by simp [hseq, hslot, hex, hc]⟩

theorem claim_C6_is_task_available_iff_run_dispatches_witness :
    ((SlotSequencer.new ⟨2, 0⟩ ⟨0, 0⟩).latest_consensus_final_slots ≠ []) ∧
    (∃ dispatched st2,
      (SlotSequencer.new ⟨2, 0⟩ ⟨0, 0⟩).run_task_with ⟨5, 0⟩ =
        some (dispatched, st2) ∧
      (SlotSequencer.new ⟨2, 0⟩ ⟨0, 0⟩).is_task_available ⟨5, 0⟩ =
        dispatched.isSome) :=
  ⟨by decide,
    claim_C6_is_task_available_iff_run_dispatches (SlotSequencer.new ⟨2, 0⟩ ⟨0, 0⟩)
      ⟨5, 0⟩ (by decide)⟩

/-! Claim C5: dispatch priority of run_task_with. -/

/-- C5: `run_task_with` dispatches at most one slot per call (its result
carries a single optional dispatch by construction) and gives final work
priority: when `s = next(latest_executed_final_slot)` is present in the
sequence with `execution_final = true`, the callback observes
`is_final = true` on `s` and that slot's content (never a candidate dispatch
in the same call), and on return `latest_executed_final_slot = s`,
`latest_executed_candidate_slot = max(latest_executed_candidate_slot, s)`,
and the new state is the result of `cleanup_sequence`. -/
theorem claim_C5_run_task_with_final_priority
    (st : SlotSequencer) (time_cursor : Slot) (s_info : SlotInfo)
    (hlcfs : st.latest_consensus_final_slots ≠ [])
    (hne : st.sequence ≠ [])
    (hslot : st.get_slot
      (st.latest_executed_final_slot.get_next_slot st.config.thread_count) =
        some s_info)
    (hex : s_info.execution_final = true) :
    ∃ st2,
      st.run_task_with time_cursor =
        some (some (true,
          st.latest_executed_final_slot.get_next_slot st.config.thread_count,
          s_info.content), st2) ∧
      SlotSequencer.cleanup_sequence { st with
        latest_executed_final_slot :=
          st.latest_executed_final_slot.get_next_slot st.config.thread_count
        latest_executed_candidate_slot :=
          max st.latest_executed_candidate_slot
            (st.latest_executed_final_slot.get_next_slot st.config.thread_count) } =
        some st2 ∧
      st2.latest_executed_final_slot =
        st.latest_executed_final_slot.get_next_slot st.config.thread_count ∧
      st2.latest_executed_candidate_slot =
        max st.latest_executed_candidate_slot
          (st.latest_executed_final_slot.get_next_slot st.config.thread_count) := by
  obtain ⟨m, hm⟩ := slotListMin_isSome hlcfs
  refine ⟨{ st with
      latest_executed_final_slot :=
        st.latest_executed_final_slot.get_next_slot st.config.thread_count
      latest_executed_candidate_slot :=
        max st.latest_executed_candidate_slot
          (st.latest_executed_final_slot.get_next_slot st.config.thread_count)
      sequence := st.sequence.dropWhile fun s => decide (s.slot <
        min (min m st.latest_execution_final_slot)
          (min (st.latest_executed_final_slot.get_next_slot st.config.thread_count)
            (max st.latest_executed_candidate_slot
              (st.latest_executed_final_slot.get_next_slot st.config.thread_count)))) },
    ?_, ?_, rfl, rfl⟩
  · unfold SlotSequencer.run_task_with
    simp only [hne, if_neg, hslot, hex, if_true]
    unfold SlotSequencer.cleanup_sequence
    simp [hne, hm]
  · unfold SlotSequencer.cleanup_sequence
    simp [hm]

theorem claim_C5_run_task_with_final_priority_witness :
    (([(⟨0, 0⟩ : Slot), ⟨0, 1⟩] ≠ ([] : List Slot)) ∧
      ([(⟨⟨0, 1⟩, true, true, none⟩ : SlotInfo)] ≠ ([] : List SlotInfo)) ∧
      SlotSequencer.get_slot
        ⟨⟨2, 0⟩, [⟨⟨0, 1⟩, true, true, none⟩], [⟨0, 0⟩, ⟨0, 1⟩], ⟨0, 1⟩, ⟨0, 0⟩, ⟨0, 0⟩⟩
        ((⟨0, 0⟩ : Slot).get_next_slot 2) = some ⟨⟨0, 1⟩, true, true, none⟩ ∧
      (⟨⟨0, 1⟩, true, true, none⟩ : SlotInfo).execution_final = true) ∧
    (∃ st2,
      SlotSequencer.run_task_with
        ⟨⟨2, 0⟩, [⟨⟨0, 1⟩, true, true, none⟩], [⟨0, 0⟩, ⟨0, 1⟩], ⟨0, 1⟩, ⟨0, 0⟩, ⟨0, 0⟩⟩
        ⟨9, 9⟩ =
        some (some (true, (⟨0, 0⟩ : Slot).get_next_slot 2, none), st2) ∧
      SlotSequencer.cleanup_sequence
        { (⟨⟨2, 0⟩, [⟨⟨0, 1⟩, true, true, none⟩], [⟨0, 0⟩, ⟨0, 1⟩], ⟨0, 1⟩, ⟨0, 0⟩,
            ⟨0, 0⟩⟩ : SlotSequencer) with
          latest_executed_final_slot := (⟨0, 0⟩ : Slot).get_next_slot 2
          latest_executed_candidate_slot :=
            max (⟨0, 0⟩ : Slot) ((⟨0, 0⟩ : Slot).get_next_slot 2) } = some st2 ∧
      st2.latest_executed_final_slot = (⟨0, 0⟩ : Slot).get_next_slot 2 ∧
      st2.latest_executed_candidate_slot =
        max (⟨0, 0⟩ : Slot) ((⟨0, 0⟩ : Slot).get_next_slot 2)) :=
  ⟨⟨by decide, by decide, by decide, rfl⟩,
    claim_C5_run_task_with_final_priority
      ⟨⟨2, 0⟩, [⟨⟨0, 1⟩, true, true, none⟩], [⟨0, 0⟩, ⟨0, 1⟩], ⟨0, 1⟩, ⟨0, 0⟩, ⟨0, 0⟩⟩
      ⟨9, 9⟩ ⟨⟨0, 1⟩, true, true, none⟩ (by decide) (by decide) (by decide) rfl⟩

/-! Claims about the address module. -/

theorem u8_trailing_zeros_go_pow (k : Nat) :
    ∀ bits : Nat, k < bits → u8_trailing_zeros_go (2 ^ k) bits = k := by
  induction k with
  | zero =>
    intro bits hb
    match bits, hb with
    | b + 1, _ => simp [u8_trailing_zeros_go]
  | succ k ih =>
    intro bits hb
    match bits, hb with
    | b + 1, hb =>
      have h2 : 2 ^ (k + 1) % 2 = 0 := by
        rw [pow_succ]
        exact Nat.mul_mod_left _ _
      have h3 : 2 ^ (k + 1) / 2 = 2 ^ k := by
        rw [pow_succ]
        exact Nat.mul_div_cancel _ (by omega)
      simp [u8_trailing_zeros_go, h2, h3, ih b (by omega)]
      omega

theorem u8_trailing_zeros_pow (k : Nat) (hk : k < 8) :
    u8_trailing_zeros (2 ^ k) = k :=
  u8_trailing_zeros_go_pow k 8 hk

/-- C9: for every `User` address (version 0) and every valid thread count
`2 ^ k` (a `u8` power of two, so `k < 8`), `get_thread` returns the top
`k = log2(thread_count)` bits of the first byte of the address hash,
i.e. `byte0 / 2 ^ (8 - k)`; for `thread_count = 1` (`k = 0`) this is 0. -/
theorem claim_C9_user_address_get_thread (addr : UserAddressV0) (k : Nat)
    (hk : k < 8) :
    addr.get_thread (2 ^ k) = (addr.hash.get 0).val / 2 ^ (8 - k) := by
  unfold UserAddressV0.get_thread
  rw [u8_trailing_zeros_pow k hk]
  rcases Nat.eq_zero_or_pos k with rfl | hpos
  · unfold u8_checked_shr
    simp
    have hb : (addr.hash.get 0).val < 256 := (addr.hash.get 0).isLt
    omega
  · unfold u8_checked_shr
    have : 8 - k < 8 := by omega
    simp [this, Nat.shiftRight_eq_div_pow]

theorem claim_C9_user_address_get_thread_witness :
    (5 < 8) ∧
      UserAddressV0.get_thread ⟨⟨List.replicate 32 (171 : Fin 256), by simp⟩⟩ (2 ^ 5) = 21 :=
  ⟨by omega,
    (claim_C9_user_address_get_thread ⟨⟨List.replicate 32 (171 : Fin 256), by simp⟩⟩ 5
      (by omega)).trans (by decide)⟩

/-- C10: for every SC address and every thread count, `Address.get_thread`
returns 0 regardless of the address hash, while a `User` address gets the
hash-derived thread of its versioned user address. -/
theorem claim_C10_sc_address_get_thread_zero :
    (∀ (a : SCAddress) (thread_count : Nat),
      (Address.SC a).get_thread thread_count = 0) ∧
    (∀ (u : UserAddress) (thread_count : Nat),
      (Address.User u).get_thread thread_count = u.get_thread thread_count) :=
  ⟨fun _ _ => rfl, fun _ _ => rfl⟩

/-! Supporting lemmas for the reachable-state invariants. -/
theorem C3Inv.tc_pos {cfg : ExecutionConfig} {st : SlotSequencer}
    (h : C3Inv cfg st) : 0 < cfg.thread_count := by
  have hv := h.lefs_valid
  unfold Slot.Valid at hv
  omega

theorem slotListMin_mem {l : List Slot} {m : Slot}
    (hm : slotListMin l = some m) : m ∈ l := by
  induction l generalizing m with
  | nil => cases hm
  | cons a rest ih =>
    unfold slotListMin at hm
    cases hrest : slotListMin rest with
    | none =>
      rw [hrest] at hm
      simp only [Option.some.injEq] at hm
      simp [← hm]
    | some mr =>
      rw [hrest] at hm
      simp only [Option.some.injEq] at hm
      rcases min_choice a mr with hc | hc <;> rw [hc] at hm
      · simp [← hm]
      · exact List.mem_cons_of_mem _ (hm ▸ ih hrest)

theorem Slot.get_prev_spec {s p : Slot} {tc : Nat} (h0 : 0 < tc)
    (hv : s.Valid tc) (h : s.get_prev_slot tc = some p) :
    p.Valid tc ∧ p.index tc + 1 = s.index tc := by
  unfold Slot.get_prev_slot at h
  unfold Slot.Valid at *
  by_cases ht : s.thread = 0
  · rw [if_pos ht] at h
    by_cases hp : s.period = 0
    · rw [if_pos hp] at h
      cases h
    · rw [if_neg hp] at h
      cases h
      refine ⟨by simp; omega, ?_⟩
      unfold Slot.index
      simp [ht]
      have hpe : s.period - 1 + 1 = s.period := by omega
      calc (s.period - 1) * tc + (tc - 1) + 1 = (s.period - 1) * tc + tc := by
            omega
        _ = (s.period - 1 + 1) * tc := by ring
        _ = s.period * tc := by rw [hpe]
  · rw [if_neg ht] at h
    cases h
    refine ⟨by simp; omega, ?_⟩
    unfold Slot.index
    simp
    omega

theorem slotsFrom_get? {tc : Nat} (h0 : 0 < tc) :
    ∀ (n k : Nat) (s x : Slot), s.Valid tc →
      (slotsFrom tc s n).get? k = some x →
      x.Valid tc ∧ x.index tc = s.index tc + k := by
  intro n
  induction n with
  | zero =>
    intro k s x hs h
    simp [slotsFrom] at h
  | succ n ih =>
    intro k s x hs h
    cases k with
    | zero =>
      simp only [slotsFrom, List.get?] at h
      cases h
      exact ⟨hs, rfl⟩
    | succ k =>
      simp only [slotsFrom, List.get?] at h
      have h2 := ih k (s.get_next_slot tc) x (Slot.valid_next h0) h
      rw [Slot.index_next hs] at h2
      exact ⟨h2.1, by omega⟩

theorem contig_cons {tc : Nat} {f : SlotInfo} {l : List SlotInfo}
    (h : Contig tc (f :: l)) :
    Contig tc l ∧ (∀ g, l.head? = some g →
      g.slot = f.slot.get_next_slot tc) ∧
    l.map (fun i => i.slot) =
      slotsFrom tc (f.slot.get_next_slot tc) l.length := by
  have h2 : f.slot :: l.map (fun i => i.slot) =
      f.slot :: slotsFrom tc (f.slot.get_next_slot tc) l.length := h
  have h3 := (List.cons.injEq _ _ _ _).mp h2
  refine ⟨?_, ?_, h3.2⟩
  · cases l with
    | nil => trivial
    | cons g r =>
      have h4 : g.slot :: r.map (fun i => i.slot) =
          (f.slot.get_next_slot tc) ::
            slotsFrom tc ((f.slot.get_next_slot tc).get_next_slot tc)
              r.length := h3.2
      have h5 := (List.cons.injEq _ _ _ _).mp h4
      show (g :: r).map (fun i => i.slot) = slotsFrom tc g.slot (r.length + 1)
      rw [h5.1]
      exact h4
  · intro g hg
    cases l with
    | nil => cases hg
    | cons g2 r =>
      cases hg
      have h4 : g.slot :: r.map (fun i => i.slot) =
          (f.slot.get_next_slot tc) ::
            slotsFrom tc ((f.slot.get_next_slot tc).get_next_slot tc)
              r.length := h3.2
      exact ((List.cons.injEq _ _ _ _).mp h4).1

theorem contig_of_map {tc : Nat} {s : Slot} {l : List SlotInfo}
    (h : l.map (fun i => i.slot) = slotsFrom tc s l.length) : Contig tc l := by
  cases l with
  | nil => trivial
  | cons f r =>
    have h2 : f.slot :: r.map (fun i => i.slot) =
        s :: slotsFrom tc (s.get_next_slot tc) r.length := h
    have h3 := (List.cons.injEq _ _ _ _).mp h2
    show (f :: r).map (fun i => i.slot) = slotsFrom tc f.slot (r.length + 1)
    rw [h3.1]
    exact h

theorem contig_suffix {tc : Nat} {l l2 : List SlotInfo} (hs : l2 <:+ l)
    (h : Contig tc l) : Contig tc l2 := by
  obtain ⟨pre, rfl⟩ := hs
  induction pre with
  | nil => exact h
  | cons a pre ih => exact ih (contig_cons h).1

theorem getLast?_of_suffix {α : Type} {l l2 : List α} (hs : l2 <:+ l)
    (hne : l2 ≠ []) : l.getLast? = l2.getLast? := by
  obtain ⟨pre, rfl⟩ := hs
  exact List.getLast?_append_of_ne_nil pre hne

theorem getLast?_isSome_of_ne_nil {α : Type} {l : List α} (h : l ≠ []) :
    ∃ b, l.getLast? = some b := by
  cases hl : l.getLast? with
  | none => exact absurd (List.getLast?_eq_none_iff.mp hl) h
  | some b => exact ⟨b, rfl⟩

theorem update_lcfs_nil {lcfs : List Slot} :
    SlotSequencer.update_latest_consensus_final_slots lcfs [] = some lcfs :=
  rfl

theorem update_lcfs_cons {lcfs : List Slot} {p : Slot × BlockId}
    {rest : List (Slot × BlockId)} :
    SlotSequencer.update_latest_consensus_final_slots lcfs (p :: rest) =
      match lcfs.get? p.1.thread with
      | none => none
      | some cur =>
        SlotSequencer.update_latest_consensus_final_slots
          (if cur.period < p.1.period then lcfs.set p.1.thread p.1 else lcfs)
          rest := by
  unfold SlotSequencer.update_latest_consensus_final_slots
  rw [List.foldlM_cons]
  cases hg : lcfs.get? p.1.thread with
  | none => simp [hg]
  | some cur =>
    simp only [hg]
    by_cases hc : cur.period < p.1.period
    · rw [if_pos hc, if_pos hc]
      rfl
    · rw [if_neg hc, if_neg hc]
      rfl

theorem update_lcfs_spec :
    ∀ (nfb : List (Slot × BlockId)) (lcfs lcfs2 : List Slot),
      (∀ (t : Nat) (h : t < lcfs.length), (lcfs.get ⟨t, h⟩).thread = t) →
      SlotSequencer.update_latest_consensus_final_slots lcfs nfb = some lcfs2 →
      lcfs2.length = lcfs.length ∧
      (∀ (t : Nat) (h : t < lcfs2.length), (lcfs2.get ⟨t, h⟩).thread = t) ∧
      (∀ (t : Nat) (h : t < lcfs.length) (h2 : t < lcfs2.length),
        lcfs.get ⟨t, h⟩ ≤ lcfs2.get ⟨t, h2⟩) ∧
      (∀ p ∈ nfb, ∃ h2 : p.1.thread < lcfs2.length,
        p.1 ≤ lcfs2.get ⟨p.1.thread, h2⟩) := by
  intro nfb
  induction nfb with
  | nil =>
    intro lcfs lcfs2 hth h
    rw [update_lcfs_nil] at h
    cases h
    exact ⟨rfl, hth, fun t h h2 => le_refl _, by simp⟩
  | cons p rest ih =>
    intro lcfs lcfs2 hth h
    rw [update_lcfs_cons] at h
    cases hg : lcfs.get? p.1.thread with
    | none =>
      rw [hg] at h
      cases h
    | some cur =>
      rw [hg] at h
      simp only [] at h
      obtain ⟨htlt, hcur⟩ := List.get?_eq_some.mp hg
      by_cases hc : cur.period < p.1.period
      · rw [if_pos hc] at h
        have hlen' : (lcfs.set p.1.thread p.1).length = lcfs.length := by simp
        have hget' : ∀ (t : Nat) (ha : t < lcfs.length)
            (hb : t < (lcfs.set p.1.thread p.1).length),
            (lcfs.set p.1.thread p.1).get ⟨t, hb⟩ =
              if p.1.thread = t then p.1 else lcfs.get ⟨t, ha⟩ := by
          intro t ha hb
          simp only [List.get_eq_getElem, List.getElem_set]
        have hth' : ∀ (t : Nat)
            (hb : t < (lcfs.set p.1.thread p.1).length),
            ((lcfs.set p.1.thread p.1).get ⟨t, hb⟩).thread = t := by
          intro t hb
          have ha : t < lcfs.length := by rw [hlen'] at hb; exact hb
          rw [hget' t ha hb]
          by_cases he : p.1.thread = t
          · rw [if_pos he]
            exact he
          · rw [if_neg he]
            exact hth t ha
        obtain ⟨hlen2, hth2, hmono2, hall2⟩ := ih _ lcfs2 hth' h
        have hmono' : ∀ (t : Nat) (ha : t < lcfs.length)
            (hb : t < (lcfs.set p.1.thread p.1).length),
            lcfs.get ⟨t, ha⟩ ≤ (lcfs.set p.1.thread p.1).get ⟨t, hb⟩ := by
          intro t ha hb
          rw [hget' t ha hb]
          by_cases he : p.1.thread = t
          · rw [if_pos he]
            subst he
            have hcv : lcfs.get ⟨p.1.thread, ha⟩ = cur := hcur
            rw [hcv, Slot.le_def]
            omega
          · rw [if_neg he]
        refine ⟨hlen2.trans hlen', hth2, ?_, ?_⟩
        · intro t ha h2
          have hb : t < (lcfs.set p.1.thread p.1).length := by
            rw [hlen']
            exact ha
          exact le_trans (hmono' t ha hb) (hmono2 t hb h2)
        · intro q hq
          rcases List.mem_cons.1 hq with rfl | hq2
          · have hb : q.1.thread < (lcfs.set q.1.thread q.1).length := by
              rw [hlen']
              exact htlt
            have h2 : q.1.thread < lcfs2.length := by
              rw [hlen2]
              exact hb
            refine ⟨h2, le_trans ?_ (hmono2 q.1.thread hb h2)⟩
            rw [hget' q.1.thread htlt hb, if_pos rfl]
          · exact hall2 q hq2
      · rw [if_neg hc] at h
        obtain ⟨hlen2, hth2, hmono2, hall2⟩ := ih _ lcfs2 hth h
        refine ⟨hlen2, hth2, hmono2, ?_⟩
        intro q hq
        rcases List.mem_cons.1 hq with rfl | hq2
        · have h2 : q.1.thread < lcfs2.length := by
            rw [hlen2]
            exact htlt
          refine ⟨h2, le_trans ?_ (hmono2 q.1.thread htlt h2)⟩
          rw [hcur]
          have hcth : cur.thread = q.1.thread := by
            rw [← hcur]
            exact hth q.1.thread htlt
          rw [Slot.le_def]
          rcases Nat.lt_or_ge q.1.period cur.period with hlt | hge
          · exact Or.inl hlt
          · exact Or.inr ⟨by omega, by rw [hcth]⟩
        · exact hall2 q hq2

theorem get_slot_spec {st : SlotSequencer} {s : Slot} {i : SlotInfo}
    (h0 : 0 < st.config.thread_count)
    (hcontig : Contig st.config.thread_count st.sequence)
    (hvseq : ∀ j ∈ st.sequence, j.slot.Valid st.config.thread_count)
    (hs : s.Valid st.config.thread_count)
    (h : st.get_slot s = some i) : i ∈ st.sequence ∧ i.slot = s := by
  unfold SlotSequencer.get_slot at h
  obtain ⟨idx, hidx, hget⟩ := Option.bind_eq_some.mp h
  refine ⟨List.get?_mem hget, ?_⟩
  unfold SlotSequencer.get_slot_index at hidx
  cases hseq : st.sequence with
  | nil =>
    rw [hseq] at hidx
    cases hidx
  | cons first rest =>
    rw [hseq] at hidx
    simp only [] at hidx
    by_cases hlt : s < first.slot
    · rw [if_pos hlt] at hidx
      cases hidx
    · rw [if_neg hlt] at hidx
      have hfv : first.slot.Valid st.config.thread_count :=
        hvseq first (by rw [hseq]; exact List.mem_cons_self _ _)
      by_cases hle : first.slot.index st.config.thread_count ≤
          s.index st.config.thread_count
      · rw [Slot.slots_since_eq_some hle] at hidx
        simp only [] at hidx
        by_cases hl2 : (first :: rest).length ≤
            s.index st.config.thread_count -
              first.slot.index st.config.thread_count
        · rw [if_pos hl2] at hidx
          cases hidx
        · rw [if_neg hl2] at hidx
          have hidx2 : idx = s.index st.config.thread_count -
              first.slot.index st.config.thread_count :=
            (Option.some.inj hidx).symm
          have hmap : (first :: rest).map (fun j => j.slot) =
              slotsFrom st.config.thread_count first.slot (rest.length + 1) := by
            rw [hseq] at hcontig
            exact hcontig
          have hget2 : ((first :: rest).map (fun j => j.slot)).get? idx =
              some i.slot := by
            rw [List.get?_map]
            rw [hseq] at hget
            rw [hget]
            rfl
          rw [hmap] at hget2
          obtain ⟨hiv, hii⟩ := slotsFrom_get? h0 (rest.length + 1) idx
            first.slot i.slot hfv hget2
          exact Slot.index_inj hiv hs (by omega)
      · rw [Slot.slots_since_eq_none (by omega)] at hidx
        cases hidx

theorem get_slot_eq_of_mem {st : SlotSequencer} {i : SlotInfo}
    (h0 : 0 < st.config.thread_count)
    (hcontig : Contig st.config.thread_count st.sequence)
    (hvseq : ∀ j ∈ st.sequence, j.slot.Valid st.config.thread_count)
    (hi : i ∈ st.sequence) : st.get_slot i.slot = some i := by
  obtain ⟨k, hk⟩ := List.get?_of_mem hi
  obtain ⟨hklt, _⟩ := List.get?_eq_some.mp hk
  cases hseq : st.sequence with
  | nil =>
    rw [hseq] at hi
    cases hi
  | cons first rest =>
    have hfv : first.slot.Valid st.config.thread_count :=
      hvseq first (by rw [hseq]; exact List.mem_cons_self _ _)
    have hiv : i.slot.Valid st.config.thread_count := hvseq i hi
    have hmap : (first :: rest).map (fun j => j.slot) =
        slotsFrom st.config.thread_count first.slot (rest.length + 1) := by
      rw [hseq] at hcontig
      exact hcontig
    have hget2 : ((first :: rest).map (fun j => j.slot)).get? k =
        some i.slot := by
      rw [List.get?_map]
      rw [hseq] at hk
      rw [hk]
      rfl
    rw [hmap] at hget2
    obtain ⟨_, hii⟩ := slotsFrom_get? h0 (rest.length + 1) k first.slot i.slot
      hfv hget2
    unfold SlotSequencer.get_slot SlotSequencer.get_slot_index
    rw [hseq]
    simp only []
    rw [if_neg (by
      rw [Slot.lt_iff_index_lt hiv hfv]
      omega)]
    rw [Slot.slots_since_eq_some (by omega)]
    simp only []
    have hkeq : i.slot.index st.config.thread_count -
        first.slot.index st.config.thread_count = k := by omega
    rw [if_neg (by
      rw [hkeq, ← hseq]
      omega)]
    rw [hkeq]
    simp only [Option.some_bind]
    rw [← hseq]
    exact hk

theorem update_walk_last {cfg : ExecutionConfig} {lcfs : List Slot}
    {max_slot : Slot} :
    ∀ (fuel : Nat) (slot : Slot) (old_seq : List SlotInfo)
      (nfb : List (Slot × BlockId)) (bq : Option (List (Slot × BlockId)))
      (md : List (BlockId × ExecutionBlockMetadata)) (in_fin : Bool)
      (lexf lecs : Slot) (res : WalkResult),
      SlotSequencer.update_walk cfg lcfs max_slot fuel slot old_seq nfb bq md
        in_fin lexf lecs = some res →
      (¬ slot ≤ max_slot → res.steps = []) ∧
      (slot ≤ max_slot → res.steps ≠ []) ∧
      (∀ p ∈ res.steps, p.1.slot ≤ max_slot) ∧
      (∀ b, res.steps.getLast? = some b →
        ¬ (b.1.slot.get_next_slot cfg.thread_count ≤ max_slot)) := by
  intro fuel
  induction fuel with
  | zero =>
    intro slot old_seq nfb bq md in_fin lexf lecs res h
    by_cases hle : slot ≤ max_slot
    · unfold SlotSequencer.update_walk at h
      rw [if_neg (not_not_intro hle)] at h
      cases h
    · rw [update_walk_base hle] at h
      cases h
      exact ⟨fun _ => rfl, fun hc => absurd hc hle, by simp, by simp⟩
  | succ fuel ih =>
    intro slot old_seq nfb bq md in_fin lexf lecs res h
    by_cases hle : slot ≤ max_slot
    · obtain ⟨fuel2, r, res2, hf, hbody, hrec, hres⟩ := update_walk_cons_inv hle h
      have hf2 : fuel2 = fuel := by omega
      subst hf2
      have hslot := update_walk_body_step_slot hbody
      obtain ⟨ih1, ih2, ih3, ih4⟩ := ih _ _ _ _ _ _ _ _ _ hrec
      subst hres
      refine ⟨fun hc => absurd hle hc, fun _ => by simp, ?_, ?_⟩
      · intro p hp
        simp only [List.mem_cons] at hp
        rcases hp with rfl | hp2
        · rw [hslot]
          exact hle
        · exact ih3 p hp2
      · intro b hb
        cases hsteps2 : res2.steps with
        | nil =>
          rw [hsteps2] at hb
          simp only [List.getLast?_singleton, Option.some.injEq] at hb
          subst hb
          rw [hslot]
          intro hnext
          exact ih2 hnext hsteps2
        | cons q t =>
          rw [hsteps2] at hb
          rw [List.getLast?_cons_cons] at hb
          apply ih4 b
          rw [hsteps2]
          exact hb
    · rw [update_walk_base hle] at h
      cases h
      exact ⟨fun _ => rfl, fun hc => absurd hc hle, by simp, by simp⟩

theorem update_walk_last_ge {cfg : ExecutionConfig} {lcfs : List Slot}
    {max_slot : Slot} {fuel : Nat} {slot : Slot} {old_seq : List SlotInfo}
    {nfb : List (Slot × BlockId)} {bq : Option (List (Slot × BlockId))}
    {md : List (BlockId × ExecutionBlockMetadata)} {in_fin : Bool}
    {lexf lecs : Slot} {res : WalkResult} (h0 : 0 < cfg.thread_count)
    (hv : slot.Valid cfg.thread_count)
    (h : SlotSequencer.update_walk cfg lcfs max_slot fuel slot old_seq nfb bq md
      in_fin lexf lecs = some res) :
    ∀ b, res.steps.getLast? = some b → ∀ x : Slot,
      x.Valid cfg.thread_count → x ≤ max_slot → x ≤ b.1.slot := by
  intro b hb x hx hxm
  have h4 := (update_walk_last fuel slot old_seq nfb bq md in_fin lexf lecs
    res h).2.2.2 b hb
  have hbmem : b ∈ res.steps := List.mem_of_mem_getLast? (by simp [hb])
  have hbv : b.1.slot.Valid cfg.thread_count :=
    (update_walk_steps_mem h0 hv h b hbmem).2
  have hlt : x < b.1.slot.get_next_slot cfg.thread_count :=
    lt_of_le_of_lt hxm (not_le.mp h4)
  exact (Slot.lt_next_iff hbv hx).mp hlt

theorem sequence_build_step_exec {slot : Slot} {prev_item : Option SlotInfo}
    {ncf : Bool} {nfbb : Option BlockId} {bqu : Bool} {bqb : Option BlockId}
    {md : List (BlockId × ExecutionBlockMetadata)} {in_fin : Bool}
    {info : SlotInfo} {ov : Bool} {md2 : List (BlockId × ExecutionBlockMetadata)}
    (h : SlotSequencer.sequence_build_step slot prev_item ncf nfbb bqu bqb md
      in_fin = some ((info, ov), md2))
    (hprev : ∀ p, prev_item = some p → p.execution_final = true →
      p.consensus_final = true) :
    info.execution_final = true → in_fin = true ∧ info.consensus_final = true := by
  intro he
  cases prev_item with
  | some p =>
    cases hc : p.consensus_final with
    | true =>
      rw [sequence_build_step_consensus_final slot p ncf nfbb bqu bqb md in_fin
        hc] at h
      cases h
      exact ⟨he, hc⟩
    | false =>
      have hpe : p.execution_final = true → False := by
        intro hx
        rw [hprev p rfl hx] at hc
        cases hc
      cases hn : ncf with
      | true =>
        by_cases h3 : p.get_block_id = nfbb
        · rw [build_step_becoming_final_match hc hn h3] at h
          cases h
          exact ⟨he, rfl⟩
        · cases h4 : nfbb with
          | none =>
            rw [build_step_becoming_final_mismatch_none hc hn (h4 ▸ h3) h4] at h
            cases h
            exact ⟨he, rfl⟩
          | some b_id =>
            rcases hrem : assocRemove b_id md with ⟨o, rest⟩
            cases o with
            | none =>
              rw [build_step_becoming_final_mismatch_missing hc hn (h4 ▸ h3) h4
                (by rw [hrem])] at h
              cases h
            | some m =>
              rw [build_step_becoming_final_mismatch_some hc hn (h4 ▸ h3) h4
                hrem] at h
              cases h
              exact ⟨he, rfl⟩
      | false =>
        cases hb : bqu with
        | false =>
          rw [build_step_no_blockclique hc hn hb] at h
          cases h
          exact absurd he (by simpa using hpe)
        | true =>
          by_cases h4 : bqb = p.get_block_id
          · rw [build_step_blockclique_match hc hn hb h4] at h
            cases h
            exact absurd he (by simpa using hpe)
          · cases h5 : bqb with
            | none =>
              rw [build_step_blockclique_mismatch_none hc hn hb (h5 ▸ h4) h5]
                at h
              cases h
              exact absurd he (by simpa using hpe)
            | some b_id =>
              rcases hrem : assocRemove b_id md with ⟨o, rest⟩
              cases o with
              | none =>
                rw [build_step_blockclique_mismatch_missing hc hn hb (h5 ▸ h4)
                  h5 (by rw [hrem])] at h
                cases h
              | some m =>
                rw [build_step_blockclique_mismatch_some hc hn hb (h5 ▸ h4) h5
                  hrem] at h
                cases h
                exact absurd he (by simpa using hpe)
  | none =>
    cases hn : ncf with
    | true =>
      cases h4 : nfbb with
      | none =>
        rw [build_step_new_final_none hn h4] at h
        cases h
        exact ⟨he, rfl⟩
      | some b_id =>
        rcases hrem : assocRemove b_id md with ⟨o, rest⟩
        cases o with
        | none =>
          rw [build_step_new_final_missing hn h4 (by rw [hrem])] at h
          cases h
        | some m =>
          rw [build_step_new_final_some hn h4 hrem] at h
          cases h
          exact ⟨he, rfl⟩
    | false =>
      cases h4 : bqb with
      | none =>
        rw [build_step_new_candidate_none hn h4] at h
        cases h
        cases he
      | some b_id =>
        rcases hrem : assocRemove b_id md with ⟨o, rest⟩
        cases o with
        | none =>
          rw [build_step_new_candidate_missing hn h4 (by rw [hrem])] at h
          cases h
        | some m =>
          rw [build_step_new_candidate_some hn h4 hrem] at h
          cases h
          cases he

theorem sequence_build_step_overwrite {slot : Slot} {prev_item : Option SlotInfo}
    {ncf : Bool} {nfbb : Option BlockId} {bqu : Bool} {bqb : Option BlockId}
    {md : List (BlockId × ExecutionBlockMetadata)} {in_fin : Bool}
    {info : SlotInfo} {ov : Bool} {md2 : List (BlockId × ExecutionBlockMetadata)}
    (h : SlotSequencer.sequence_build_step slot prev_item ncf nfbb bqu bqb md
      in_fin = some ((info, ov), md2)) (hov : ov = true) :
    ∀ p, prev_item = some p → p.consensus_final = false := by
  intro p hp
  subst hp
  cases hc : p.consensus_final with
  | false => rfl
  | true =>
    rw [sequence_build_step_consensus_final slot p ncf nfbb bqu bqb md in_fin
      hc] at h
    cases h
    cases hov

theorem init_walk_base {cfg : ExecutionConfig} {lcfs : List Slot}
    {lexf max_slot : Slot} {fuel : Nat} {slot : Slot}
    {nfb bqm : List (Slot × BlockId)}
    {md : List (BlockId × ExecutionBlockMetadata)} (h : ¬ slot ≤ max_slot) :
    SlotSequencer.init_walk cfg lcfs lexf max_slot fuel slot nfb bqm md =
      some ([], nfb, bqm, md) := by
  unfold SlotSequencer.init_walk
  rw [if_pos h]

theorem init_walk_cons_inv {cfg : ExecutionConfig} {lcfs : List Slot}
    {lexf max_slot : Slot} {fuel : Nat} {slot : Slot}
    {nfb bqm : List (Slot × BlockId)}
    {md : List (BlockId × ExecutionBlockMetadata)}
    {seq : List SlotInfo} {nfbr bqmr : List (Slot × BlockId)}
    {mdr : List (BlockId × ExecutionBlockMetadata)}
    (hle : slot ≤ max_slot)
    (h : SlotSequencer.init_walk cfg lcfs lexf max_slot fuel slot nfb bqm md =
      some (seq, nfbr, bqmr, mdr)) :
    ∃ fuel2 w content nfb2 bqm2 md2 seq2, fuel = fuel2 + 1 ∧
      lcfs.get? slot.thread = some w ∧
      SlotSequencer.init_walk cfg lcfs lexf max_slot fuel2
        (slot.get_next_slot cfg.thread_count) nfb2 bqm2 md2 =
        some (seq2, nfbr, bqmr, mdr) ∧
      seq = { slot := slot
              consensus_final := decide (slot ≤ w)
              execution_final := decide (slot ≤ lexf)
              content := content } :: seq2 := by
  unfold SlotSequencer.init_walk at h
  rw [if_neg (not_not_intro hle)] at h
  cases fuel with
  | zero => cases h
  | succ fuel2 =>
    cases hw : lcfs.get? slot.thread with
    | none =>
      rw [hw] at h
      cases h
    | some w =>
      rw [hw] at h
      simp only [] at h
      cases hr1 : (assocRemove slot nfb).1 with
      | some b =>
        rw [hr1] at h
        simp only [] at h
        cases hrem : assocRemove b md with
        | mk o mdx =>
          rw [hrem] at h
          cases o with
          | none =>
            simp only [] at h
            cases h
          | some m =>
            simp only [] at h
            cases hrec : SlotSequencer.init_walk cfg lcfs lexf max_slot fuel2
                (slot.get_next_slot cfg.thread_count) (assocRemove slot nfb).2
                bqm mdx with
            | none =>
              rw [hrec] at h
              cases h
            | some r =>
              rcases r with ⟨seq2, nfbr2, bqmr2, mdr2⟩
              rw [hrec] at h
              simp only [Option.some.injEq, Prod.mk.injEq] at h
              refine ⟨fuel2, w, some (b, m), (assocRemove slot nfb).2, bqm,
                mdx, seq2, rfl, rfl, ?_, ?_⟩
              · rw [hrec, h.2.1, h.2.2.1, h.2.2.2]
              · rw [← h.1]
      | none =>
        rw [hr1] at h
        simp only [] at h
        cases hp : (assocRemove slot bqm).1 with
        | none =>
          rw [hp] at h
          simp only [] at h
          cases hrec : SlotSequencer.init_walk cfg lcfs lexf max_slot fuel2
              (slot.get_next_slot cfg.thread_count) nfb
              (assocRemove slot bqm).2 md with
          | none =>
            rw [hrec] at h
            cases h
          | some r =>
            rcases r with ⟨seq2, nfbr2, bqmr2, mdr2⟩
            rw [hrec] at h
            simp only [Option.some.injEq, Prod.mk.injEq] at h
            refine ⟨fuel2, w, none, nfb, (assocRemove slot bqm).2, md, seq2,
              rfl, rfl, ?_, ?_⟩
            · rw [hrec, h.2.1, h.2.2.1, h.2.2.2]
            · rw [← h.1]
        | some b =>
          rw [hp] at h
          simp only [] at h
          cases hrem : assocRemove b md with
          | mk o mdx =>
            rw [hrem] at h
            cases o with
            | none =>
              simp only [] at h
              cases h
            | some m =>
              simp only [] at h
              cases hrec : SlotSequencer.init_walk cfg lcfs lexf max_slot fuel2
                  (slot.get_next_slot cfg.thread_count) nfb
                  (assocRemove slot bqm).2 mdx with
              | none =>
                rw [hrec] at h
                cases h
              | some r =>
                rcases r with ⟨seq2, nfbr2, bqmr2, mdr2⟩
                rw [hrec] at h
                simp only [Option.some.injEq, Prod.mk.injEq] at h
                refine ⟨fuel2, w, some (b, m), nfb, (assocRemove slot bqm).2,
                  mdx, seq2, rfl, rfl, ?_, ?_⟩
                · rw [hrec, h.2.1, h.2.2.1, h.2.2.2]
                · rw [← h.1]

theorem init_walk_spec {cfg : ExecutionConfig} {lcfs : List Slot}
    {lexf max_slot : Slot} :
    ∀ (fuel : Nat) (slot : Slot) (nfb bqm : List (Slot × BlockId))
      (md : List (BlockId × ExecutionBlockMetadata)) (seq : List SlotInfo)
      (nfbr bqmr : List (Slot × BlockId))
      (mdr : List (BlockId × ExecutionBlockMetadata)),
      SlotSequencer.init_walk cfg lcfs lexf max_slot fuel slot nfb bqm md =
        some (seq, nfbr, bqmr, mdr) →
      (seq.map (fun i => i.slot) =
        slotsFrom cfg.thread_count slot seq.length) ∧
      (∀ i ∈ seq, ∃ w, lcfs.get? i.slot.thread = some w ∧
        i.consensus_final = decide (i.slot ≤ w) ∧
        i.execution_final = decide (i.slot ≤ lexf)) ∧
      (seq = [] → nfbr = nfb) ∧
      (slot ≤ max_slot → seq ≠ []) ∧
      (∀ b, seq.getLast? = some b →
        ¬ (b.slot.get_next_slot cfg.thread_count ≤ max_slot)) ∧
      (∀ i ∈ seq, i.slot ≤ max_slot) := by
  intro fuel
  induction fuel with
  | zero =>
    intro slot nfb bqm md seq nfbr bqmr mdr h
    by_cases hle : slot ≤ max_slot
    · unfold SlotSequencer.init_walk at h
      rw [if_neg (not_not_intro hle)] at h
      cases h
    · rw [init_walk_base hle] at h
      cases h
      exact ⟨rfl, by simp, fun _ => rfl, fun hc => absurd hc hle, by simp,
        by simp⟩
  | succ fuel ih =>
    intro slot nfb bqm md seq nfbr bqmr mdr h
    by_cases hle : slot ≤ max_slot
    · obtain ⟨fuel2, w, content, nfb2, bqm2, md2, seq2, hf, hw, hrec, hseq⟩ :=
        init_walk_cons_inv hle h
      have hf2 : fuel2 = fuel := by omega
      subst hf2
      obtain ⟨ih1, ih2, ih3, ih4, ih5, ih6⟩ := ih _ _ _ _ _ _ _ _ hrec
      subst hseq
      refine ⟨?_, ?_, ?_, fun _ => by simp, ?_, ?_⟩
      · simp only [List.map_cons, List.length_cons, slotsFrom]
        rw [ih1]
      · intro i hi
        rcases List.mem_cons.1 hi with rfl | hi2
        · exact ⟨w, hw, rfl, rfl⟩
        · exact ih2 i hi2
      · intro hc
        cases hc
      · intro b hb
        cases hseq2 : seq2 with
        | nil =>
          rw [hseq2] at hb
          simp only [List.getLast?_singleton, Option.some.injEq] at hb
          subst hb
          intro hnext
          exact ih4 hnext hseq2
        | cons q t =>
          rw [hseq2] at hb
          rw [List.getLast?_cons_cons] at hb
          apply ih5 b
          rw [hseq2]
          exact hb
      · intro i hi
        rcases List.mem_cons.1 hi with rfl | hi2
        · exact hle
        · exact ih6 i hi2
    · rw [init_walk_base hle] at h
      cases h
      exact ⟨rfl, by simp, fun _ => rfl, fun hc => absurd hc hle, by simp,
        by simp⟩

theorem init_walk_last_ge {cfg : ExecutionConfig} {lcfs : List Slot}
    {lexf max_slot : Slot} {fuel : Nat} {slot : Slot}
    {nfb bqm : List (Slot × BlockId)}
    {md : List (BlockId × ExecutionBlockMetadata)}
    {seq : List SlotInfo} {nfbr bqmr : List (Slot × BlockId)}
    {mdr : List (BlockId × ExecutionBlockMetadata)}
    (h0 : 0 < cfg.thread_count) (hv : slot.Valid cfg.thread_count)
    (h : SlotSequencer.init_walk cfg lcfs lexf max_slot fuel slot nfb bqm md =
      some (seq, nfbr, bqmr, mdr)) :
    ∀ b, seq.getLast? = some b → ∀ x : Slot,
      x.Valid cfg.thread_count → x ≤ max_slot → x ≤ b.slot := by
  intro b hb x hx hxm
  obtain ⟨hmap, _, _, _, h5, _⟩ :=
    init_walk_spec fuel slot nfb bqm md seq nfbr bqmr mdr h
  have hbmem : b ∈ seq := List.mem_of_mem_getLast? (by simp [hb])
  have hbv : b.slot.Valid cfg.thread_count := by
    have hmem : b.slot ∈ seq.map (fun i => i.slot) :=
      List.mem_map_of_mem _ hbmem
    rw [hmap] at hmem
    exact (slotsFrom_mem h0 _ slot hv _ hmem).2
  have hlt : x < b.slot.get_next_slot cfg.thread_count :=
    lt_of_le_of_lt hxm (not_le.mp (h5 b hb))
  exact (Slot.lt_next_iff hbv hx).mp hlt

theorem update_walk_inv {cfg : ExecutionConfig} {lcfs : List Slot}
    {max_slot lefs : Slot} (h0 : 0 < cfg.thread_count)
    (hlefs : lefs.Valid cfg.thread_count) (hmaxls : lefs ≤ max_slot) :
    ∀ (fuel : Nat) (slot : Slot) (old_seq : List SlotInfo)
      (nfb : List (Slot × BlockId)) (bq : Option (List (Slot × BlockId)))
      (md : List (BlockId × ExecutionBlockMetadata)) (in_fin : Bool)
      (lexf lecs : Slot) (res : WalkResult),
      slot.Valid cfg.thread_count →
      (∀ i ∈ old_seq, i.execution_final = true → i.consensus_final = true) →
      (∀ i ∈ old_seq, i.slot ≤ lefs → i.execution_final = true) →
      (∀ b, old_seq.getLast? = some b → lefs ≤ b.slot) →
      (old_seq = [] → lefs < slot) →
      (in_fin = false → lefs ≤ lexf) →
      (in_fin = false → lefs < slot) →
      (in_fin = true → lefs < slot → lefs ≤ lexf) →
      SlotSequencer.update_walk cfg lcfs max_slot fuel slot old_seq nfb bq md
        in_fin lexf lecs = some res →
      (lefs ≤ res.latest_execution_final_slot ∧
       (res.latest_execution_final_slot = lexf ∨
         ∃ p ∈ res.steps, res.latest_execution_final_slot = p.1.slot) ∧
       (∀ p ∈ res.steps, p.1.execution_final = true →
         p.1.slot ≤ res.latest_execution_final_slot) ∧
       (∀ p ∈ res.steps, p.1.slot ≤ lefs → p.1.execution_final = true) ∧
       (∀ p ∈ res.steps, p.1.execution_final = true →
         p.1.consensus_final = true) ∧
       (lefs ≤ lecs → lefs ≤ res.latest_executed_candidate_slot)) := by
  intro fuel
  induction fuel with
  | zero =>
    intro slot old_seq nfb bq md in_fin lexf lecs res hv hE2 hE3 hE4 hE5 hE6
      hE10 hE7 h
    by_cases hle : slot ≤ max_slot
    · unfold SlotSequencer.update_walk at h
      rw [if_neg (not_not_intro hle)] at h
      cases h
    · rw [update_walk_base hle] at h
      cases h
      have hlt : lefs < slot := lt_of_le_of_lt hmaxls (not_le.mp hle)
      have hlex : lefs ≤ lexf := by
        cases hif : in_fin with
        | false => exact hE6 hif
        | true => exact hE7 hif hlt
      exact ⟨hlex, Or.inl rfl, by simp, by simp, by simp, fun hl => hl⟩
  | succ fuel ih =>
    intro slot old_seq nfb bq md in_fin lexf lecs res hv hE2 hE3 hE4 hE5 hE6
      hE10 hE7 h
    by_cases hle : slot ≤ max_slot
    · obtain ⟨fuel2, r, res2, hf, hbody, hrec, hres⟩ := update_walk_cons_inv hle h
      have hf2 : fuel2 = fuel := by omega
      subst hf2
      obtain ⟨w, prev_item, hw, hpop, hstep, hnfb, hbq, hfin, hlexf, hlecs⟩ :=
        update_walk_body_spec hbody
      have hslot := update_walk_body_step_slot hbody
      have hvnext : (slot.get_next_slot cfg.thread_count).Valid
          cfg.thread_count := Slot.valid_next h0
      have hstep2 : SlotSequencer.sequence_build_step slot prev_item
          (SlotSequencer.new_consensus_final_flag cfg lcfs slot w)
          (assocRemove slot nfb).1 bq.isSome
          (SlotSequencer.bq_remove slot bq).1 md in_fin =
          some ((r.step.1, r.step.2), r.md_rest) := by
        rw [hstep]
      have hprevcf : ∀ p, prev_item = some p → p.execution_final = true →
          p.consensus_final = true := by
        intro p hp hpe
        rcases pop_front_spec hpop with ⟨_, h2, _⟩ | ⟨i2, hold, hi2, hpi⟩
        · rw [h2] at hp
          cases hp
        · rw [hpi] at hp
          cases hp
          exact hE2 p (by rw [hold]; exact List.mem_cons_self _ _) hpe
      have hexec : r.step.1.execution_final = true →
          in_fin = true ∧ r.step.1.consensus_final = true :=
        sequence_build_step_exec hstep2 hprevcf
      have hforce : slot ≤ lefs → r.step.1.execution_final = in_fin ∧
          r.step.1.consensus_final = true ∧ in_fin = true := by
        intro hsl
        rcases pop_front_spec hpop with ⟨hnil, _, _⟩ | ⟨i2, hold, hi2, hpi⟩
        · exact absurd (hE5 hnil) (not_lt.mpr hsl)
        · have hmem2 : i2 ∈ old_seq := by
            rw [hold]
            exact List.mem_cons_self _ _
          have hie : i2.execution_final = true :=
            hE3 i2 hmem2 (by rw [hi2]; exact hsl)
          have hic : i2.consensus_final = true := hE2 i2 hmem2 hie
          rw [hpi] at hstep
          rw [sequence_build_step_consensus_final slot i2 _ _ _ _ _ _ hic]
            at hstep
          have h3 := Option.some.inj hstep
          have h4 : ({ i2 with execution_final := in_fin }, false) = r.step :=
            congrArg Prod.fst h3
          have hin : in_fin = true := by
            cases hif : in_fin with
            | true => rfl
            | false => exact absurd hsl (not_le.mpr (hE10 hif))
          refine ⟨?_, ?_, hin⟩
          · rw [← h4]
          · rw [← h4]
            exact hic
      have hginfo : r.step.1.execution_final = false → in_fin = true →
          lefs < slot := by
        intro hne hif
        by_cases hsl : slot ≤ lefs
        · have hx := (hforce hsl).1
          rw [hne, hif] at hx
          cases hx
        · exact not_le.mp hsl
      have hE2' : ∀ i ∈ r.old_rest, i.execution_final = true →
          i.consensus_final = true := by
        intro i hi hie
        rcases pop_front_spec hpop with ⟨_, _, hor⟩ | ⟨i2, hold, _, _⟩
        · rw [hor] at hi
          cases hi
        · exact hE2 i (by rw [hold]; exact List.mem_cons_of_mem _ hi) hie
      have hE3' : ∀ i ∈ r.old_rest, i.slot ≤ lefs →
          i.execution_final = true := by
        intro i hi his
        rcases pop_front_spec hpop with ⟨_, _, hor⟩ | ⟨i2, hold, _, _⟩
        · rw [hor] at hi
          cases hi
        · exact hE3 i (by rw [hold]; exact List.mem_cons_of_mem _ hi) his
      have hE4' : ∀ b, r.old_rest.getLast? = some b → lefs ≤ b.slot := by
        intro b hb
        rcases pop_front_spec hpop with ⟨_, _, hor⟩ | ⟨i2, hold, _, _⟩
        · rw [hor] at hb
          cases hb
        · apply hE4 b
          rw [hold]
          cases hrest : r.old_rest with
          | nil =>
            rw [hrest] at hb
            cases hb
          | cons q t =>
            rw [hrest] at hb
            rw [List.getLast?_cons_cons]
            exact hb
      have hE5' : r.old_rest = [] →
          lefs < slot.get_next_slot cfg.thread_count := by
        intro hor
        rcases pop_front_spec hpop with ⟨hnil, _, _⟩ | ⟨i2, hold, hi2, _⟩
        · exact lt_trans (hE5 hnil) (Slot.lt_next hv)
        · have h4 := hE4 i2 (by rw [hold, hor]; simp)
          rw [hi2] at h4
          exact lt_of_le_of_lt h4 (Slot.lt_next hv)
      have hE6' : r.in_execution_finality = false →
          lefs ≤ r.latest_execution_final_slot := by
        intro hif2
        rw [hlexf, hif2, if_neg (by simp)]
        rw [hfin] at hif2
        cases hif : in_fin with
        | false => exact hE6 hif
        | true =>
          have hne : r.step.1.execution_final = false := by
            rw [hif] at hif2
            simpa using hif2
          exact hE7 hif (hginfo hne hif)
      have hE10' : r.in_execution_finality = false →
          lefs < slot.get_next_slot cfg.thread_count := by
        intro hif2
        rw [hfin] at hif2
        cases hif : in_fin with
        | false => exact lt_trans (hE10 hif) (Slot.lt_next hv)
        | true =>
          have hne : r.step.1.execution_final = false := by
            rw [hif] at hif2
            simpa using hif2
          exact lt_trans (hginfo hne hif) (Slot.lt_next hv)
      have hE7' : r.in_execution_finality = true →
          lefs < slot.get_next_slot cfg.thread_count →
          lefs ≤ r.latest_execution_final_slot := by
        intro hif2 hlt2
        rw [hlexf, if_pos hif2]
        exact (Slot.lt_next_iff hv hlefs).mp hlt2
      obtain ⟨o2, o6, o3, o4, o5, o7⟩ := ih (slot.get_next_slot
          cfg.thread_count) r.old_rest r.nfb_rest r.bq_rest r.md_rest
        r.in_execution_finality r.latest_execution_final_slot
        r.latest_executed_candidate_slot res2 hvnext hE2' hE3' hE4' hE5' hE6'
        hE10' hE7' hrec
      have hresL : res.latest_execution_final_slot =
          res2.latest_execution_final_slot := by rw [hres]
      have hresC : res.latest_executed_candidate_slot =
          res2.latest_executed_candidate_slot := by rw [hres]
      have hresS : res.steps = r.step :: res2.steps := by rw [hres]
      refine ⟨?_, ?_, ?_, ?_, ?_, ?_⟩
      · rw [hresL]
        exact o2
      · rcases o6 with ho | ⟨p, hp, hpe⟩
        · by_cases hif2 : r.in_execution_finality = true
          · right
            refine ⟨r.step, by rw [hresS]; exact List.mem_cons_self _ _, ?_⟩
            rw [hresL, ho, hlexf, if_pos hif2, hslot]
          · left
            rw [hresL, ho, hlexf, if_neg hif2]
        · right
          refine ⟨p, by rw [hresS]; exact List.mem_cons_of_mem _ hp, ?_⟩
          rw [hresL]
          exact hpe
      · intro p hp hpe
        rw [hresS] at hp
        rcases List.mem_cons.1 hp with rfl | hp2
        · have hif2 : r.in_execution_finality = true := by
            rw [hfin, hpe, (hexec hpe).1]
            rfl
          rw [hresL]
          rcases o6 with ho | ⟨q, hq, hqe⟩
          · rw [ho, hlexf, if_pos hif2, hslot]
          · have hqmem := update_walk_steps_mem h0 hvnext hrec q hq
            rw [hqe, hslot]
            exact le_of_lt (lt_of_lt_of_le (Slot.lt_next hv) hqmem.1)
        · rw [hresL]
          exact o3 p hp2 hpe
      · intro p hp hps
        rw [hresS] at hp
        rcases List.mem_cons.1 hp with rfl | hp2
        · rw [hslot] at hps
          rw [(hforce hps).1]
          exact (hforce hps).2.2
        · exact o4 p hp2 hps
      · intro p hp hpe
        rw [hresS] at hp
        rcases List.mem_cons.1 hp with rfl | hp2
        · exact (hexec hpe).2
        · exact o5 p hp2 hpe
      · intro hll
        rw [hresC]
        apply o7
        by_cases htrig : r.step.2 = true ∧ slot ≤ lecs
        · rw [if_pos htrig] at hlecs
          have hgt : lefs < slot := by
            by_cases hsl : slot ≤ lefs
            · exfalso
              rcases pop_front_spec hpop with ⟨hnil, _, _⟩ |
                  ⟨i2, hold, hi2, hpi⟩
              · exact absurd (hE5 hnil) (not_lt.mpr hsl)
              · have hmem2 : i2 ∈ old_seq := by
                  rw [hold]
                  exact List.mem_cons_self _ _
                have hie : i2.execution_final = true :=
                  hE3 i2 hmem2 (by rw [hi2]; exact hsl)
                have hic : i2.consensus_final = true := hE2 i2 hmem2 hie
                have hnc := sequence_build_step_overwrite hstep2 htrig.1 i2 hpi
                rw [hic] at hnc
                cases hnc
            · exact not_le.mp hsl
          obtain ⟨hpv, hpidx⟩ := Slot.get_prev_spec h0 hv hlecs
          rw [Slot.le_iff_index_le hlefs hpv]
          have hidx2 := (Slot.lt_iff_index_lt hlefs hv).mp hgt
          omega
        · rw [if_neg htrig] at hlecs
          rw [hlecs]
          exact hll
    · rw [update_walk_base hle] at h
      cases h
      have hlt : lefs < slot := lt_of_le_of_lt hmaxls (not_le.mp hle)
      have hlex : lefs ≤ lexf := by
        cases hif : in_fin with
        | false => exact hE6 hif
        | true => exact hE7 hif hlt
      exact ⟨hlex, Or.inl rfl, by simp, by simp, by simp, fun hl => hl⟩

theorem init_inv {st : SlotSequencer} {time_cursor : Slot}
    {nfb bqm : List (Slot × BlockId)}
    {md : List (BlockId × ExecutionBlockMetadata)} {st2 : SlotSequencer}
    (h : st.init time_cursor nfb bqm md = some st2) :
    ∃ lcfs2 start max_lcfs max_slot seq mdr,
      SlotSequencer.update_latest_consensus_final_slots
        st.latest_consensus_final_slots nfb = some lcfs2 ∧
      slotListMin (nfb.map Prod.fst) = some start ∧
      slotListMax lcfs2 = some max_lcfs ∧
      max_slot = max (max max_lcfs
        ((slotListMax (bqm.map Prod.fst)).getD
          ⟨st.config.last_start_period, 0⟩)) time_cursor ∧
      SlotSequencer.init_walk st.config lcfs2 st.latest_execution_final_slot
        max_slot (SlotSequencer.walkFuel st.config max_slot) start nfb bqm md =
        some (seq, [], [], mdr) ∧
      SlotSequencer.cleanup_sequence { st with
        sequence := seq
        latest_consensus_final_slots := lcfs2 } = some st2 := by
  unfold SlotSequencer.init at h
  cases hlcfs : SlotSequencer.update_latest_consensus_final_slots
      st.latest_consensus_final_slots nfb with
  | none =>
    rw [hlcfs] at h
    cases h
  | some lcfs2 =>
    rw [hlcfs] at h
    simp only [] at h
    cases hmin : slotListMin (nfb.map Prod.fst) with
    | none =>
      rw [hmin] at h
      cases h
    | some start =>
      rw [hmin] at h
      simp only [] at h
      cases hmax : slotListMax lcfs2 with
      | none =>
        rw [hmax] at h
        cases h
      | some max_lcfs =>
        rw [hmax] at h
        simp only [] at h
        cases hwalk : SlotSequencer.init_walk st.config lcfs2
            st.latest_execution_final_slot
            (max (max max_lcfs ((slotListMax (bqm.map Prod.fst)).getD
              ⟨st.config.last_start_period, 0⟩)) time_cursor)
            (SlotSequencer.walkFuel st.config
              (max (max max_lcfs ((slotListMax (bqm.map Prod.fst)).getD
                ⟨st.config.last_start_period, 0⟩)) time_cursor))
            start nfb bqm md with
        | none =>
          rw [hwalk] at h
          cases h
        | some r =>
          rcases r with ⟨seq, nfbr, bqmr, mdr⟩
          rw [hwalk] at h
          simp only [] at h
          by_cases hnfbr : nfbr ≠ []
          · rw [if_pos hnfbr] at h
            cases h
          · rw [if_neg hnfbr] at h
            by_cases hbqmr : bqmr ≠ []
            · rw [if_pos hbqmr] at h
              cases h
            · rw [if_neg hbqmr] at h
              push_neg at hnfbr hbqmr
              subst hnfbr
              subst hbqmr
              exact ⟨lcfs2, start, max_lcfs, _, seq, mdr, rfl, rfl, hmax, rfl,
                hwalk, h⟩

theorem new_inv {cfg : ExecutionConfig} {fc : Slot}
    (hv : fc.Valid cfg.thread_count) : C3Inv cfg (SlotSequencer.new cfg fc) :=
  { config_eq := rfl
    lcfs_len := by simp [SlotSequencer.new]
    lcfs_thread := by
      intro t h
      simp [SlotSequencer.new, List.get_eq_getElem]
    lefs_valid := hv
    lecs_valid := hv
    lexf_valid := hv
    lefs_le_lexf := le_refl _
    lefs_le_lecs := le_refl _
    seq_exec_cf := by
      intro i hi
      simp [SlotSequencer.new] at hi
    seq_before_lefs := by
      intro i hi
      simp [SlotSequencer.new] at hi
    seq_exec_le := by
      intro i hi
      simp [SlotSequencer.new] at hi
    seq_contig := trivial
    seq_valid := by
      intro i hi
      simp [SlotSequencer.new] at hi
    seq_last := by
      intro b hb
      simp [SlotSequencer.new] at hb
    pre_init := fun _ => ⟨rfl, rfl⟩ }

theorem init_inv_preserved {cfg : ExecutionConfig} {st : SlotSequencer}
    {time_cursor : Slot} {nfb bqm : List (Slot × BlockId)}
    {md : List (BlockId × ExecutionBlockMetadata)} {st2 : SlotSequencer}
    (hinv : C3Inv cfg st) (hseq0 : st.sequence = [])
    (hboot : ∀ p ∈ nfb, st.latest_executed_final_slot ≤ p.1)
    (h : st.init time_cursor nfb bqm md = some st2) : C3Inv cfg st2 := by
  obtain ⟨lcfs2, start, max_lcfs, max_slot, seq, mdr, hlcfs, hmin, hmax, hms,
    hwalk, hclean⟩ := init_inv h
  have h0 : 0 < cfg.thread_count := hinv.tc_pos
  have hcfg : st.config = cfg := hinv.config_eq
  rw [hcfg] at hwalk
  obtain ⟨hlen2, hth2, hmono2, hall2⟩ :=
    update_lcfs_spec nfb st.latest_consensus_final_slots lcfs2
      hinv.lcfs_thread hlcfs
  have hlen2' : lcfs2.length = cfg.thread_count := hlen2.trans hinv.lcfs_len
  have hval2 : ∀ s ∈ lcfs2, s.Valid cfg.thread_count := by
    intro s hs
    obtain ⟨⟨k, hklt⟩, hks⟩ := List.mem_iff_get.mp hs
    have := hth2 k hklt
    rw [hks] at this
    unfold Slot.Valid
    rw [this]
    rw [hlen2'] at hklt
    exact hklt
  obtain ⟨hpe1, hpe2⟩ := hinv.pre_init hseq0
  have hstartmem := slotListMin_mem hmin
  obtain ⟨pb, hpb, hpbe⟩ := List.mem_map.mp hstartmem
  have hlefs_start : st.latest_executed_final_slot ≤ start :=
    hpbe ▸ hboot pb hpb
  obtain ⟨hmap, hflags, hempty, hne, hlast, hinmax⟩ :=
    init_walk_spec (SlotSequencer.walkFuel cfg max_slot) start nfb bqm md seq
      [] [] mdr hwalk
  have hseqne : seq ≠ [] := by
    intro hz
    have hz2 := (hempty hz).symm
    rw [hz2] at hmin
    simp [slotListMin] at hmin
  have hstartv : start.Valid cfg.thread_count := by
    cases hseqq : seq with
    | nil => exact absurd hseqq hseqne
    | cons f rest =>
      have hfmem : f ∈ seq := by
        rw [hseqq]
        exact List.mem_cons_self _ _
      obtain ⟨w, hw, _, _⟩ := hflags f hfmem
      have hfslot : f.slot = start := by
        rw [hseqq] at hmap
        have h2 : f.slot :: rest.map (fun i => i.slot) =
            start :: slotsFrom cfg.thread_count
              (start.get_next_slot cfg.thread_count) rest.length := hmap
        exact ((List.cons.injEq _ _ _ _).mp h2).1
      obtain ⟨hb, _⟩ := List.get?_eq_some.mp hw
      rw [hfslot, hlen2'] at hb
      exact hb
  have hstartle : start ≤ max_slot := by
    by_contra hc
    rw [init_walk_base hc] at hwalk
    have := (Option.some.inj hwalk)
    have hz : seq = [] := by
      have := congrArg Prod.fst this
      simp at this
      rw [this]
    exact hseqne hz
  have hmemv : ∀ i ∈ seq, start ≤ i.slot ∧ i.slot.Valid cfg.thread_count := by
    intro i hi
    have hm2 : i.slot ∈ seq.map (fun j => j.slot) := List.mem_map_of_mem _ hi
    rw [hmap] at hm2
    exact slotsFrom_mem h0 _ start hstartv _ hm2
  have hstart_cf : ∀ w, lcfs2.get? start.thread = some w → start ≤ w := by
    intro w hw
    obtain ⟨h2, hle2⟩ := hall2 pb hpb
    obtain ⟨hb, hwe⟩ := List.get?_eq_some.mp hw
    have hth_eq : pb.1.thread = start.thread := by rw [hpbe]
    have hfin : (⟨pb.1.thread, h2⟩ : Fin lcfs2.length) = ⟨start.thread, hb⟩ :=
      Fin.ext hth_eq
    have hsame : lcfs2.get ⟨start.thread, hb⟩ = w := hwe
    have hle3 : pb.1 ≤ w := by
      calc pb.1 ≤ lcfs2.get ⟨pb.1.thread, h2⟩ := hle2
        _ = lcfs2.get ⟨start.thread, hb⟩ := congrArg lcfs2.get hfin
        _ = w := hsame
    rw [← hpbe]
    exact hle3
  obtain ⟨m, hm, hst2⟩ := cleanup_sequence_spec hclean
  subst hst2
  have hsuffix : (seq.dropWhile fun s => decide (s.slot <
      min (min m st.latest_execution_final_slot)
        (min st.latest_executed_final_slot
          st.latest_executed_candidate_slot))) <:+ seq :=
    List.dropWhile_suffix _
  refine ⟨hcfg ▸ rfl, ?_, ?_, ?_, ?_, ?_, ?_, ?_, ?_, ?_, ?_, ?_, ?_, ?_, ?_⟩
  · exact hlen2'
  · exact hth2
  · exact hinv.lefs_valid
  · exact hinv.lecs_valid
  · exact hinv.lexf_valid
  · exact hinv.lefs_le_lexf
  · exact hinv.lefs_le_lecs
  · intro i hi hie
    have hi2 : i ∈ seq := hsuffix.subset hi
    obtain ⟨w, hw, hcf, hex⟩ := hflags i hi2
    rw [hex] at hie
    have hile : i.slot ≤ st.latest_execution_final_slot := by
      simpa using hie
    have hieq : i.slot = start := by
      have h1 : st.latest_executed_final_slot ≤ start := hlefs_start
      have h2 : start ≤ i.slot := (hmemv i hi2).1
      have h3 : i.slot ≤ st.latest_executed_final_slot := by
        rw [← hpe1]
        exact hile
      exact le_antisymm (le_trans h3 h1) h2
    rw [hcf]
    simp only [decide_eq_true_eq]
    rw [hieq]
    exact hstart_cf w (by rw [← hieq]; exact hw)
  · intro i hi his
    have hi2 : i ∈ seq := hsuffix.subset hi
    obtain ⟨w, hw, hcf, hex⟩ := hflags i hi2
    rw [hex]
    simp only [decide_eq_true_eq]
    rw [hpe1]
    exact his
  · intro i hi hie
    have hi2 : i ∈ seq := hsuffix.subset hi
    obtain ⟨w, hw, hcf, hex⟩ := hflags i hi2
    rw [hex] at hie
    simpa using hie
  · exact contig_suffix hsuffix (contig_of_map hmap)
  · intro i hi
    exact (hmemv i (hsuffix.subset hi)).2
  · intro b hb
    have hne2 : (seq.dropWhile fun s => decide (s.slot <
        min (min m st.latest_execution_final_slot)
          (min st.latest_executed_final_slot
            st.latest_executed_candidate_slot))) ≠ [] := by
      intro hx
      rw [hx] at hb
      cases hb
    have hlastb : seq.getLast? = some b := by
      rw [getLast?_of_suffix hsuffix hne2]
      exact hb
    have hbmem : b ∈ seq := List.mem_of_mem_getLast? (by simp [hlastb])
    constructor
    · calc st.latest_execution_final_slot = st.latest_executed_final_slot :=
            hpe1
        _ ≤ start := hlefs_start
        _ ≤ b.slot := (hmemv b hbmem).1
    · intro s hs
      have hsv := hval2 s hs
      have hsle : s ≤ max_slot := by
        calc s ≤ max_lcfs := slotListMax_ge hmax hs
          _ ≤ max_slot := by
            rw [hms]
            exact le_trans (le_max_left _ _) (le_max_left _ _)
      exact init_walk_last_ge h0 hstartv hwalk b hlastb s hsv hsle
  · intro _
    exact ⟨hpe1, hpe2⟩

theorem lcfs_valid_of_thread {tc : Nat} {l : List Slot} (hlen : l.length = tc)
    (hth : ∀ (t : Nat) (h : t < l.length), (l.get ⟨t, h⟩).thread = t) :
    ∀ s ∈ l, s.Valid tc := by
  intro s hs
  obtain ⟨⟨k, hklt⟩, hks⟩ := List.mem_iff_get.mp hs
  have := hth k hklt
  rw [hks] at this
  unfold Slot.Valid
  rw [this]
  rw [hlen] at hklt
  exact hklt

theorem update_inv_preserved {cfg : ExecutionConfig} {st : SlotSequencer}
    {time_cursor : Slot} {nfb : List (Slot × BlockId)}
    {bq : Option (List (Slot × BlockId))}
    {md : List (BlockId × ExecutionBlockMetadata)} {st2 : SlotSequencer}
    (hinv : C3Inv cfg st)
    (hboot : st.sequence = [] →
      ∀ p ∈ nfb, st.latest_executed_final_slot ≤ p.1)
    (hupd : st.update time_cursor nfb bq md = some st2) : C3Inv cfg st2 := by
  cases hseq : st.sequence with
  | nil =>
    unfold SlotSequencer.update at hupd
    rw [hseq] at hupd
    simp only [] at hupd
    by_cases hn : nfb = []
    · rw [if_pos hn] at hupd
      cases hupd
      exact hinv
    · rw [if_neg hn] at hupd
      exact init_inv_preserved hinv hseq (hboot hseq) hupd
  | cons front seq_rest =>
    obtain ⟨lcfs2, max_lcfs, max_slot, n, res, hlcfs, hmax, hms, hsince, hwalk,
      hold, hnfbr, hbqr, hclean⟩ := update_inv hseq hupd
    have h0 : 0 < cfg.thread_count := hinv.tc_pos
    have hcfg : st.config = cfg := hinv.config_eq
    rw [hcfg] at hwalk
    obtain ⟨hlen2, hth2, hmono2, hall2⟩ :=
      update_lcfs_spec nfb st.latest_consensus_final_slots lcfs2
        hinv.lcfs_thread hlcfs
    have hlen2' : lcfs2.length = cfg.thread_count := hlen2.trans hinv.lcfs_len
    have hval2 : ∀ s ∈ lcfs2, s.Valid cfg.thread_count :=
      lcfs_valid_of_thread hlen2' hth2
    have hfmem : front ∈ st.sequence := by
      rw [hseq]
      exact List.mem_cons_self _ _
    have hfv : front.slot.Valid cfg.thread_count := hinv.seq_valid front hfmem
    have hbk : (front :: seq_rest).getLast? =
        some ((front :: seq_rest).getLast (List.cons_ne_nil front seq_rest)) :=
      List.getLast?_eq_getLast _ _
    have hbk_slot : st.latest_execution_final_slot ≤
        ((front :: seq_rest).getLast (List.cons_ne_nil front seq_rest)).slot ∧
        ∀ s ∈ st.latest_consensus_final_slots, s ≤
          ((front :: seq_rest).getLast
            (List.cons_ne_nil front seq_rest)).slot := by
      apply hinv.seq_last
      rw [hseq]
      exact hbk
    have hback_max : ((front :: seq_rest).getLast
        (List.cons_ne_nil front seq_rest)).slot ≤ max_slot := by
      rw [hms]
      exact le_max_right _ _
    have hlefs_max : st.latest_executed_final_slot ≤ max_slot :=
      le_trans (le_trans hinv.lefs_le_lexf hbk_slot.1) hback_max
    have hE2' : ∀ i ∈ front :: seq_rest, i.execution_final = true →
        i.consensus_final = true := by
      intro i hi
      apply hinv.seq_exec_cf
      rw [hseq]
      exact hi
    have hE3' : ∀ i ∈ front :: seq_rest,
        i.slot ≤ st.latest_executed_final_slot → i.execution_final = true := by
      intro i hi
      apply hinv.seq_before_lefs
      rw [hseq]
      exact hi
    have hE4' : ∀ b, (front :: seq_rest).getLast? = some b →
        st.latest_executed_final_slot ≤ b.slot := by
      intro b hb
      rw [hbk] at hb
      have hbe := Option.some.inj hb
      rw [← hbe]
      exact le_trans hinv.lefs_le_lexf hbk_slot.1
    obtain ⟨o2, o6, o3, o4, o5, o7⟩ := update_walk_inv h0 hinv.lefs_valid
      hlefs_max (SlotSequencer.walkFuel cfg max_slot) front.slot
      (front :: seq_rest) nfb bq md true st.latest_execution_final_slot
      st.latest_executed_candidate_slot res hfv hE2' hE3' hE4'
      (fun hx => absurd hx (List.cons_ne_nil _ _))
      (fun hx => by cases hx) (fun hx => by cases hx)
      (fun _ _ => hinv.lefs_le_lexf) hwalk
    have hcontig_old : Contig cfg.thread_count (front :: seq_rest) := by
      have := hinv.seq_contig
      rw [hseq] at this
      exact this
    have hfront_back : front.slot ≤ ((front :: seq_rest).getLast
        (List.cons_ne_nil front seq_rest)).slot := by
      have hbmem : (front :: seq_rest).getLast
          (List.cons_ne_nil front seq_rest) ∈ front :: seq_rest :=
        List.getLast_mem _
      have hm2 : ((front :: seq_rest).getLast
          (List.cons_ne_nil front seq_rest)).slot ∈
          (front :: seq_rest).map (fun i => i.slot) :=
        List.mem_map_of_mem _ hbmem
      rw [hcontig_old] at hm2
      exact (slotsFrom_mem h0 _ front.slot hfv _ hm2).1
    have hfle : front.slot ≤ max_slot := le_trans hfront_back hback_max
    obtain ⟨hwl1, hwl2, hwl3, hwl4⟩ := update_walk_last
      (SlotSequencer.walkFuel cfg max_slot) front.slot (front :: seq_rest)
      nfb bq md true st.latest_execution_final_slot
      st.latest_executed_candidate_slot res hwalk
    have hsteps_ne : res.steps ≠ [] := hwl2 hfle
    have hmap : res.steps.map (fun p => p.1.slot) =
        slotsFrom cfg.thread_count front.slot res.steps.length :=
      update_walk_steps_slots (SlotSequencer.walkFuel cfg max_slot) front.slot
        (front :: seq_rest) nfb bq md true st.latest_execution_final_slot
        st.latest_executed_candidate_slot res hwalk
    have hmap' : (res.steps.map Prod.fst).map (fun i => i.slot) =
        slotsFrom cfg.thread_count front.slot
          (res.steps.map Prod.fst).length := by
      rw [List.map_map, List.length_map]
      exact hmap
    have hcontig' : Contig cfg.thread_count (res.steps.map Prod.fst) :=
      contig_of_map hmap'
    have hvseq' : ∀ i ∈ res.steps.map Prod.fst,
        i.slot.Valid cfg.thread_count := by
      intro i hi
      obtain ⟨p, hp, hpe⟩ := List.mem_map.mp hi
      rw [← hpe]
      exact (update_walk_steps_mem h0 hfv hwalk p hp).2
    obtain ⟨bS, hbS⟩ := getLast?_isSome_of_ne_nil hsteps_ne
    have hlastge := update_walk_last_ge h0 hfv hwalk bS hbS
    have hbSmem : bS ∈ res.steps := List.mem_of_mem_getLast? (by simp [hbS])
    have hlexf_le_last : res.latest_execution_final_slot ≤ bS.1.slot := by
      rcases o6 with ho | ⟨p, hp, hpe⟩
      · rw [ho]
        exact hlastge st.latest_execution_final_slot hinv.lexf_valid
          (le_trans hbk_slot.1 hback_max)
      · rw [hpe]
        exact hlastge p.1.slot (update_walk_steps_mem h0 hfv hwalk p hp).2
          (hwl3 p hp)
    have hlexf'_valid : res.latest_execution_final_slot.Valid
        cfg.thread_count := by
      rcases o6 with ho | ⟨p, hp, hpe⟩
      · rw [ho]
        exact hinv.lexf_valid
      · rw [hpe]
        exact (update_walk_steps_mem h0 hfv hwalk p hp).2
    have hlecs'_valid : res.latest_executed_candidate_slot.Valid
        cfg.thread_count := by
      rcases update_walk_rollback h0 (SlotSequencer.walkFuel cfg max_slot)
          front.slot (front :: seq_rest) nfb bq md true
          st.latest_execution_final_slot st.latest_executed_candidate_slot res
          hfv hwalk with ⟨heq, _⟩ | ⟨pre, p0, post, hsteps, _, _, _, _, hprev⟩
      · rw [heq]
        exact hinv.lecs_valid
      · have hp0mem : p0 ∈ res.steps := by
          rw [hsteps]
          simp
        have hp0v := (update_walk_steps_mem h0 hfv hwalk p0 hp0mem).2
        exact (Slot.get_prev_spec h0 hp0v hprev).1
    obtain ⟨m, hm, hst2⟩ := cleanup_sequence_spec hclean
    subst hst2
    have hsuffix : ((res.steps.map Prod.fst).dropWhile fun s =>
        decide (s.slot < min (min m res.latest_execution_final_slot)
          (min st.latest_executed_final_slot
            res.latest_executed_candidate_slot))) <:+
        res.steps.map Prod.fst := List.dropWhile_suffix _
    have hmem_of : ∀ i, i ∈ ((res.steps.map Prod.fst).dropWhile fun s =>
        decide (s.slot < min (min m res.latest_execution_final_slot)
          (min st.latest_executed_final_slot
            res.latest_executed_candidate_slot))) →
        ∃ p ∈ res.steps, p.1 = i := by
      intro i hi
      exact List.mem_map.mp (hsuffix.subset hi)
    have hmin_le : min (min m res.latest_execution_final_slot)
        (min st.latest_executed_final_slot
          res.latest_executed_candidate_slot) ≤ bS.1.slot := by
      have h1 : min (min m res.latest_execution_final_slot)
          (min st.latest_executed_final_slot
            res.latest_executed_candidate_slot) ≤
          st.latest_executed_final_slot :=
        le_trans (min_le_right _ _) (min_le_left _ _)
      exact le_trans h1 (le_trans o2 hlexf_le_last)
    have hlast_keep : ((res.steps.map Prod.fst).dropWhile fun s =>
        decide (s.slot < min (min m res.latest_execution_final_slot)
          (min st.latest_executed_final_slot
            res.latest_executed_candidate_slot))) ≠ [] := by
      intro hz
      have hall := List.dropWhile_eq_nil_iff.mp hz
      have hbS1 : bS.1 ∈ res.steps.map Prod.fst :=
        List.mem_map_of_mem _ hbSmem
      have := hall bS.1 hbS1
      simp only [decide_eq_true_eq] at this
      exact absurd this (not_lt.mpr hmin_le)
    refine ⟨hcfg ▸ rfl, hlen2', hth2, hinv.lefs_valid, hlecs'_valid,
      hlexf'_valid, o2, o7 hinv.lefs_le_lecs, ?_, ?_, ?_, ?_, ?_, ?_, ?_⟩
    · intro i hi hie
      obtain ⟨p, hp, hpe⟩ := hmem_of i hi
      rw [← hpe]
      exact o5 p hp (by rw [hpe]; exact hie)
    · intro i hi his
      obtain ⟨p, hp, hpe⟩ := hmem_of i hi
      rw [← hpe]
      exact o4 p hp (by rw [hpe]; exact his)
    · intro i hi hie
      obtain ⟨p, hp, hpe⟩ := hmem_of i hi
      rw [← hpe]
      exact o3 p hp (by rw [hpe]; exact hie)
    · exact contig_suffix hsuffix hcontig'
    · intro i hi
      exact hvseq' i (hsuffix.subset hi)
    · intro b hb
      have hlastb : (res.steps.map Prod.fst).getLast? = some b := by
        rw [getLast?_of_suffix hsuffix hlast_keep]
        exact hb
      have hbeq : b = bS.1 := by
        rw [List.getLast?_map] at hlastb
        rw [hbS] at hlastb
        exact (Option.some.inj hlastb).symm
      subst hbeq
      refine ⟨hlexf_le_last, ?_⟩
      intro s hs
      have hsv := hval2 s hs
      have hsle : s ≤ max_slot := by
        calc s ≤ max_lcfs := slotListMax_ge hmax hs
          _ ≤ max_slot := by
            rw [hms]
            exact le_trans (le_max_left _ _) (le_max_left _ _)
      exact hlastge s hsv hsle
    · intro hz
      exact absurd hz hlast_keep

theorem run_task_inv {st : SlotSequencer} {time_cursor : Slot}
    {d : Option SlotSequencer.Dispatch} {st2 : SlotSequencer}
    (hrun : st.run_task_with time_cursor = some (d, st2)) :
    (st.sequence = [] ∧ st2 = st) ∨
    (st.sequence ≠ [] ∧
      ((∃ s_info, st.get_slot (st.latest_executed_final_slot.get_next_slot
          st.config.thread_count) = some s_info ∧
        s_info.execution_final = true ∧
        SlotSequencer.cleanup_sequence { st with
          latest_executed_final_slot :=
            st.latest_executed_final_slot.get_next_slot st.config.thread_count
          latest_executed_candidate_slot :=
            max st.latest_executed_candidate_slot
              (st.latest_executed_final_slot.get_next_slot
                st.config.thread_count) } = some st2) ∨
      st2 = { st with
        latest_executed_candidate_slot :=
          st.latest_executed_candidate_slot.get_next_slot
            st.config.thread_count } ∨
      st2 = st)) := by
  unfold SlotSequencer.run_task_with at hrun
  by_cases hseq : st.sequence = []
  · rw [if_pos hseq] at hrun
    exact Or.inl ⟨hseq, (congrArg Prod.snd (Option.some.inj hrun)).symm⟩
  · rw [if_neg hseq] at hrun
    simp only [] at hrun
    cases hslot : st.get_slot
        (st.latest_executed_final_slot.get_next_slot st.config.thread_count) with
    | some s_info =>
      rw [hslot] at hrun
      simp only [] at hrun
      by_cases hex : s_info.execution_final = true
      · rw [if_pos hex] at hrun
        simp only [] at hrun
        cases hcl : SlotSequencer.cleanup_sequence { st with
            latest_executed_final_slot :=
              st.latest_executed_final_slot.get_next_slot st.config.thread_count
            latest_executed_candidate_slot :=
              max st.latest_executed_candidate_slot
                (st.latest_executed_final_slot.get_next_slot
                  st.config.thread_count) } with
        | none =>
          rw [hcl] at hrun
          cases hrun
        | some cleaned =>
          rw [hcl] at hrun
          simp only [] at hrun
          have h2 : cleaned = st2 := congrArg Prod.snd (Option.some.inj hrun)
          refine Or.inr ⟨hseq, Or.inl ⟨s_info, rfl, hex, ?_⟩⟩
          rw [h2]
      · rw [if_neg hex] at hrun
        simp only [] at hrun
        by_cases hc : (st.latest_executed_candidate_slot.get_next_slot
            st.config.thread_count) ≤ time_cursor
        · rw [if_pos hc] at hrun
          exact Or.inr ⟨hseq, Or.inr (Or.inl
            (congrArg Prod.snd (Option.some.inj hrun)).symm)⟩
        · rw [if_neg hc] at hrun
          exact Or.inr ⟨hseq, Or.inr (Or.inr
            (congrArg Prod.snd (Option.some.inj hrun)).symm)⟩
    | none =>
      rw [hslot] at hrun
      simp only [] at hrun
      by_cases hc : (st.latest_executed_candidate_slot.get_next_slot
          st.config.thread_count) ≤ time_cursor
      · rw [if_pos hc] at hrun
        exact Or.inr ⟨hseq, Or.inr (Or.inl
          (congrArg Prod.snd (Option.some.inj hrun)).symm)⟩
      · rw [if_neg hc] at hrun
        exact Or.inr ⟨hseq, Or.inr (Or.inr
          (congrArg Prod.snd (Option.some.inj hrun)).symm)⟩

theorem run_inv_preserved {cfg : ExecutionConfig} {st : SlotSequencer}
    {time_cursor : Slot} {d : Option SlotSequencer.Dispatch}
    {st2 : SlotSequencer} (hinv : C3Inv cfg st)
    (hrun : st.run_task_with time_cursor = some (d, st2)) : C3Inv cfg st2 := by
  have h0 : 0 < cfg.thread_count := hinv.tc_pos
  have hcfg : st.config = cfg := hinv.config_eq
  have h0' : 0 < st.config.thread_count := by rw [hcfg]; exact h0
  have hcontig : Contig st.config.thread_count st.sequence := by
    rw [hcfg]
    exact hinv.seq_contig
  have hvseq : ∀ j ∈ st.sequence, j.slot.Valid st.config.thread_count := by
    rw [hcfg]
    exact hinv.seq_valid
  rcases run_task_inv hrun with ⟨hseq, hst⟩ |
    ⟨hseq, ⟨s_info, hslot, hex, hcl⟩ | hst | hst⟩
  · rw [hst]
    exact hinv
  · -- High-priority final dispatch followed by cleanup.
    have hnfv : (st.latest_executed_final_slot.get_next_slot
        st.config.thread_count).Valid st.config.thread_count :=
      Slot.valid_next h0'
    obtain ⟨hsmem, hss⟩ := get_slot_spec h0' hcontig hvseq hnfv hslot
    have hnf_le_lexf : st.latest_executed_final_slot.get_next_slot
        st.config.thread_count ≤ st.latest_execution_final_slot := by
      rw [← hss]
      exact hinv.seq_exec_le s_info hsmem hex
    have hbefore : ∀ i ∈ st.sequence,
        i.slot ≤ st.latest_executed_final_slot.get_next_slot
          st.config.thread_count → i.execution_final = true := by
      intro i hi his
      by_cases hc : i.slot ≤ st.latest_executed_final_slot
      · exact hinv.seq_before_lefs i hi hc
      · have hlt : st.latest_executed_final_slot < i.slot := not_le.mp hc
        have hge : st.latest_executed_final_slot.get_next_slot
            st.config.thread_count ≤ i.slot := by
          have hlv : st.latest_executed_final_slot.Valid
              st.config.thread_count := by
            rw [hcfg]
            exact hinv.lefs_valid
          exact (Slot.next_le_iff hlv (hvseq i hi)).mpr hlt
        have hieq : i.slot = st.latest_executed_final_slot.get_next_slot
            st.config.thread_count := le_antisymm his hge
        have hgi := get_slot_eq_of_mem h0' hcontig hvseq hi
        rw [hieq] at hgi
        have : i = s_info := Option.some.inj (hgi.symm.trans hslot)
        rw [this]
        exact hex
    obtain ⟨m, hm, hst2⟩ := cleanup_sequence_spec hcl
    subst hst2
    obtain ⟨bk, hbk⟩ := getLast?_isSome_of_ne_nil hseq
    obtain ⟨hbk1, hbk2⟩ := hinv.seq_last bk hbk
    have hbkmem : bk ∈ st.sequence := List.mem_of_mem_getLast? (by simp [hbk])
    have hsuffix : (st.sequence.dropWhile fun s => decide (s.slot <
        min (min m st.latest_execution_final_slot)
          (min (st.latest_executed_final_slot.get_next_slot
            st.config.thread_count)
            (max st.latest_executed_candidate_slot
              (st.latest_executed_final_slot.get_next_slot
                st.config.thread_count))))) <:+ st.sequence :=
      List.dropWhile_suffix _
    have hmin_le : min (min m st.latest_execution_final_slot)
        (min (st.latest_executed_final_slot.get_next_slot
          st.config.thread_count)
          (max st.latest_executed_candidate_slot
            (st.latest_executed_final_slot.get_next_slot
              st.config.thread_count))) ≤ bk.slot :=
      le_trans (le_trans (min_le_left _ _) (min_le_right _ _)) hbk1
    have hkeep : (st.sequence.dropWhile fun s => decide (s.slot <
        min (min m st.latest_execution_final_slot)
          (min (st.latest_executed_final_slot.get_next_slot
            st.config.thread_count)
            (max st.latest_executed_candidate_slot
              (st.latest_executed_final_slot.get_next_slot
                st.config.thread_count))))) ≠ [] := by
      intro hz
      have hall := List.dropWhile_eq_nil_iff.mp hz
      have := hall bk hbkmem
      simp only [decide_eq_true_eq] at this
      exact absurd this (not_lt.mpr hmin_le)
    refine ⟨hcfg ▸ rfl, hinv.lcfs_len, hinv.lcfs_thread, ?_, ?_,
      hinv.lexf_valid, ?_, le_max_right _ _, ?_, ?_, ?_, ?_, ?_, ?_, ?_⟩
    · rw [← hcfg]
      exact hnfv
    · rcases max_choice st.latest_executed_candidate_slot
          (st.latest_executed_final_slot.get_next_slot
            st.config.thread_count) with hc | hc
      · rw [hc]
        exact hinv.lecs_valid
      · rw [hc, ← hcfg]
        exact hnfv
    · exact hnf_le_lexf
    · intro i hi
      exact hinv.seq_exec_cf i (hsuffix.subset hi)
    · intro i hi his
      have his2 : i.slot ≤ st.latest_executed_final_slot.get_next_slot
          st.config.thread_count := his
      exact hbefore i (hsuffix.subset hi) his2
    · intro i hi
      exact hinv.seq_exec_le i (hsuffix.subset hi)
    · exact contig_suffix hsuffix hinv.seq_contig
    · intro i hi
      exact hinv.seq_valid i (hsuffix.subset hi)
    · intro b hb
      have hlastb : st.sequence.getLast? = some b := by
        rw [getLast?_of_suffix hsuffix hkeep]
        exact hb
      have hbeq : b = bk := Option.some.inj (hlastb.symm.trans hbk)
      subst hbeq
      exact ⟨hbk1, hbk2⟩
    · intro hz
      exact absurd hz hkeep
  · -- Low-priority candidate dispatch: only the candidate cursor advances.
    rw [hst]
    refine ⟨hcfg ▸ rfl, hinv.lcfs_len, hinv.lcfs_thread, hinv.lefs_valid, ?_,
      hinv.lexf_valid, hinv.lefs_le_lexf, ?_, hinv.seq_exec_cf,
      hinv.seq_before_lefs, hinv.seq_exec_le, hinv.seq_contig, hinv.seq_valid,
      hinv.seq_last, ?_⟩
    · rw [← hcfg]
      exact Slot.valid_next h0'
    · refine le_trans hinv.lefs_le_lecs (le_of_lt ?_)
      exact @Slot.lt_next st.latest_executed_candidate_slot
        st.config.thread_count (by rw [hcfg]; exact hinv.lecs_valid)
    · intro hz
      exact absurd hz hseq
  · rw [hst]
    exact hinv

theorem reachable_inv {cfg : ExecutionConfig} {st : SlotSequencer}
    (h : Reachable cfg st) : C3Inv cfg st := by
  induction h with
  | base fc hv => exact new_inv hv
  | update_step time_cursor nfb bq md hr hempty hupd ih =>
    exact update_inv_preserved ih hempty hupd
  | run_step time_cursor d st2 hr hrun ih =>
    exact run_inv_preserved ih hrun

/-- C3 (amended): for every sequencer state reachable from
`new(config, final_cursor)` by `update` and `run_task_with` calls — with the
amended preconditions that `final_cursor` is a valid slot and that an
`update` performed while the sequence is empty only reports CSS-final blocks
at or after `latest_executed_final_slot` (see `Reachable`) —
`latest_executed_final_slot ≤ latest_execution_final_slot`,
`latest_executed_candidate_slot ≥ latest_executed_final_slot`, every
`SlotInfo` with `execution_final = true` also has `consensus_final = true`,
and the slots stored in the deque are consecutive under `next` (no gaps).
Without the amendment the third conjunct fails:
see `claim_C3_counterexample`. -/
theorem claim_C3_reachable_invariants (cfg : ExecutionConfig)
    (st : SlotSequencer) (h : Reachable cfg st) :
    st.latest_executed_final_slot ≤ st.latest_execution_final_slot ∧
    st.latest_executed_final_slot ≤ st.latest_executed_candidate_slot ∧
    (∀ i ∈ st.sequence, i.execution_final = true →
      i.consensus_final = true) ∧
    Contig cfg.thread_count st.sequence :=
  ⟨(reachable_inv h).lefs_le_lexf, (reachable_inv h).lefs_le_lecs,
    (reachable_inv h).seq_exec_cf, (reachable_inv h).seq_contig⟩

/-- C3 counterexample to the claim as stated (without preconditions): from
`new` with `final_cursor = (100, 0)` — ahead of the first CSS-final blocks —
a single `update` reporting a CSS-final block at slot `(5, 0)` and a
blockclique block at `(6, 0)` succeeds and leaves SlotInfo entries (at slots
`(5, 1)` and `(6, 0)`) with `execution_final = true` but
`consensus_final = false`: the init walk marks every built slot at or before
the stale `latest_execution_final_slot` as SCE-final. -/
theorem claim_C3_counterexample :
    SlotSequencer.update (SlotSequencer.new ⟨2, 0⟩ ⟨100, 0⟩) ⟨0, 0⟩
        [(⟨5, 0⟩, 21)] (some [(⟨6, 0⟩, 22)]) [(21, 0), (22, 0)] =
      some ⟨⟨2, 0⟩,
        [⟨⟨5, 0⟩, true, true, some (21, 0)⟩, ⟨⟨5, 1⟩, false, true, none⟩,
          ⟨⟨6, 0⟩, false, true, some (22, 0)⟩],
        [⟨5, 0⟩, ⟨0, 1⟩], ⟨100, 0⟩, ⟨100, 0⟩, ⟨100, 0⟩⟩ ∧
    ¬ (∀ i ∈ [(⟨⟨5, 0⟩, true, true, some (21, 0)⟩ : SlotInfo),
        ⟨⟨5, 1⟩, false, true, none⟩, ⟨⟨6, 0⟩, false, true, some (22, 0)⟩],
      i.execution_final = true → i.consensus_final = true) := by
  constructor
  · decide
  · decide

theorem claim_C3_reachable_invariants_witness :
    SlotSequencer.update (SlotSequencer.new ⟨2, 0⟩ ⟨0, 1⟩) ⟨1, 0⟩
        [(⟨1, 0⟩, 21)] (some [(⟨1, 1⟩, 22)]) [(21, 0), (22, 0)] =
      some ⟨⟨2, 0⟩,
        [⟨⟨1, 0⟩, true, false, some (21, 0)⟩,
          ⟨⟨1, 1⟩, false, false, some (22, 0)⟩],
        [⟨1, 0⟩, ⟨0, 1⟩], ⟨0, 1⟩, ⟨0, 1⟩, ⟨0, 1⟩⟩ ∧
    ((⟨⟨2, 0⟩,
        [⟨⟨1, 0⟩, true, false, some (21, 0)⟩,
          ⟨⟨1, 1⟩, false, false, some (22, 0)⟩],
        [⟨1, 0⟩, ⟨0, 1⟩], ⟨0, 1⟩, ⟨0, 1⟩, ⟨0, 1⟩⟩ :
          SlotSequencer).latest_executed_final_slot ≤
        (⟨⟨2, 0⟩,
          [⟨⟨1, 0⟩, true, false, some (21, 0)⟩,
            ⟨⟨1, 1⟩, false, false, some (22, 0)⟩],
          [⟨1, 0⟩, ⟨0, 1⟩], ⟨0, 1⟩, ⟨0, 1⟩, ⟨0, 1⟩⟩ :
            SlotSequencer).latest_execution_final_slot ∧
      (⟨⟨2, 0⟩,
        [⟨⟨1, 0⟩, true, false, some (21, 0)⟩,
          ⟨⟨1, 1⟩, false, false, some (22, 0)⟩],
        [⟨1, 0⟩, ⟨0, 1⟩], ⟨0, 1⟩, ⟨0, 1⟩, ⟨0, 1⟩⟩ :
          SlotSequencer).latest_executed_final_slot ≤
        (⟨⟨2, 0⟩,
          [⟨⟨1, 0⟩, true, false, some (21, 0)⟩,
            ⟨⟨1, 1⟩, false, false, some (22, 0)⟩],
          [⟨1, 0⟩, ⟨0, 1⟩], ⟨0, 1⟩, ⟨0, 1⟩, ⟨0, 1⟩⟩ :
            SlotSequencer).latest_executed_candidate_slot ∧
      (∀ i ∈ (⟨⟨2, 0⟩,
        [⟨⟨1, 0⟩, true, false, some (21, 0)⟩,
          ⟨⟨1, 1⟩, false, false, some (22, 0)⟩],
        [⟨1, 0⟩, ⟨0, 1⟩], ⟨0, 1⟩, ⟨0, 1⟩, ⟨0, 1⟩⟩ :
          SlotSequencer).sequence, i.execution_final = true →
        i.consensus_final = true) ∧
      Contig (⟨2, 0⟩ : ExecutionConfig).thread_count
        (⟨⟨2, 0⟩,
          [⟨⟨1, 0⟩, true, false, some (21, 0)⟩,
            ⟨⟨1, 1⟩, false, false, some (22, 0)⟩],
          [⟨1, 0⟩, ⟨0, 1⟩], ⟨0, 1⟩, ⟨0, 1⟩, ⟨0, 1⟩⟩ :
            SlotSequencer).sequence) :=
  ⟨by decide,
    claim_C3_reachable_invariants ⟨2, 0⟩
      ⟨⟨2, 0⟩,
        [⟨⟨1, 0⟩, true, false, some (21, 0)⟩,
          ⟨⟨1, 1⟩, false, false, some (22, 0)⟩],
        [⟨1, 0⟩, ⟨0, 1⟩], ⟨0, 1⟩, ⟨0, 1⟩, ⟨0, 1⟩⟩
      (Reachable.update_step ⟨1, 0⟩ [(⟨1, 0⟩, 21)] (some [(⟨1, 1⟩, 22)])
        [(21, 0), (22, 0)] (Reachable.base ⟨0, 1⟩ (by decide))
        (fun _ => by decide) (by decide))⟩

end Massa
